import Mathlib

/-!
Verification development for the `coro` interpreter: a shallow embedding of the
bytecode model (`src/code.rs`), the value model (`src/value.rs`), the code
generator (`src/cgen.rs`) and the coroutine virtual machine (`src/vm.rs`),
together with proofs about the compiler's stack discipline, the jump-offset
invariants, and the resume/yield protocol.

Modelling conventions:
* Rust `f64` numbers are modelled as `Rat`.  No claim under scrutiny depends on
  IEEE-754 rounding, overflow or NaN; the division-by-zero guard in the VM
  compares against exactly `0.0`, which is faithfully `= 0` on `Rat`.
* Rust `Rc<FnDef>` pointer identity is modelled by tagging every function
  definition value with an allocation id (`FnRef`); the compiler threads a
  fresh-id counter, so distinct `Rc::new` calls get distinct ids, which makes
  `Rc::ptr_eq`-based constant-pool deduplication behave exactly as in Rust.
* Rust `Rc<RefCell<Coro>>` handles are modelled as indices into a coroutine
  heap carried by the global state; the `RefCell` borrow flag is modelled
  explicitly so that re-entrant borrows panic as in Rust.
* Rust panics (`unwrap` on an empty stack, out-of-range indexing, `RefCell`
  borrow errors, arithmetic underflow on `usize`) are modelled as explicit
  outcomes; the panic of `emit_block` on an empty block is modelled by the
  compiler returning `none`.
* `HashMap<String, Value>` is modelled as an association list with
  insert-overwrite semantics.
* Execution uses explicit fuel; running out of fuel is the distinguished
  outcome `Res.oom`, which corresponds to no Rust behaviour (the Rust loop
  just keeps going) and is never identified with any observable result.
-/

namespace Coro

/-- Bytecode instructions, from `enum Instr` in `src/code.rs`. -/
inductive Instr
  | opUnit
  | opTrue
  | opFalse
  | opConst (idx : Nat)
  | opAdd
  | opSub
  | opMul
  | opDiv
  | opNeg
  | opNot
  | opLt
  | opEq
  | opLoop (offset : Nat)
  | opJump (offset : Nat)
  | opBranch (offset : Nat)
  | opLoad (idx : Nat)
  | opStore (idx : Nat)
  | opDefine (idx : Nat)
  | opCreate (idx : Nat)
  | opResume (num : Nat)
  | opYield
  | opPrint
  | opPop
  | opRet
  deriving DecidableEq, Repr

mutual
/-- Runtime values, from `enum Value` in `src/value.rs`.  `num` carries a `Rat`
modelling `f64`; `fn` carries an id-tagged definition modelling `Rc<FnDef>`;
`co` carries a heap index modelling `Rc<RefCell<Coro>>`. -/
inductive Value
  | unit
  | bool (b : Bool)
  | num (n : Rat)
  | str (s : String)
  | fn (r : FnRef)
  | co (id : Nat)

/-- A shared reference to a function definition: the `Nat` is the allocation
identity of the `Rc`, used for `Rc::ptr_eq`. -/
inductive FnRef
  | mk (id : Nat) (fdef : FnDef)

/-- `struct FnDef` from `src/value.rs`: name, parameter list, owned code. -/
inductive FnDef
  | mk (name : String) (params : List String) (code : Code)

/-- `struct Code` from `src/code.rs`: instruction buffer, constant pool, and a
parallel buffer of source line numbers. -/
inductive Code
  | mk (instrs : List Instr) (consts : List Value) (lines : List Nat)
end

def FnRef.id : FnRef → Nat
  | .mk i _ => i

def FnRef.fdef : FnRef → FnDef
  | .mk _ d => d

def FnDef.name : FnDef → String
  | .mk n _ _ => n

def FnDef.params : FnDef → List String
  | .mk _ p _ => p

def FnDef.code : FnDef → Code
  | .mk _ _ c => c

/-- `FnDef::name()`: the empty name denotes the synthetic top-level function,
rendered `__main__`. -/
def FnDef.nameDisp (d : FnDef) : String :=
  if d.name = "" then "__main__" else d.name

/-- `FnDef::arity()`. -/
def FnDef.arity (d : FnDef) : Nat :=
  d.params.length

/-- `FnDef::param(idx)` (indexing panics are irrelevant: the only caller has
checked the arity). -/
def FnDef.param (d : FnDef) (idx : Nat) : String :=
  d.params.getD idx ""

def Code.instrs : Code → List Instr
  | .mk i _ _ => i

def Code.consts : Code → List Value
  | .mk _ c _ => c

def Code.lines : Code → List Nat
  | .mk _ _ l => l

/-- `Code::new()`. -/
def Code.new : Code := .mk [] [] []

/-- `Code::len()`. -/
def Code.len (c : Code) : Nat := c.instrs.length

/-- `Code::instr(idx)` as a total lookup; the VM only calls it under the
`ip < len` loop guard. -/
def Code.instrAt? (c : Code) (idx : Nat) : Option Instr := c.instrs.get? idx

/-- `Code::constant(idx)` as an optional lookup; `none` models the Rust
out-of-bounds indexing panic. -/
def Code.constantAt? (c : Code) (idx : Nat) : Option Value := c.consts.get? idx

/-- `Code::add(instr, line)`: push the instruction and its line, returning the
instruction's index. -/
def Code.add (c : Code) (i : Instr) (line : Nat) : Code × Nat :=
  (.mk (c.instrs ++ [i]) c.consts (c.lines ++ [line]), c.instrs.length)

/-- `Code::patch(idx, instr)`. -/
def Code.patch (c : Code) (idx : Nat) (i : Instr) : Code :=
  .mk (c.instrs.set idx i) c.consts c.lines

/-- `impl PartialEq for Value` from `src/value.rs`: by value for
unit/bool/num/str, by pointer identity (here: allocation id / heap index) for
`fn` and `co`; different variants are never equal. -/
def valueEqb : Value → Value → Bool
  | .unit, .unit => true
  | .bool b1, .bool b2 => b1 == b2
  | .num n1, .num n2 => n1 == n2
  | .str s1, .str s2 => s1 == s2
  | .fn r1, .fn r2 => r1.id == r2.id
  | .co c1, .co c2 => c1 == c2
  | _, _ => false

/-- `Code::add_const(value)`: deduplicating addition, returning the index of
the first equal constant if one exists. -/
def Code.add_const (c : Code) (v : Value) : Code × Nat :=
  match c.consts.findIdx? (fun w => valueEqb w v) with
  | some i => (c, i)
  | none => (.mk c.instrs (c.consts ++ [v]) c.lines, c.consts.length)

/-- `Value::is_falsey()`: `Unit` and `Bool(false)` are falsey. -/
def Value.is_falsey : Value → Bool
  | .unit => true
  | .bool b => !b
  | _ => false

def Value.is_num : Value → Bool
  | .num _ => true
  | _ => false

def Value.is_str : Value → Bool
  | .str _ => true
  | _ => false

def Value.is_fn : Value → Bool
  | .fn _ => true
  | _ => false

def Value.is_co : Value → Bool
  | .co _ => true
  | _ => false

/-- `CoStatus` from `src/vm.rs`. -/
inductive CoStatus
  | suspended
  | running
  | done
  deriving DecidableEq, Repr

/-- The lower-cased `Debug` rendering of a status used by `Coro`'s `Display`. -/
def CoStatus.disp : CoStatus → String
  | .suspended => "suspended"
  | .running => "running"
  | .done => "done"

end Coro

namespace Coro

/-! ### Abstract syntax, from `src/ast.rs` -/

mutual
/-- `enum Bind`. -/
inductive Bind
  | defB (d : DefBind)
  | letB (l : LetBind)
  | cmd (c : Cmd)

/-- `struct DefBind`. -/
inductive DefBind
  | mk (name : String) (params : List String) (body : Cmd)

/-- `struct LetBind`. -/
inductive LetBind
  | mk (name : String) (init : Cmd)

/-- `enum Cmd`. -/
inductive Cmd
  | print (e : Expr)
  | create (name : String)
  | resumeC (e : Expr) (args : List Expr)
  | yieldC (e : Expr)
  | whileC (cond : Expr) (body : Expr)
  | ifC (cond : Expr) (thn : Expr) (alt : Expr)
  | expr (e : Expr)

/-- `enum Expr`. -/
inductive Expr
  | lt (lhs rhs : Expr)
  | eq (lhs rhs : Expr)
  | add (lhs rhs : Expr)
  | sub (lhs rhs : Expr)
  | mul (lhs rhs : Expr)
  | div (lhs rhs : Expr)
  | neg (e : Expr)
  | notE (e : Expr)
  | block (items : List Bind)
  | group (c : Cmd)
  | ident (name : String)
  | boolE (b : Bool)
  | numE (n : Rat)
  | strE (s : String)
  | unitE
end

def DefBind.name : DefBind → String
  | .mk n _ _ => n

def DefBind.params : DefBind → List String
  | .mk _ p _ => p

def DefBind.body : DefBind → Cmd
  | .mk _ _ b => b

def LetBind.name : LetBind → String
  | .mk n _ => n

def LetBind.init : LetBind → Cmd
  | .mk _ i => i

/-- `struct Ast`: the program is a list of bindings. -/
structure Ast where
  items : List Bind

/-! ### Code generation, from `src/cgen.rs`

The emit functions thread the code buffer and a fresh-id counter for `Rc`
allocation identities of function definitions.  They return `none` exactly
where the Rust code panics (the `len - 1` underflow / `unwrap` of an empty
iterator in `emit_block` on an empty block). -/

/-- `emit_create`. -/
def emit_create (code : Code) (name : String) : Code :=
  let (code1, idx) := code.add_const (.str name)
  (code1.add (.opCreate idx) 1).1

/-- `emit_loop`: the ip points to the next instruction, so the backward offset
is one more than the distance to the target. -/
def emit_loop (code : Code) (target_idx : Nat) : Code :=
  let offset := code.len - target_idx + 1
  (code.add (.opLoop offset) 1).1

/-- `backpatch`: the ip points to the next instruction, so the forward offset
is one less than the distance from the jump to the landing site. -/
def backpatch (code : Code) (idx : Nat) (is_jump : Bool) : Code :=
  let offset := code.len - idx - 1
  let instr := if is_jump then Instr.opJump offset else Instr.opBranch offset
  code.patch idx instr

/-- `patch_jump`. -/
def patch_jump (code : Code) (idx : Nat) : Code := backpatch code idx true

/-- `patch_branch`. -/
def patch_branch (code : Code) (idx : Nat) : Code := backpatch code idx false

/-- `emit_const`. -/
def emit_const (code : Code) (value : Value) : Code :=
  let (code1, idx) := code.add_const value
  (code1.add (.opConst idx) 1).1

mutual
/-- `emit_block`: compile every item, inserting `Pop` after each non-final
item.  On an empty block the Rust code underflows `len - 1` and panics, which
is modelled by `none`. -/
def emit_block (code : Code) (ctr : Nat) : List Bind → Option (Code × Nat)
  | [] => none
  | [b] => emit_bind code ctr b
  | b :: rest => do
      let (code1, ctr1) ← emit_bind code ctr b
      let code2 := (code1.add .opPop 1).1
      emit_block code2 ctr1 rest
termination_by bs => sizeOf bs

/-- `emit_bind`. -/
def emit_bind (code : Code) (ctr : Nat) : Bind → Option (Code × Nat)
  | .defB d => emit_def code ctr d
  | .letB l => emit_let code ctr l
  | .cmd c => emit_cmd code ctr c
termination_by b => sizeOf b

/-- `emit_def`: compile the body into a fresh code object, append `Ret`, wrap
in a `FnDef` behind a fresh `Rc` (fresh allocation id), add it to the
enclosing constant pool and emit `Define`. -/
def emit_def (code : Code) (ctr : Nat) : DefBind → Option (Code × Nat)
  | .mk name params body => do
      let (body_code, ctr1) ← emit_cmd Code.new ctr body
      let body_code := (body_code.add .opRet 1).1
      let fdef := FnDef.mk name params body_code
      let (code1, idx) := code.add_const (.fn (.mk ctr1 fdef))
      some ((code1.add (.opDefine idx) 1).1, ctr1 + 1)
termination_by d => sizeOf d

/-- `emit_let`. -/
def emit_let (code : Code) (ctr : Nat) : LetBind → Option (Code × Nat)
  | .mk name init => do
      let (code1, ctr1) ← emit_cmd code ctr init
      let (code2, idx) := code1.add_const (.str name)
      some ((code2.add (.opStore idx) 1).1, ctr1)
termination_by l => sizeOf l

/-- `emit_cmd`. -/
def emit_cmd (code : Code) (ctr : Nat) : Cmd → Option (Code × Nat)
  | .print e => do
      let (code1, ctr1) ← emit_expr code ctr e
      some ((code1.add .opPrint 1).1, ctr1)
  | .create name => some (emit_create code name, ctr)
  | .resumeC e args => do
      let (code1, ctr1) ← emit_expr code ctr e
      let (code2, ctr2) ← emit_args code1 ctr1 args
      some ((code2.add (.opResume args.length) 1).1, ctr2)
  | .yieldC e => do
      let (code1, ctr1) ← emit_expr code ctr e
      some ((code1.add .opYield 1).1, ctr1)
  | .whileC cond body => do
      let cond_idx := code.len
      let (code1, ctr1) ← emit_expr code ctr cond
      let (code2, exit_idx) := code1.add (.opBranch 0) 1
      let code3 := (code2.add .opPop 1).1
      let (code4, ctr2) ← emit_expr code3 ctr1 body
      let code5 := (code4.add .opPop 1).1
      let code6 := emit_loop code5 cond_idx
      let code7 := patch_branch code6 exit_idx
      let code8 := (code7.add .opPop 1).1
      some ((code8.add .opUnit 1).1, ctr2)
  | .ifC cond thn alt => do
      let (code1, ctr1) ← emit_expr code ctr cond
      let (code2, then_idx) := code1.add (.opBranch 0) 1
      let code3 := (code2.add .opPop 1).1
      let (code4, ctr2) ← emit_expr code3 ctr1 thn
      let (code5, exit_idx) := code4.add (.opJump 0) 1
      let code6 := patch_branch code5 then_idx
      let code7 := (code6.add .opPop 1).1
      let (code8, ctr3) ← emit_expr code7 ctr2 alt
      some (patch_jump code8 exit_idx, ctr3)
  | .expr e => emit_expr code ctr e
termination_by c => sizeOf c

/-- The argument loop of `emit_resume`: compile each argument in source
order. -/
def emit_args (code : Code) (ctr : Nat) : List Expr → Option (Code × Nat)
  | [] => some (code, ctr)
  | a :: rest => do
      let (code1, ctr1) ← emit_expr code ctr a
      emit_args code1 ctr1 rest
termination_by es => sizeOf es

/-- `emit_expr`. -/
def emit_expr (code : Code) (ctr : Nat) : Expr → Option (Code × Nat)
  | .block binds => emit_block code ctr binds
  | .group c => emit_cmd code ctr c
  | .ident name =>
      let (code1, idx) := code.add_const (.str name)
      some ((code1.add (.opLoad idx) 1).1, ctr)
  | .lt lhs rhs => do
      let (code1, ctr1) ← emit_expr code ctr lhs
      let (code2, ctr2) ← emit_expr code1 ctr1 rhs
      some ((code2.add .opLt 1).1, ctr2)
  | .eq lhs rhs => do
      let (code1, ctr1) ← emit_expr code ctr lhs
      let (code2, ctr2) ← emit_expr code1 ctr1 rhs
      some ((code2.add .opEq 1).1, ctr2)
  | .add lhs rhs => do
      let (code1, ctr1) ← emit_expr code ctr lhs
      let (code2, ctr2) ← emit_expr code1 ctr1 rhs
      some ((code2.add .opAdd 1).1, ctr2)
  | .sub lhs rhs => do
      let (code1, ctr1) ← emit_expr code ctr lhs
      let (code2, ctr2) ← emit_expr code1 ctr1 rhs
      some ((code2.add .opSub 1).1, ctr2)
  | .mul lhs rhs => do
      let (code1, ctr1) ← emit_expr code ctr lhs
      let (code2, ctr2) ← emit_expr code1 ctr1 rhs
      some ((code2.add .opMul 1).1, ctr2)
  | .div lhs rhs => do
      let (code1, ctr1) ← emit_expr code ctr lhs
      let (code2, ctr2) ← emit_expr code1 ctr1 rhs
      some ((code2.add .opDiv 1).1, ctr2)
  | .neg e => do
      let (code1, ctr1) ← emit_expr code ctr e
      some ((code1.add .opNeg 1).1, ctr1)
  | .notE e => do
      let (code1, ctr1) ← emit_expr code ctr e
      some ((code1.add .opNot 1).1, ctr1)
  | .boolE lit =>
      some ((code.add (if lit then .opTrue else .opFalse) 1).1, ctr)
  | .numE lit => some (emit_const code (.num lit), ctr)
  | .strE lit => some (emit_const code (.str lit), ctr)
  | .unitE => some ((code.add .opUnit 1).1, ctr)
termination_by e => sizeOf e
end

/-- `CoGen::compile`: an AST is mostly just a block; empty programs compile to
an empty code object, non-empty ones get a trailing `Ret`. -/
def compile (ast : Ast) : Option Code :=
  if ast.items.isEmpty then some Code.new
  else do
    let (code, _) ← emit_block Code.new 0 ast.items
    some (code.add .opRet 1).1

/-- The function definition built by `CoVM::compile` around the compiled
top-level code (`FnDef::new()` with the code filled in). -/
def compileMain (ast : Ast) : Option FnDef := do
  let code ← compile ast
  some (FnDef.mk "" [] code)

end Coro

namespace Coro

/-! ### The virtual machine, from `src/vm.rs` -/

/-- The coroutine's flat name environment (`HashMap<String, Value>`),
modelled as an association list without duplicate keys. -/
abbrev Env := List (String × Value)

/-- `HashMap::insert`: overwrite semantics. -/
def envInsert (env : Env) (k : String) (v : Value) : Env :=
  (k, v) :: env.filter (fun p => p.1 != k)

/-- `HashMap::get`. -/
def envGet (env : Env) (k : String) : Option Value :=
  (env.find? (fun p => p.1 == k)).map (fun p => p.2)

/-- `struct Coro` from `src/vm.rs` (the field `fun` is called `fn` here). -/
structure CoroSt where
  ip : Nat
  fn : FnDef
  status : CoStatus
  env : Env
  stack : List Value

/-- `Coro::new`. -/
def CoroSt.new (fn : FnDef) : CoroSt :=
  { ip := 0, fn := fn, status := .suspended, env := [], stack := [] }

/-- One `Rc<RefCell<Coro>>` allocation: the coroutine state plus the dynamic
borrow flag of the `RefCell`. -/
structure HeapCell where
  co : CoroSt
  borrowed : Bool

/-- Global ambient state threaded through execution: the heap of coroutine
allocations and the lines written to stdout. -/
structure Glob where
  heap : List HeapCell
  out : List String

def Glob.empty : Glob := ⟨[], []⟩

/-- The `Display` rendering of a number.  Rust formats an `f64` with its
standard shortest-round-trip algorithm; on the `Rat` model we render the
canonical fraction.  No claim under scrutiny inspects a printed number. -/
def ratDisp (q : Rat) : String :=
  if q.den = 1 then toString q.num else toString q.num ++ "/" ++ toString q.den

/-- `impl fmt::Display for Value` (and, inlined, the `Display` of `FnDef` and
`Coro`): note that `Str` is rendered with surrounding quotes.  Rendering a
`Co` value reads through the shared handle (`coro.borrow()`), which panics
(`none`) if the coroutine is currently mutably borrowed. -/
def displayVal (g : Glob) : Value → Option String
  | .unit => some "unit"
  | .bool b => some (if b then "true" else "false")
  | .num n => some (ratDisp n)
  | .str s => some ("\"" ++ s ++ "\"")
  | .fn r =>
      some ("<fn name: " ++ r.fdef.nameDisp ++ " arity: " ++ toString r.fdef.arity ++ ">")
  | .co id =>
      match g.heap.get? id with
      | none => none
      | some cell =>
          if cell.borrowed then none
          else some ("<coro fn: " ++ cell.co.fn.nameDisp ++ " status: " ++
                     cell.co.status.disp ++ ">")

/-- Outcome of running a dispatch loop or a resume call.  `fell`, `yielded`
and `ret` are the three ways `Coro::exec` hands control back; `okv` is the
`Ok` result of `Coro::resume`; `err` is a `Result::Err` (a runtime error);
`underflow` is the Rust panic of popping/peeking an operand that is not
there; `panic` covers the other modelled panics (out-of-range constant
indices, `RefCell` borrow errors, wrongly-typed constants, ip underflow);
`oom` means the fuel ran out (a modelling artifact, never a behaviour). -/
inductive Res
  | fell
  | yielded (v : Value)
  | ret (v : Value)
  | okv (v : Value)
  | err (msg : String)
  | underflow
  | panic (msg : String)
  | oom

/-- `Coro::check_status`. -/
def check_status (self : CoroSt) : Except String Unit :=
  if self.status ≠ .suspended then .error "tried to resume a non-suspended coroutine"
  else .ok ()

/-- `Coro::check_arity`. -/
def check_arity (arity args_len : Nat) : Except String Unit :=
  if arity ≠ args_len then
    .error s!"expected {arity} arguments but got {args_len} when resuming coroutine"
  else .ok ()

/-- `Coro::handle_inputs`: on first entry (`ip = 0`) check the arity and bind
the parameters, pushing nothing; on re-entry push the single argument (or
`Unit` when none is given), rejecting more than one. -/
def handle_inputs (self : CoroSt) (args : List Value) : Except String CoroSt :=
  if self.ip = 0 then
    match check_arity self.fn.arity args.length with
    | .error e => .error e
    | .ok _ =>
        .ok { self with
              env := (self.fn.params.zip args).foldl
                       (fun e pa => envInsert e pa.1 pa.2) self.env }
  else
    if args.isEmpty then
      .ok { self with stack := Value.unit :: self.stack }
    else
      match check_arity 1 args.length with
      | .error e => .error e
      | .ok _ => .ok { self with stack := args.headD .unit :: self.stack }

/-- Result of executing one non-`Resume` instruction: keep looping or leave
the dispatch loop. -/
inductive Step
  | next (self : CoroSt) (g : Glob)
  | halt (self : CoroSt) (g : Glob) (r : Res)

/-- One iteration of the dispatch loop of `Coro::exec`, for every opcode
except `Resume` (which recurses into another coroutine and is handled
directly in `run`).  The instruction pointer of `self` has already been
advanced past the instruction, exactly as in the Rust loop. -/
def execInstr (self : CoroSt) (g : Glob) : Instr → Step
  | .opUnit => .next { self with stack := .unit :: self.stack } g
  | .opTrue => .next { self with stack := .bool true :: self.stack } g
  | .opFalse => .next { self with stack := .bool false :: self.stack } g
  | .opConst idx =>
      match self.fn.code.constantAt? idx with
      | some v => .next { self with stack := v :: self.stack } g
      | none => .halt self g (.panic "constant index out of bounds")
  | .opAdd =>
      match self.stack with
      | .num rhs :: .num lhs :: rest =>
          .next { self with stack := .num (lhs + rhs) :: rest } g
      | _ :: _ :: _ => .halt self g (.err "operands must be numbers")
      | _ => .halt self g .underflow
  | .opSub =>
      match self.stack with
      | .num rhs :: .num lhs :: rest =>
          .next { self with stack := .num (lhs - rhs) :: rest } g
      | _ :: _ :: _ => .halt self g (.err "operands must be numbers")
      | _ => .halt self g .underflow
  | .opMul =>
      match self.stack with
      | .num rhs :: .num lhs :: rest =>
          .next { self with stack := .num (lhs * rhs) :: rest } g
      | _ :: _ :: _ => .halt self g (.err "operands must be numbers")
      | _ => .halt self g .underflow
  | .opDiv =>
      match self.stack with
      | .num rhs :: .num lhs :: rest =>
          -- the operands are popped before the zero test
          if rhs = 0 then .halt { self with stack := rest } g (.err "cannot divide by zero")
          else .next { self with stack := .num (lhs / rhs) :: rest } g
      | _ :: _ :: _ => .halt self g (.err "operands must be numbers")
      | _ => .halt self g .underflow
  | .opNeg =>
      match self.stack with
      | .num n :: rest => .next { self with stack := .num (-n) :: rest } g
      | _ :: _ => .halt self g (.err "operand must be a number")
      | [] => .halt self g .underflow
  | .opNot =>
      match self.stack with
      | v :: rest => .next { self with stack := .bool v.is_falsey :: rest } g
      | [] => .halt self g .underflow
  | .opLt =>
      match self.stack with
      | .num rhs :: .num lhs :: rest =>
          .next { self with stack := .bool (decide (lhs < rhs)) :: rest } g
      | _ :: _ :: _ => .halt self g (.err "operands must be numbers")
      | _ => .halt self g .underflow
  | .opEq =>
      match self.stack with
      | rhs :: lhs :: rest =>
          .next { self with stack := .bool (valueEqb lhs rhs) :: rest } g
      | _ => .halt self g .underflow
  | .opLoop offset =>
      -- `self.ip -= offset` on `usize`: going below zero is a Rust panic.
      if offset ≤ self.ip then .next { self with ip := self.ip - offset } g
      else .halt self g (.panic "instruction pointer underflow")
  | .opJump offset => .next { self with ip := self.ip + offset } g
  | .opBranch offset =>
      match self.stack with
      | v :: _ =>
          if v.is_falsey then .next { self with ip := self.ip + offset } g
          else .next self g
      | [] => .halt self g .underflow
  | .opLoad idx =>
      match self.fn.code.constantAt? idx with
      | some (.str name) =>
          match envGet self.env name with
          | some v => .next { self with stack := v :: self.stack } g
          | none => .halt self g (.err ("no binding for name '" ++ name ++ "'"))
      | some _ => .halt self g (.panic "constant is not a string")
      | none => .halt self g (.panic "constant index out of bounds")
  | .opStore idx =>
      match self.fn.code.constantAt? idx with
      | some (.str name) =>
          match self.stack with
          | v :: rest =>
              .next { self with env := envInsert self.env name v, stack := .unit :: rest } g
          | [] => .halt self g .underflow
      | some _ => .halt self g (.panic "constant is not a string")
      | none => .halt self g (.panic "constant index out of bounds")
  | .opDefine idx =>
      match self.fn.code.constantAt? idx with
      | some (.fn r) =>
          .next
            { self with env := envInsert self.env r.fdef.nameDisp (.fn r), stack := .unit :: self.stack }
            g
      | some _ => .halt self g (.panic "constant is not a function")
      | none => .halt self g (.panic "constant index out of bounds")
  | .opCreate idx =>
      match self.fn.code.constantAt? idx with
      | some (.str name) =>
          match envGet self.env name with
          | none => .halt self g (.err ("no binding for name '" ++ name ++ "'"))
          | some (.fn r) =>
              .next { self with stack := .co g.heap.length :: self.stack }
                    { g with heap := g.heap ++ [⟨CoroSt.new r.fdef, false⟩] }
          | some _ => .halt self g (.err ("'" ++ name ++ "' is not a function"))
      | some _ => .halt self g (.panic "constant is not a string")
      | none => .halt self g (.panic "constant index out of bounds")
  | .opYield =>
      match self.stack with
      | v :: rest => .halt { self with status := .suspended, stack := rest } g (.yielded v)
      | [] => .halt self g .underflow
  | .opPrint =>
      match self.stack with
      | v :: rest =>
          match displayVal g v with
          | some s => .next { self with stack := .unit :: rest }
                            { g with out := g.out ++ [s] }
          | none => .halt { self with stack := .unit :: rest } g
                         (.panic "borrow error while printing")
      | [] => .halt self g .underflow
  | .opPop =>
      -- `self.stack.pop();` — `Vec::pop` on an empty vector is a no-op.
      .next { self with stack := self.stack.tail } g
  | .opRet =>
      match self.stack with
      | v :: rest => .halt { self with status := .done, stack := rest } g (.ret v)
      | [] => .halt { self with status := .done } g (.ret .unit)
  | .opResume _ => .halt self g (.panic "unreachable: Resume is handled by run")

/-- A pending piece of work: the dispatch loop of `Coro::exec` running one
coroutine, or a call to `Coro::resume`. -/
inductive Job
  | exec (self : CoroSt) (g : Glob)
  | res (self : CoroSt) (g : Glob) (args : List Value)

/-- The step of `Coro::resume` after `exec` returns `Ok(res)`: a coroutine
whose ip ran past the end of its code is marked `Done`. -/
def finishResume (s : CoroSt) (g : Glob) (v : Value) : CoroSt × Glob × Res :=
  if s.fn.code.len ≤ s.ip then ({ s with status := .done }, g, .okv v)
  else (s, g, .okv v)

/-- The fuel-exhausted truncation of the machine: the dispatch loop still
exits normally when the ip is already past the end, and `resume` still
performs its status and input checks, but any work that would need another
iteration yields `oom`. -/
def runZero : Job → CoroSt × Glob × Res
  | .exec self g =>
      if self.ip < self.fn.code.len then (self, g, .oom) else (self, g, .fell)
  | .res self g args =>
      match check_status self with
      | .error e => (self, g, .err e)
      | .ok _ =>
        match handle_inputs self args with
        | .error e => (self, g, .err e)
        | .ok _ => (self, g, .oom)

/-- One layer of the mutually recursive pair `Coro::exec` / `Coro::resume`;
`recurse` is the machine with one unit of fuel less.  An `exec` job runs one
iteration of the dispatch loop of one coroutine; its `Resume` case marks the
caller suspended, borrows the callee cell from the heap, runs a nested `res`
job, writes the callee back, and on success pushes the produced value and
keeps looping.  A `res` job checks the status, handles the inputs, marks the
coroutine running and enters its loop. -/
def runF (recurse : Job → CoroSt × Glob × Res) : Job → CoroSt × Glob × Res
  | .exec self g =>
    if h : self.ip < self.fn.code.len then
      let ins := self.fn.code.instrs.get ⟨self.ip, h⟩
      let self1 := { self with ip := self.ip + 1 }
      match ins with
      | .opResume num =>
          -- pop the `num` arguments (source order), then the coroutine
          if num ≤ self1.stack.length then
            let args := (self1.stack.take num).reverse
            match self1.stack.drop num with
            | [] => (self1, g, .underflow)
            | .co id :: rest2 =>
                let self2 := { self1 with status := .suspended, stack := rest2 }
                match g.heap.get? id with
                | none => (self2, g, .panic "dangling coroutine handle")
                | some cell =>
                    if cell.borrowed then
                      (self2, g, .panic "coroutine already mutably borrowed")
                    else
                      let g1 := { g with heap := g.heap.set id ⟨cell.co, true⟩ }
                      let out := recurse (.res cell.co g1 args)
                      let g3 := { out.2.1 with heap := out.2.1.heap.set id ⟨out.1, false⟩ }
                      match out.2.2 with
                      | .okv v =>
                          recurse
                            (.exec { self2 with status := .running, stack := v :: rest2 } g3)
                      | r => (self2, g3, r)
            | _ :: rest2 =>
                -- the arguments and the non-coroutine value are already popped
                ({ self1 with stack := rest2 }, g, .err "only coroutines can be resumed")
          else (self1, g, .underflow)
      | ins =>
        match execInstr self1 g ins with
        | .next s2 g2 => recurse (.exec s2 g2)
        | .halt s2 g2 r => (s2, g2, r)
    else (self, g, .fell)
  | .res self g args =>
    match check_status self with
    | .error e => (self, g, .err e)
    | .ok _ =>
      match handle_inputs self args with
      | .error e => (self, g, .err e)
      | .ok s1 =>
        let out := recurse (.exec { s1 with status := .running } g)
        match out.2.2 with
        | .yielded v => finishResume out.1 out.2.1 v
        | .ret v => finishResume out.1 out.2.1 v
        | .fell => finishResume out.1 out.2.1 .unit
        | r => (out.1, out.2.1, r)

/-- The machine: iterate `runF` by fuel, defined directly by `Nat.rec` so
that evaluation on concrete inputs unfolds linearly. -/
def run (fuel : Nat) : Job → CoroSt × Glob × Res :=
  Nat.rec runZero (fun _ ih => runF ih) fuel

theorem run_zero (job : Job) : run 0 job = runZero job := rfl

theorem run_succ (fuel : Nat) (job : Job) : run (fuel + 1) job = runF (run fuel) job := rfl

/-- `Coro::resume` at the VM boundary. -/
def resume (fuel : Nat) (self : CoroSt) (g : Glob) (args : List Value) :
    CoroSt × Glob × Res :=
  run fuel (.res self g args)

/-- `CoVM::run`: resume with no arguments. -/
def vmRun (fuel : Nat) (self : CoroSt) (g : Glob) : CoroSt × Glob × Res :=
  resume fuel self g []

/-- `CoVM::rewind`: reset ip, replace the function, force `Suspended`, clear
the operand stack, keep the environment. -/
def rewind (co : CoroSt) (fn : FnDef) : CoroSt :=
  { co with ip := 0, fn := fn, status := .suspended, stack := [] }

end Coro

namespace Coro

/-! ### Linear stack-effect simulation

The per-opcode net stack effects from the opcode table of the specification
(§4.1).  A linear simulation scans the instruction buffer in order and adds
the effects, ignoring control flow. -/

/-- Net stack effect of one instruction per the specification's opcode
table. -/
def linEffect : Instr → Int
  | .opUnit => 1
  | .opTrue => 1
  | .opFalse => 1
  | .opConst _ => 1
  | .opAdd => -1
  | .opSub => -1
  | .opMul => -1
  | .opDiv => -1
  | .opNeg => 0
  | .opNot => 0
  | .opLt => -1
  | .opEq => -1
  | .opLoop _ => 0
  | .opJump _ => 0
  | .opBranch _ => 0
  | .opLoad _ => 1
  | .opStore _ => 0
  | .opDefine _ => 1
  | .opCreate _ => 1
  | .opResume n => -(n : Int)
  | .opYield => -1
  | .opPrint => 0
  | .opPop => -1
  | .opRet => -1

/-- The running depths of the linear simulation started at `d`: the list of
abstract stack depths before/after each instruction, in program order. -/
def linearScan (l : List Instr) (d : Int) : List Int :=
  match l with
  | [] => [d]
  | i :: rest => d :: linearScan rest (d + linEffect i)

/-! ### Empty blocks, for the `emit_block` panic -/

mutual
/-- Does a binding contain a block expression with an empty item list? -/
def Bind.hasEmptyBlock : Bind → Bool
  | .defB (.mk _ _ body) => body.hasEmptyBlock
  | .letB (.mk _ init) => init.hasEmptyBlock
  | .cmd c => c.hasEmptyBlock
termination_by b => sizeOf b

/-- Does a command contain a block expression with an empty item list? -/
def Cmd.hasEmptyBlock : Cmd → Bool
  | .print e => e.hasEmptyBlock
  | .create _ => false
  | .resumeC e args => e.hasEmptyBlock || Expr.listHasEmptyBlock args
  | .yieldC e => e.hasEmptyBlock
  | .whileC c b => c.hasEmptyBlock || b.hasEmptyBlock
  | .ifC c t a => c.hasEmptyBlock || t.hasEmptyBlock || a.hasEmptyBlock
  | .expr e => e.hasEmptyBlock
termination_by c => sizeOf c

/-- Any expression of the list contains an empty block? -/
def Expr.listHasEmptyBlock : List Expr → Bool
  | [] => false
  | e :: rest => e.hasEmptyBlock || Expr.listHasEmptyBlock rest
termination_by es => sizeOf es

/-- Does an expression contain a block expression with an empty item list
(itself included)? -/
def Expr.hasEmptyBlock : Expr → Bool
  | .lt l r => l.hasEmptyBlock || r.hasEmptyBlock
  | .eq l r => l.hasEmptyBlock || r.hasEmptyBlock
  | .add l r => l.hasEmptyBlock || r.hasEmptyBlock
  | .sub l r => l.hasEmptyBlock || r.hasEmptyBlock
  | .mul l r => l.hasEmptyBlock || r.hasEmptyBlock
  | .div l r => l.hasEmptyBlock || r.hasEmptyBlock
  | .neg e => e.hasEmptyBlock
  | .notE e => e.hasEmptyBlock
  | .block items => items.isEmpty || Bind.listHasEmptyBlock items
  | .group c => c.hasEmptyBlock
  | .ident _ => false
  | .boolE _ => false
  | .numE _ => false
  | .strE _ => false
  | .unitE => false
termination_by e => sizeOf e

/-- Any binding of the list contains an empty block? -/
def Bind.listHasEmptyBlock : List Bind → Bool
  | [] => false
  | b :: rest => b.hasEmptyBlock || Bind.listHasEmptyBlock rest
termination_by bs => sizeOf bs
end

/-- Does the program contain a block expression with an empty item list?
(The top-level item list itself is special-cased by `compile` and is allowed
to be empty.) -/
def Ast.hasEmptyBlock (ast : Ast) : Bool :=
  Bind.listHasEmptyBlock ast.items

/-! ### Flow-sensitive stack-depth typing

A depth map `D` assigns to every instruction boundary the operand-stack depth
the dispatch loop has there.  `instrOK` is the local consistency condition of
one instruction: its pops find enough operands and every control-flow
successor is assigned the right depth.  This is the "stack-effect
annotation" made flow-sensitive: within straight-line code it coincides with
the linear simulation, but jump targets receive the depth of the jump source
rather than of the preceding instruction. -/

/-- Local stack-depth consistency of the instruction at index `i` for the
depth map `D` in a buffer of length `len`. -/
def instrOK (len : Nat) (D : Nat → Nat) (i : Nat) : Instr → Prop
  | .opUnit => D (i + 1) = D i + 1
  | .opTrue => D (i + 1) = D i + 1
  | .opFalse => D (i + 1) = D i + 1
  | .opConst _ => D (i + 1) = D i + 1
  | .opLoad _ => D (i + 1) = D i + 1
  | .opDefine _ => D (i + 1) = D i + 1
  | .opCreate _ => D (i + 1) = D i + 1
  | .opStore _ => 1 ≤ D i ∧ D (i + 1) = D i
  | .opPrint => 1 ≤ D i ∧ D (i + 1) = D i
  | .opNeg => 1 ≤ D i ∧ D (i + 1) = D i
  | .opNot => 1 ≤ D i ∧ D (i + 1) = D i
  | .opYield => 1 ≤ D i ∧ D (i + 1) = D i
  | .opAdd => 2 ≤ D i ∧ D i = D (i + 1) + 1
  | .opSub => 2 ≤ D i ∧ D i = D (i + 1) + 1
  | .opMul => 2 ≤ D i ∧ D i = D (i + 1) + 1
  | .opDiv => 2 ≤ D i ∧ D i = D (i + 1) + 1
  | .opLt => 2 ≤ D i ∧ D i = D (i + 1) + 1
  | .opEq => 2 ≤ D i ∧ D i = D (i + 1) + 1
  | .opPop => 1 ≤ D i ∧ D i = D (i + 1) + 1
  | .opResume n => n + 1 ≤ D i ∧ D i = D (i + 1) + n
  | .opJump k => i + 1 + k ≤ len ∧ D (i + 1 + k) = D i
  | .opBranch k => 1 ≤ D i ∧ i + 1 + k ≤ len ∧ D (i + 1 + k) = D i ∧ D (i + 1) = D i
  | .opLoop k => 1 ≤ k ∧ k ≤ i + 1 ∧ D (i + 1 - k) = D i
  | .opRet => True

/-- The depth map `D` is consistent for the whole buffer `l`. -/
def fragWT (l : List Instr) (D : Nat → Nat) : Prop :=
  ∀ i, (h : i < l.length) → instrOK l.length D i (l.get ⟨i, h⟩)

/-- The buffer `l` admits a consistent depth map going from depth `dIn` at
entry to depth `dOut` at its end. -/
def FragWT (l : List Instr) (dIn dOut : Nat) : Prop :=
  ∃ D : Nat → Nat, D 0 = dIn ∧ D l.length = dOut ∧ fragWT l D

/-- All jump landing sites are strictly inside the buffer. -/
def JumpsStrict (l : List Instr) : Prop :=
  ∀ i, (h : i < l.length) →
    match l.get ⟨i, h⟩ with
    | .opJump k => i + 1 + k < l.length
    | .opBranch k => i + 1 + k < l.length
    | .opLoop k => 1 ≤ k ∧ k ≤ i + 1 ∧ i + 1 - k < l.length
    | _ => True

/-- The buffer is empty or ends in `Ret` (true of all code the compiler
produces: the top level appends `Ret` when the program is non-empty, and
`emit_def` appends `Ret` after every function body). -/
def RetLast (l : List Instr) : Prop :=
  l = [] ∨ l.getLast? = some .opRet

/-- The code admits a consistent depth map starting at depth 0. -/
def CodeWT (c : Code) : Prop :=
  ∃ D : Nat → Nat, D 0 = 0 ∧ fragWT c.instrs D

mutual
/-- Well-formedness of a runtime value: function values carry well-formed
code; all other values are unconstrained. -/
inductive ValOK : Value → Prop
  | unit : ValOK .unit
  | bool (b : Bool) : ValOK (.bool b)
  | num (n : Rat) : ValOK (.num n)
  | str (s : String) : ValOK (.str s)
  | fn (id : Nat) (d : FnDef) : CodeOK d.code → ValOK (.fn (.mk id d))
  | co (id : Nat) : ValOK (.co id)

/-- Well-formedness of a code object: it admits a depth map, is empty or
ends in `Ret`, its jumps land strictly inside, and its constants are
well-formed. -/
inductive CodeOK : Code → Prop
  | mk (c : Code) (hwt : CodeWT c) (hret : RetLast c.instrs)
      (hjump : JumpsStrict c.instrs)
      (hconsts : ∀ v ∈ c.consts, ValOK v) : CodeOK c
end

/-- All values of an environment are well-formed. -/
def EnvOK (e : Env) : Prop := ∀ p ∈ e, ValOK p.2

/-- All values of an operand stack are well-formed. -/
def StackOK (s : List Value) : Prop := ∀ v ∈ s, ValOK v

/-- All values of an argument list are well-formed. -/
def ArgsOK (args : List Value) : Prop := ∀ v ∈ args, ValOK v

/-- Invariant of a coroutine whose dispatch loop is about to run: its code is
well-formed, its values are well-formed, it is marked running, and its stack
depth agrees with a consistent depth map at the current ip. -/
def CoroRun (c : CoroSt) : Prop :=
  CodeOK c.fn.code ∧ EnvOK c.env ∧ StackOK c.stack ∧ c.status = .running ∧
  ∃ D : Nat → Nat, D 0 = 0 ∧ fragWT c.fn.code.instrs D ∧ c.stack.length = D c.ip

/-- Invariant of an idle coroutine (as stored in a heap cell, or handed to
`resume`): if it is suspended — the only status `resume` accepts — its code
and values are well-formed, and it is either fresh (`ip = 0`, empty stack) or
stopped right after popping for a yield/nested-resume, one below the depth
map (the resumed value will be pushed before the loop continues). -/
def CoroIdle (c : CoroSt) : Prop :=
  c.status = .suspended →
    CodeOK c.fn.code ∧ EnvOK c.env ∧ StackOK c.stack ∧
    ((c.ip = 0 ∧ c.stack = []) ∨
     (c.ip ≠ 0 ∧ ∃ D : Nat → Nat, D 0 = 0 ∧ fragWT c.fn.code.instrs D ∧
        c.stack.length + 1 = D c.ip))

/-- Invariant of one heap cell: either currently mutably borrowed (its state
lives on the native call stack of some running `resume`) or idle and
consistent. -/
def CellOK (cell : HeapCell) : Prop :=
  cell.borrowed = true ∨ CoroIdle cell.co

/-- Invariant of the global state. -/
def GlobOK (g : Glob) : Prop := ∀ cell ∈ g.heap, CellOK cell

/-- Precondition of a job. -/
def JobPre : Job → Prop
  | .exec self g => CoroRun self ∧ GlobOK g
  | .res self g args => CoroIdle self ∧ GlobOK g ∧ ArgsOK args

/-- What the dispatch loop guarantees about its outcome, by result kind. -/
def ExecOutcome (self : CoroSt) (out : CoroSt × Glob × Res) : Prop :=
  match out.2.2 with
  | .yielded v => ValOK v ∧ out.1.fn = self.fn ∧ out.1.status = .suspended ∧
      EnvOK out.1.env ∧ StackOK out.1.stack ∧ out.1.ip ≠ 0 ∧
      ∃ D : Nat → Nat, D 0 = 0 ∧ fragWT out.1.fn.code.instrs D ∧
        out.1.stack.length + 1 = D out.1.ip
  | .ret v => ValOK v ∧ out.1.fn = self.fn ∧ out.1.status = .done ∧
      EnvOK out.1.env ∧ StackOK out.1.stack
  | .fell => out.1.fn = self.fn ∧ out.1.status = self.status ∧
      EnvOK out.1.env ∧ StackOK out.1.stack
  | .okv _ => False
  | _ => CoroIdle out.1

/-- What `resume` guarantees about its outcome, by result kind. -/
def ResOutcome (out : CoroSt × Glob × Res) : Prop :=
  CoroIdle out.1 ∧
  match out.2.2 with
  | .okv v => ValOK v
  | .yielded _ => False
  | .ret _ => False
  | .fell => False
  | _ => True

/-- Postcondition of a job: the global state stays consistent, the operand
stack never underflows, and the outcome is as promised. -/
def JobPost : Job → CoroSt × Glob × Res → Prop
  | .exec self _, out => GlobOK out.2.1 ∧ out.2.2 ≠ .underflow ∧ ExecOutcome self out
  | .res _ _ _, out => GlobOK out.2.1 ∧ out.2.2 ≠ .underflow ∧ ResOutcome out

end Coro

namespace Coro

/-! ### Utility lemmas -/

theorem EnvOK_insert {e : Env} {k : String} {v : Value} (he : EnvOK e)
    (hv : ValOK v) : EnvOK (envInsert e k v) := by
  intro p hp
  rcases List.mem_cons.1 hp with h | h
  · cases h; exact hv
  · exact he p (List.mem_of_mem_filter h)

theorem EnvOK_get {e : Env} {k : String} {v : Value} (he : EnvOK e)
    (h : envGet e k = some v) : ValOK v := by
  unfold envGet at h
  rcases Option.map_eq_some'.1 h with ⟨p, hp, hv⟩
  subst hv
  exact he p (List.mem_of_find?_eq_some hp)

theorem StackOK_cons {v : Value} {s : List Value} (hv : ValOK v)
    (hs : StackOK s) : StackOK (v :: s) := by
  intro w hw
  rcases List.mem_cons.1 hw with h | h
  · cases h; exact hv
  · exact hs w h

theorem StackOK_of_cons {v : Value} {s : List Value} (h : StackOK (v :: s)) :
    ValOK v ∧ StackOK s :=
  ⟨h v (List.mem_cons_self v s), fun w hw => h w (List.mem_cons_of_mem v hw)⟩

theorem StackOK_tail {s : List Value} (h : StackOK s) : StackOK s.tail := by
  cases s with
  | nil => exact h
  | cons v rest => exact (StackOK_of_cons h).2

theorem EnvOK_paramFold {ps : List String} {args : List Value} {e : Env}
    (he : EnvOK e) (hargs : ArgsOK args) :
    EnvOK ((ps.zip args).foldl (fun e pa => envInsert e pa.1 pa.2) e) := by
  induction ps generalizing args e with
  | nil => simpa [List.zip] using he
  | cons p ps ih =>
    cases args with
    | nil => simpa [List.zip] using he
    | cons a args =>
      simp only [List.zip_cons_cons, List.foldl_cons]
      exact ih (EnvOK_insert he (hargs a (List.mem_cons_self a args)))
        (fun v hv => hargs v (List.mem_cons_of_mem a hv))

theorem GlobOK_set_borrow {g : Glob} {id : Nat} {cell : HeapCell}
    (hg : GlobOK g) (hcell : CellOK cell) :
    GlobOK { g with heap := g.heap.set id cell } := by
  intro c hc
  rcases List.mem_or_eq_of_mem_set hc with h | h
  · exact hg c h
  · subst h; exact hcell

theorem GlobOK_append_cell {g : Glob} {cell : HeapCell} (hg : GlobOK g)
    (hcell : CellOK cell) : GlobOK { g with heap := g.heap ++ [cell] } := by
  intro c hc
  rcases List.mem_append.1 hc with h | h
  · exact hg c h
  · rcases List.mem_singleton.1 h with rfl; exact hcell

theorem ArgsOK_take_rev {s : List Value} {n : Nat} (hs : StackOK s) :
    ArgsOK ((s.take n).reverse) := by
  intro v hv
  exact hs v (List.mem_of_mem_take (List.mem_reverse.1 hv))

theorem StackOK_drop {s : List Value} {n : Nat} (hs : StackOK s) :
    StackOK (s.drop n) := fun v hv => hs v (List.mem_of_mem_drop hv)

theorem heap_get_CellOK {g : Glob} {id : Nat} {cell : HeapCell}
    (hg : GlobOK g) (h : g.heap.get? id = some cell) : CellOK cell :=
  hg cell (List.get?_mem h)

end Coro

namespace Coro

/-! ### Depth-map calculus -/

/-- Local consistency is preserved when a buffer is embedded at offset `off`
into a larger buffer with a depth map that agrees on the embedded range. -/
theorem instrOK_transport {lenS lenT : Nat} {DS DT : Nat → Nat} {off i : Nat}
    {ins : Instr} (hok : instrOK lenS DS i ins) (hlen : off + lenS ≤ lenT)
    (hD : ∀ j, j ≤ lenS → DT (off + j) = DS j) (hi : i < lenS) :
    instrOK lenT DT (off + i) ins := by
  have h0 : DT (off + i) = DS i := hD i (le_of_lt hi)
  have h1 : DT (off + i + 1) = DS (i + 1) := by
    rw [Nat.add_assoc]; exact hD (i + 1) hi
  cases ins <;> simp only [instrOK] at hok ⊢ <;> try omega
  case opJump k =>
      have h2 : DT (off + i + 1 + k) = DS (i + 1 + k) := by
        have e : off + i + 1 + k = off + (i + 1 + k) := by omega
        rw [e]; exact hD _ (by omega)
      omega
  case opBranch k =>
      have h2 : DT (off + i + 1 + k) = DS (i + 1 + k) := by
        have e : off + i + 1 + k = off + (i + 1 + k) := by omega
        rw [e]; exact hD _ (by omega)
      omega
  case opLoop k =>
      have hk : k ≤ i + 1 := hok.2.1
      have h2 : DT (off + i + 1 - k) = DS (i + 1 - k) := by
        have e : off + i + 1 - k = off + (i + 1 - k) := by omega
        rw [e]; exact hD _ (by omega)
      omega

/-- Local consistency is invariant under shifting the whole depth map. -/
theorem instrOK_shift {len : Nat} {D : Nat → Nat} {i c : Nat} {ins : Instr}
    (hok : instrOK len D i ins) : instrOK len (fun j => D j + c) i ins := by
  cases ins <;> simp only [instrOK] at hok ⊢ <;> first | trivial | omega

theorem fragWT_nil (D : Nat → Nat) : fragWT [] D := by
  intro i h
  simp at h

theorem FragWT_nil (d : Nat) : FragWT [] d d :=
  ⟨fun _ => d, rfl, rfl, fragWT_nil _⟩

theorem FragWT_shift {l : List Instr} {a b : Nat} (c : Nat)
    (h : FragWT l a b) : FragWT l (a + c) (b + c) := by
  obtain ⟨D, hin, hout, hwt⟩ := h
  exact ⟨fun j => D j + c, by simp [hin], by simp [hout],
    fun i hi => instrOK_shift (hwt i hi)⟩

/-- Glue two consistent fragments whose depths meet in the middle. -/
theorem FragWT_glue {l1 l2 : List Instr} {a b c : Nat}
    (h1 : FragWT l1 a b) (h2 : FragWT l2 b c) : FragWT (l1 ++ l2) a c := by
  obtain ⟨D1, hin1, hout1, hwt1⟩ := h1
  obtain ⟨D2, hin2, hout2, hwt2⟩ := h2
  have hagree1 : ∀ j, j ≤ l1.length →
      (fun i => if i < l1.length then D1 i else D2 (i - l1.length)) j = D1 j := by
    intro j hj
    by_cases h : j < l1.length
    · simp [h]
    · have hje : j = l1.length := by omega
      simp only [h, if_false]
      rw [hje, Nat.sub_self, hin2, ← hout1]
  have hagree2 : ∀ j, j ≤ l2.length →
      (fun i => if i < l1.length then D1 i else D2 (i - l1.length)) (l1.length + j) = D2 j := by
    intro j hj
    have h : ¬ l1.length + j < l1.length := by omega
    simp only [h, if_false]
    congr 1
    omega
  refine ⟨fun i => if i < l1.length then D1 i else D2 (i - l1.length), ?_, ?_, ?_⟩
  · rw [hagree1 0 (Nat.zero_le _), hin1]
  · have e : (l1 ++ l2).length = l1.length + l2.length := List.length_append l1 l2
    rw [e, hagree2 l2.length (le_refl _), hout2]
  · intro i hi
    have hi' : i < l1.length + l2.length := by
      simpa [List.length_append] using hi
    by_cases h : i < l1.length
    · have hget : (l1 ++ l2).get ⟨i, hi⟩ = l1.get ⟨i, h⟩ := by
        simp [List.get_eq_getElem, List.getElem_append_left h]
      rw [hget]
      have hres := @instrOK_transport l1.length (l1.length + l2.length) D1
        (fun i => if i < l1.length then D1 i else D2 (i - l1.length)) 0 i _
        (hwt1 i h) (by omega) (fun j hj => by simpa using hagree1 j hj) h
      simp only [Nat.zero_add] at hres
      simpa [List.length_append] using hres
    · have hj : i - l1.length < l2.length := by omega
      have hget : (l1 ++ l2).get ⟨i, hi⟩ = l2.get ⟨i - l1.length, hj⟩ := by
        simp [List.get_eq_getElem, List.getElem_append_right (by omega : l1.length ≤ i)]
      rw [hget]
      have hres := @instrOK_transport l2.length (l1.length + l2.length) D2
        (fun i => if i < l1.length then D1 i else D2 (i - l1.length)) l1.length
        (i - l1.length) _
        (hwt2 (i - l1.length) hj) (by omega) (fun j hj => hagree2 j hj) hj
      have e : l1.length + (i - l1.length) = i := by omega
      rw [e] at hres
      simpa [List.length_append] using hres

/-- A one-instruction fragment is consistent when the instruction's local
condition holds for the two-point depth map. -/
theorem FragWT_single {ins : Instr} {dIn dOut : Nat}
    (h : instrOK 1 (fun j => if j = 0 then dIn else dOut) 0 ins) :
    FragWT [ins] dIn dOut := by
  refine ⟨fun j => if j = 0 then dIn else dOut, by simp, by simp, ?_⟩
  intro i hi
  have : i = 0 := by simpa using hi
  subst this
  simpa using h

end Coro

namespace Coro

/-- A fragment consistently going from depth `a` to a different depth `b` is
non-empty. -/
theorem FragWT_ne_nil {l : List Instr} {a b : Nat} (h : FragWT l a b)
    (hab : a ≠ b) : 1 ≤ l.length := by
  obtain ⟨D, hin, hout, _⟩ := h
  rcases Nat.eq_zero_or_pos l.length with hz | hp
  · rw [hz] at hout
    omega
  · exact hp

/-- Piecewise depth map for the tail of an `if` fragment: depth 1 on the
`Branch` and the then-`Pop`, the then-arm's map shifted to offset 2, depth 1
on the else-`Pop` (the `Branch` target), and the else-arm's map shifted to
offset `nt + 4`. -/
def ifD (nt : Nat) (Dt Da : Nat → Nat) (i : Nat) : Nat :=
  if i ≤ 1 then 1
  else if i ≤ nt + 2 then Dt (i - 2)
  else if i = nt + 3 then 1
  else Da (i - (nt + 4))

theorem ifD_le_one {nt : Nat} {Dt Da : Nat → Nat} {i : Nat} (h : i ≤ 1) :
    ifD nt Dt Da i = 1 := by
  unfold ifD
  rw [if_pos h]

theorem ifD_mid {nt : Nat} {Dt Da : Nat → Nat} (j : Nat) (h : j ≤ nt) :
    ifD nt Dt Da (2 + j) = Dt j := by
  unfold ifD
  rw [if_neg (by omega), if_pos (by omega : 2 + j ≤ nt + 2)]
  congr 1
  omega

theorem ifD_else {nt : Nat} {Dt Da : Nat → Nat} : ifD nt Dt Da (nt + 3) = 1 := by
  unfold ifD
  rw [if_neg (by omega), if_neg (by omega), if_pos rfl]

theorem ifD_alt {nt : Nat} {Dt Da : Nat → Nat} (j : Nat) :
    ifD nt Dt Da (nt + 4 + j) = Da j := by
  unfold ifD
  rw [if_neg (by omega), if_neg (by omega), if_neg (by omega)]
  congr 1
  omega

/-- The branch-and-arms tail of an `if` fragment is depth-consistent from 1
(the condition value is on the stack) to 1 (one arm value replaces it). -/
theorem FragWT_ifTail {ft fa : List Instr} (ht : FragWT ft 0 1) (ha : FragWT fa 0 1) :
    FragWT (.opBranch (ft.length + 2) :: .opPop ::
      (ft ++ .opJump (fa.length + 1) :: .opPop :: fa)) 1 1 := by
  obtain ⟨Dt, hint, houtt, hwtt⟩ := ht
  obtain ⟨Da, hina, houta, hwta⟩ := ha
  have hlen : (Instr.opBranch (ft.length + 2) :: .opPop ::
      (ft ++ .opJump (fa.length + 1) :: .opPop :: fa)).length
      = ft.length + fa.length + 4 := by
    simp [List.length_append]
    omega
  have hagree : ∀ j, j ≤ ft.length → ifD ft.length Dt Da (2 + j) = Dt j :=
    fun j hj => ifD_mid j hj
  have hagree4 : ∀ j, j ≤ fa.length → ifD ft.length Dt Da (ft.length + 4 + j) = Da j :=
    fun j _ => ifD_alt j
  refine ⟨ifD ft.length Dt Da, ifD_le_one (by omega), ?_, ?_⟩
  · rw [hlen]
    have e : ft.length + fa.length + 4 = ft.length + 4 + fa.length := by omega
    rw [e, ifD_alt, houta]
  · intro i hi
    cases i with
    | zero =>
      -- the Branch over the then-arm
      simp only [List.get, instrOK]
      have g0 : ifD ft.length Dt Da 0 = 1 := ifD_le_one (by omega)
      have g1 : ifD ft.length Dt Da (0 + 1) = 1 := ifD_le_one (by omega)
      have g2 : ifD ft.length Dt Da (0 + 1 + (ft.length + 2)) = 1 := by
        have h := @ifD_else ft.length Dt Da
        have e : ft.length + 3 = 0 + 1 + (ft.length + 2) := by omega
        rwa [e] at h
      omega
    | succ i1 =>
      cases i1 with
      | zero =>
        -- the Pop of the condition on the then-path
        simp only [List.get, instrOK]
        have f1 : ifD ft.length Dt Da (0 + 1) = 1 := ifD_le_one (by omega)
        have f2 : ifD ft.length Dt Da (0 + 1 + 1) = Dt 0 := by
          have h := @ifD_mid ft.length Dt Da 0 (Nat.zero_le ft.length)
          have e : (2 : Nat) + 0 = 0 + 1 + 1 := by omega
          rwa [e] at h
        omega
      | succ j =>
        simp only [List.get]
        rw [hlen] at hi
        have hj : j < ft.length + fa.length + 2 := by omega
        by_cases hcase : j < ft.length
        · -- inside the then-arm fragment
          have hget : (ft ++ .opJump (fa.length + 1) :: .opPop :: fa).get ⟨j, by
              simp [List.length_append]; try omega⟩ = ft.get ⟨j, hcase⟩ := by
            simp [List.get_eq_getElem, List.getElem_append_left hcase]
          rw [hget]
          have hres := @instrOK_transport ft.length
            ((Instr.opBranch (ft.length + 2) :: .opPop ::
              (ft ++ .opJump (fa.length + 1) :: .opPop :: fa)).length)
            Dt (ifD ft.length Dt Da) 2 j _
            (hwtt j hcase) (by rw [hlen]; omega) hagree hcase
          have e : 2 + j = j + 1 + 1 := by omega
          rwa [e] at hres
        · by_cases hj2 : j = ft.length
          · -- the Jump over the else-arm
            subst hj2
            have hget : (ft ++ .opJump (fa.length + 1) :: .opPop :: fa).get ⟨ft.length, by
                simp [List.length_append]; try omega⟩ = .opJump (fa.length + 1) := by
              rw [List.get_eq_getElem,
                List.getElem_append_right (le_refl ft.length)]
              simp
            rw [hget]
            simp only [instrOK]
            have f1 : ifD ft.length Dt Da (ft.length + 1 + 1 + 1 + (fa.length + 1))
                = Da fa.length := by
              have h := @ifD_alt ft.length Dt Da fa.length
              have e : ft.length + 4 + fa.length
                  = ft.length + 1 + 1 + 1 + (fa.length + 1) := by omega
              rwa [e] at h
            have f2 : ifD ft.length Dt Da (ft.length + 1 + 1) = Dt ft.length := by
              have h := @ifD_mid ft.length Dt Da ft.length (le_refl _)
              have e : 2 + ft.length = ft.length + 1 + 1 := by omega
              rwa [e] at h
            omega
          · by_cases hj3 : j = ft.length + 1
            · -- the Pop of the condition on the else-path
              subst hj3
              have hget : (ft ++ .opJump (fa.length + 1) :: .opPop :: fa).get ⟨ft.length + 1, by
                  simp [List.length_append]; try omega⟩ = .opPop := by
                rw [List.get_eq_getElem,
                  List.getElem_append_right (by omega : ft.length ≤ ft.length + 1)]
                simp
              rw [hget]
              simp only [instrOK]
              have f1 : ifD ft.length Dt Da (ft.length + 1 + 1 + 1) = 1 := by
                have h := @ifD_else ft.length Dt Da
                have e : ft.length + 3 = ft.length + 1 + 1 + 1 := by omega
                rwa [e] at h
              have f2 : ifD ft.length Dt Da (ft.length + 1 + 1 + 1 + 1) = Da 0 := by
                have h := @ifD_alt ft.length Dt Da 0
                have e : ft.length + 4 + 0 = ft.length + 1 + 1 + 1 + 1 := by omega
                rwa [e] at h
              omega
            · -- inside the else-arm fragment
              obtain ⟨k, rfl⟩ : ∃ k, j = ft.length + 2 + k := ⟨j - (ft.length + 2), by omega⟩
              have hk : k < fa.length := by omega
              have hget : (ft ++ .opJump (fa.length + 1) :: .opPop :: fa).get
                  ⟨ft.length + 2 + k, by simp [List.length_append]; try omega⟩
                  = fa.get ⟨k, hk⟩ := by
                rw [List.get_eq_getElem,
                  List.getElem_append_right (by omega : ft.length ≤ ft.length + 2 + k)]
                have e : ft.length + 2 + k - ft.length = k + 1 + 1 := by omega
                simp only [e]
                simp
              rw [hget]
              have hres := @instrOK_transport fa.length
                ((Instr.opBranch (ft.length + 2) :: .opPop ::
                  (ft ++ .opJump (fa.length + 1) :: .opPop :: fa)).length)
                Da (ifD ft.length Dt Da) (ft.length + 4) k _
                (hwta k hk) (by rw [hlen]; omega) hagree4 hk
              have e : ft.length + 4 + k = ft.length + 2 + k + 1 + 1 := by omega
              rwa [e] at hres

/-- The fragment compiled for an `if` command is depth-consistent with net
effect +1. -/
theorem FragWT_if {fc ft fa : List Instr} (hc : FragWT fc 0 1)
    (ht : FragWT ft 0 1) (ha : FragWT fa 0 1) :
    FragWT (fc ++ .opBranch (ft.length + 2) :: .opPop ::
      (ft ++ .opJump (fa.length + 1) :: .opPop :: fa)) 0 1 :=
  FragWT_glue hc (FragWT_ifTail ht ha)

end Coro

namespace Coro

/-- Piecewise depth map for the loop part of a `while` fragment: the
condition's map, depth 1 on the `Branch` and the body-`Pop`, the body's map
shifted to offset `nc + 2`, depth 0 on the `Loop`, and depth 1 at the end
(the `Branch` target, where the condition value is still on the stack). -/
def whileD (nc nb : Nat) (Dc Db : Nat → Nat) (i : Nat) : Nat :=
  if i < nc then Dc i
  else if i ≤ nc + 1 then 1
  else if i ≤ nc + 2 + nb then Db (i - (nc + 2))
  else if i = nc + 3 + nb then 0
  else 1

theorem whileD_in {nc nb : Nat} {Dc Db : Nat → Nat} {i : Nat} (h : i < nc) :
    whileD nc nb Dc Db i = Dc i := by
  unfold whileD
  rw [if_pos h]

theorem whileD_cond1 {nc nb : Nat} {Dc Db : Nat → Nat} :
    whileD nc nb Dc Db nc = 1 := by
  unfold whileD
  rw [if_neg (by omega), if_pos (by omega)]

theorem whileD_cond2 {nc nb : Nat} {Dc Db : Nat → Nat} :
    whileD nc nb Dc Db (nc + 1) = 1 := by
  unfold whileD
  rw [if_neg (by omega), if_pos (by omega)]

theorem whileD_body {nc nb : Nat} {Dc Db : Nat → Nat} (j : Nat) (h : j ≤ nb) :
    whileD nc nb Dc Db (nc + 2 + j) = Db j := by
  unfold whileD
  rw [if_neg (by omega), if_neg (by omega), if_pos (by omega)]
  congr 1
  omega

theorem whileD_pop2 {nc nb : Nat} {Dc Db : Nat → Nat} :
    whileD nc nb Dc Db (nc + 3 + nb) = 0 := by
  unfold whileD
  rw [if_neg (by omega), if_neg (by omega), if_neg (by omega), if_pos rfl]

theorem whileD_end {nc nb : Nat} {Dc Db : Nat → Nat} :
    whileD nc nb Dc Db (nc + 4 + nb) = 1 := by
  unfold whileD
  rw [if_neg (by omega), if_neg (by omega), if_neg (by omega), if_neg (by omega)]

/-- The loop part of a `while` fragment (condition, exit branch, body, and
the backward loop) is depth-consistent from 0 to 1: its exit is the `Branch`
target, where the falsey condition value is still on the stack. -/
theorem FragWT_whileLoopPart {fc fb : List Instr} (hc : FragWT fc 0 1)
    (hb : FragWT fb 0 1) :
    FragWT (fc ++ .opBranch (fb.length + 3) :: .opPop ::
      (fb ++ [.opPop, .opLoop (fc.length + fb.length + 4)])) 0 1 := by
  obtain ⟨Dc, hinc, houtc, hwtc⟩ := hc
  obtain ⟨Db, hinb, houtb, hwtb⟩ := hb
  have hnc : 1 ≤ fc.length := by
    rcases Nat.eq_zero_or_pos fc.length with hz | hp
    · rw [hz] at houtc; omega
    · exact hp
  have hlen : (fc ++ Instr.opBranch (fb.length + 3) :: .opPop ::
      (fb ++ [.opPop, .opLoop (fc.length + fb.length + 4)])).length
      = fc.length + fb.length + 4 := by
    simp [List.length_append]
    omega
  have hagreeC : ∀ j, j ≤ fc.length →
      whileD fc.length fb.length Dc Db (0 + j) = Dc j := by
    intro j hj
    simp only [Nat.zero_add]
    by_cases h : j < fc.length
    · exact whileD_in h
    · have hje : j = fc.length := by omega
      subst hje
      rw [whileD_cond1, houtc]
  have hagreeB : ∀ j, j ≤ fb.length →
      whileD fc.length fb.length Dc Db (fc.length + 2 + j) = Db j :=
    fun j hj => whileD_body j hj
  refine ⟨whileD fc.length fb.length Dc Db, ?_, ?_, ?_⟩
  · rw [whileD_in (by omega), hinc]
  · rw [hlen]
    have h := @whileD_end fc.length fb.length Dc Db
    have e : fc.length + 4 + fb.length = fc.length + fb.length + 4 := by omega
    rwa [e] at h
  · intro i hi
    rw [hlen] at hi
    by_cases hcase : i < fc.length
    · -- inside the condition fragment
      have hget : (fc ++ Instr.opBranch (fb.length + 3) :: .opPop ::
          (fb ++ [.opPop, .opLoop (fc.length + fb.length + 4)])).get ⟨i, by
            rw [hlen]; omega⟩ = fc.get ⟨i, hcase⟩ := by
        simp [List.get_eq_getElem, List.getElem_append_left hcase]
      rw [hget]
      have hres := @instrOK_transport fc.length
        ((fc ++ Instr.opBranch (fb.length + 3) :: .opPop ::
          (fb ++ [.opPop, .opLoop (fc.length + fb.length + 4)])).length)
        Dc (whileD fc.length fb.length Dc Db) 0 i _
        (hwtc i hcase) (by rw [hlen]; omega) hagreeC hcase
      simpa using hres
    · have hrest : ∀ (hin : i < (fc ++ Instr.opBranch (fb.length + 3) :: .opPop ::
          (fb ++ [.opPop, .opLoop (fc.length + fb.length + 4)])).length),
          (fc ++ Instr.opBranch (fb.length + 3) :: .opPop ::
          (fb ++ [.opPop, .opLoop (fc.length + fb.length + 4)])).get ⟨i, hin⟩
          = (Instr.opBranch (fb.length + 3) :: .opPop ::
            (fb ++ [.opPop, .opLoop (fc.length + fb.length + 4)])).get
              ⟨i - fc.length, by simp [List.length_append] at hin ⊢; omega⟩ := by
        intro hin
        rw [List.get_eq_getElem, List.get_eq_getElem,
          List.getElem_append_right (by omega : fc.length ≤ i)]
      by_cases h0 : i = fc.length
      · -- the exit Branch on the condition
        subst h0
        rw [hrest]
        simp only [Nat.sub_self, List.get, instrOK]
        have f0 : whileD fc.length fb.length Dc Db fc.length = 1 := whileD_cond1
        have f1 : whileD fc.length fb.length Dc Db (fc.length + 1) = 1 := whileD_cond2
        have f2 : whileD fc.length fb.length Dc Db (fc.length + 1 + (fb.length + 3))
            = 1 := by
          have h := @whileD_end fc.length fb.length Dc Db
          have e : fc.length + 4 + fb.length = fc.length + 1 + (fb.length + 3) := by
            omega
          rwa [e] at h
        omega
      · by_cases h1 : i = fc.length + 1
        · -- the Pop of the truthy condition
          subst h1
          rw [hrest]
          have e : fc.length + 1 - fc.length = 1 := by omega
          simp only [e, List.get, instrOK]
          have f1 : whileD fc.length fb.length Dc Db (fc.length + 1) = 1 := whileD_cond2
          have f2 : whileD fc.length fb.length Dc Db (fc.length + 1 + 1) = Db 0 := by
            have h := @whileD_body fc.length fb.length Dc Db 0
              (Nat.zero_le fb.length)
            have e2 : fc.length + 2 + 0 = fc.length + 1 + 1 := by omega
            rwa [e2] at h
          omega
        · by_cases h2 : i < fc.length + 2 + fb.length
          · -- inside the body fragment
            obtain ⟨k, rfl⟩ : ∃ k, i = fc.length + 2 + k :=
              ⟨i - (fc.length + 2), by omega⟩
            have hk : k < fb.length := by omega
            rw [hrest]
            have e : fc.length + 2 + k - fc.length = k + 1 + 1 := by omega
            have hget2 : (Instr.opBranch (fb.length + 3) :: .opPop ::
                (fb ++ [.opPop, .opLoop (fc.length + fb.length + 4)])).get
                  ⟨fc.length + 2 + k - fc.length, by
                    simp [List.length_append]; omega⟩
                = fb.get ⟨k, hk⟩ := by
              simp only [e, List.get]
              simp [List.get_eq_getElem, List.getElem_append_left hk]
            rw [hget2]
            have hres := @instrOK_transport fb.length
              ((fc ++ Instr.opBranch (fb.length + 3) :: .opPop ::
                (fb ++ [.opPop, .opLoop (fc.length + fb.length + 4)])).length)
              Db (whileD fc.length fb.length Dc Db) (fc.length + 2) k _
              (hwtb k hk) (by rw [hlen]; omega) hagreeB hk
            exact hres
          · by_cases h3 : i = fc.length + 2 + fb.length
            · -- the Pop of the body value
              subst h3
              rw [hrest]
              have e : fc.length + 2 + fb.length - fc.length = fb.length + 1 + 1 := by
                omega
              have hget2 : (Instr.opBranch (fb.length + 3) :: .opPop ::
                  (fb ++ [.opPop, .opLoop (fc.length + fb.length + 4)])).get
                    ⟨fc.length + 2 + fb.length - fc.length, by
                      simp only [List.length_cons, List.length_append]; omega⟩
                  = .opPop := by
                simp only [e, List.get]
                rw [List.get_eq_getElem,
                  List.getElem_append_right (le_refl fb.length)]
                simp
              rw [hget2]
              simp only [instrOK]
              have f1 : whileD fc.length fb.length Dc Db (fc.length + 2 + fb.length)
                  = Db fb.length := whileD_body fb.length (le_refl _)
              have f2 : whileD fc.length fb.length Dc Db (fc.length + 2 + fb.length + 1)
                  = 0 := by
                have h := @whileD_pop2 fc.length fb.length Dc Db
                have e2 : fc.length + 3 + fb.length = fc.length + 2 + fb.length + 1 := by
                  omega
                rwa [e2] at h
              omega
            · -- the backward Loop
              have h4 : i = fc.length + 3 + fb.length := by omega
              subst h4
              rw [hrest]
              have e : fc.length + 3 + fb.length - fc.length = fb.length + 2 + 1 := by
                omega
              have hget2 : (Instr.opBranch (fb.length + 3) :: .opPop ::
                  (fb ++ [.opPop, .opLoop (fc.length + fb.length + 4)])).get
                    ⟨fc.length + 3 + fb.length - fc.length, by
                      simp only [List.length_cons, List.length_append]; omega⟩
                  = .opLoop (fc.length + fb.length + 4) := by
                simp only [e, List.get]
                rw [List.get_eq_getElem,
                  List.getElem_append_right (by omega : fb.length ≤ fb.length + 1)]
                simp
              rw [hget2]
              simp only [instrOK]
              have f1 : whileD fc.length fb.length Dc Db (fc.length + 3 + fb.length)
                  = 0 := whileD_pop2
              have f2 : whileD fc.length fb.length Dc Db
                  (fc.length + 3 + fb.length + 1 - (fc.length + fb.length + 4))
                  = Dc 0 := by
                have e2 : fc.length + 3 + fb.length + 1 - (fc.length + fb.length + 4)
                    = 0 := by omega
                rw [e2]
                exact whileD_in (by omega)
              omega

/-- The fragment compiled for a `while` command is depth-consistent with net
effect +1. -/
theorem FragWT_while {fc fb : List Instr} (hc : FragWT fc 0 1)
    (hb : FragWT fb 0 1) :
    FragWT (fc ++ .opBranch (fb.length + 3) :: .opPop ::
      (fb ++ [.opPop, .opLoop (fc.length + fb.length + 4), .opPop, .opUnit])) 0 1 := by
  have hpart := FragWT_whileLoopPart hc hb
  have hpop : FragWT [Instr.opPop] 1 0 := FragWT_single (by simp [instrOK])
  have hunit : FragWT [Instr.opUnit] 0 1 := FragWT_single (by simp [instrOK])
  have hglue := FragWT_glue (FragWT_glue hpart hpop) hunit
  have e : ((fc ++ Instr.opBranch (fb.length + 3) :: .opPop ::
      (fb ++ [.opPop, .opLoop (fc.length + fb.length + 4)])) ++ [Instr.opPop])
      ++ [Instr.opUnit]
      = fc ++ .opBranch (fb.length + 3) :: .opPop ::
        (fb ++ [.opPop, .opLoop (fc.length + fb.length + 4), .opPop, .opUnit]) := by
    simp [List.append_assoc]
  rwa [e] at hglue

end Coro

namespace Coro

/-! ### Code-buffer algebra -/

theorem add_instrs (c : Code) (i : Instr) (l : Nat) :
    (c.add i l).1.instrs = c.instrs ++ [i] := by
  cases c; rfl

theorem add_consts (c : Code) (i : Instr) (l : Nat) :
    (c.add i l).1.consts = c.consts := by
  cases c; rfl

theorem add_idx (c : Code) (i : Instr) (l : Nat) :
    (c.add i l).2 = c.instrs.length := by
  cases c; rfl

theorem add_const_instrs (c : Code) (v : Value) :
    (c.add_const v).1.instrs = c.instrs := by
  unfold Code.add_const
  cases c.consts.findIdx? (fun w => valueEqb w v) with
  | some i => rfl
  | none => cases c; rfl

theorem add_const_consts (c : Code) (v : Value) :
    ∃ nw, (c.add_const v).1.consts = c.consts ++ nw ∧ ∀ w ∈ nw, w = v := by
  unfold Code.add_const
  cases c.consts.findIdx? (fun w => valueEqb w v) with
  | some i => exact ⟨[], by simp, by simp⟩
  | none =>
    refine ⟨[v], ?_, by simp⟩
    cases c; rfl

theorem patch_instrs (c : Code) (idx : Nat) (i : Instr) :
    (c.patch idx i).instrs = c.instrs.set idx i := by
  cases c; rfl

theorem patch_consts (c : Code) (idx : Nat) (i : Instr) :
    (c.patch idx i).consts = c.consts := by
  cases c; rfl

/-- Setting the element right past the prefix `A`. -/
theorem set_append_len {α : Type} (A : List α) (x y : α) (B : List α) :
    (A ++ x :: B).set A.length y = A ++ y :: B := by
  induction A with
  | nil => rfl
  | cons a A ih =>
    show a :: ((A ++ x :: B).set A.length y) = a :: (A ++ y :: B)
    rw [ih]

/-- A depth-consistent fragment followed by `Ret`, with a well-formed
constant pool, is a well-formed code object. -/
theorem CodeOK_of_frag {l : List Instr} {consts : List Value} {lines : List Nat}
    (hf : FragWT l 0 1) (hc : ∀ v ∈ consts, ValOK v) :
    CodeOK (Code.mk (l ++ [.opRet]) consts lines) := by
  have hret : FragWT [Instr.opRet] 1 1 := FragWT_single (by simp [instrOK])
  have hall := FragWT_glue hf hret
  obtain ⟨D, hin, _, hwt⟩ := hall
  refine CodeOK.mk _ ⟨D, hin, hwt⟩ ?_ ?_ hc
  · right
    show (l ++ [Instr.opRet]).getLast? = some .opRet
    rw [List.getLast?_concat]
  · show JumpsStrict (l ++ [Instr.opRet])
    intro i h
    by_cases hi : i < l.length
    · have hget : (l ++ [Instr.opRet]).get ⟨i, h⟩ = l.get ⟨i, hi⟩ := by
        simp [List.get_eq_getElem, List.getElem_append_left hi]
      rw [hget]
      obtain ⟨Dl, hDl0, hDl1, hwtl⟩ := hf
      have hok := hwtl i hi
      cases hins : l.get ⟨i, hi⟩ <;> rw [hins] at hok <;>
        simp only [instrOK] at hok <;> dsimp only <;>
        simp only [List.length_append, List.length_cons, List.length_nil] <;>
        first | trivial | omega
    · have hi2 : i = l.length := by
        simp [List.length_append] at h
        omega
      subst hi2
      have hget : (l ++ [Instr.opRet]).get ⟨l.length, h⟩ = .opRet := by
        rw [List.get_eq_getElem, List.getElem_append_right (le_refl _)]
        simp
      rw [hget]
      trivial

end Coro

namespace Coro

/-! ### What the emit functions guarantee -/

/-- `res` extends `code` by a depth-consistent fragment of net effect `d` and
by well-formed constants. -/
def EmitSpec (code res : Code) (d : Nat) : Prop :=
  (∃ frag, res.instrs = code.instrs ++ frag ∧ FragWT frag 0 d) ∧
  (∃ nw, res.consts = code.consts ++ nw ∧ ∀ v ∈ nw, ValOK v)

theorem EmitSpec_refl (code : Code) : EmitSpec code code 0 :=
  ⟨⟨[], by simp, fragWT_nil _ |> fun h => ⟨fun _ => 0, rfl, rfl, h⟩⟩,
   ⟨[], by simp, by simp⟩⟩

theorem EmitSpec_seq {code mid res : Code} {a b : Nat}
    (h1 : EmitSpec code mid a) (h2 : EmitSpec mid res b) :
    EmitSpec code res (a + b) := by
  obtain ⟨⟨f1, hi1, hw1⟩, ⟨n1, hc1, hv1⟩⟩ := h1
  obtain ⟨⟨f2, hi2, hw2⟩, ⟨n2, hc2, hv2⟩⟩ := h2
  constructor
  · refine ⟨f1 ++ f2, by rw [hi2, hi1, List.append_assoc], ?_⟩
    have hs := FragWT_shift a hw2
    have hg := FragWT_glue hw1 (by simpa using hs)
    rwa [Nat.add_comm b a] at hg
  · refine ⟨n1 ++ n2, by rw [hc2, hc1, List.append_assoc], ?_⟩
    intro v hv
    rcases List.mem_append.1 hv with h | h
    exacts [hv1 v h, hv2 v h]

theorem EmitSpec_push {code mid : Code} {d d' : Nat} (h : EmitSpec code mid d)
    (op : Instr) (line : Nat) (hop : FragWT [op] d d') :
    EmitSpec code (mid.add op line).1 d' := by
  obtain ⟨⟨f1, hi1, hw1⟩, ⟨n1, hc1, hv1⟩⟩ := h
  constructor
  · exact ⟨f1 ++ [op], by rw [add_instrs, hi1, List.append_assoc],
      FragWT_glue hw1 hop⟩
  · exact ⟨n1, by rw [add_consts, hc1], hv1⟩

theorem EmitSpec_addConst {code mid : Code} {d : Nat} (h : EmitSpec code mid d)
    (v : Value) (hv : ValOK v) : EmitSpec code (mid.add_const v).1 d := by
  obtain ⟨⟨f1, hi1, hw1⟩, ⟨n1, hc1, hv1⟩⟩ := h
  obtain ⟨nw, hcw, hww⟩ := add_const_consts mid v
  constructor
  · exact ⟨f1, by rw [add_const_instrs, hi1], hw1⟩
  · refine ⟨n1 ++ nw, by rw [hcw, hc1, List.append_assoc], ?_⟩
    intro w hw
    rcases List.mem_append.1 hw with h | h
    · exact hv1 w h
    · rw [hww w h]; exact hv

/-- The fragment of a pushing instruction. -/
theorem FragWT_pushOp {op : Instr} {d : Nat}
    (hop : ∀ D : Nat → Nat, D 1 = D 0 + 1 → instrOK 1 D 0 op) :
    FragWT [op] d (d + 1) :=
  FragWT_single (hop _ (by simp))

end Coro

namespace Coro

theorem emit_loop_instrs (c : Code) (t : Nat) :
    (emit_loop c t).instrs = c.instrs ++ [.opLoop (c.len - t + 1)] := by
  unfold emit_loop
  rw [add_instrs]

theorem emit_loop_consts (c : Code) (t : Nat) :
    (emit_loop c t).consts = c.consts := by
  unfold emit_loop
  rw [add_consts]

theorem patch_branch_instrs (c : Code) (idx : Nat) :
    (patch_branch c idx).instrs = c.instrs.set idx (.opBranch (c.len - idx - 1)) := by
  unfold patch_branch backpatch
  rw [patch_instrs]
  simp

theorem patch_branch_consts (c : Code) (idx : Nat) :
    (patch_branch c idx).consts = c.consts := by
  unfold patch_branch backpatch
  rw [patch_consts]

theorem patch_jump_instrs (c : Code) (idx : Nat) :
    (patch_jump c idx).instrs = c.instrs.set idx (.opJump (c.len - idx - 1)) := by
  unfold patch_jump backpatch
  rw [patch_instrs]
  simp

theorem patch_jump_consts (c : Code) (idx : Nat) :
    (patch_jump c idx).consts = c.consts := by
  unfold patch_jump backpatch
  rw [patch_consts]

theorem emit_create_spec (code : Code) (name : String) :
    EmitSpec code (emit_create code name) 1 := by
  unfold emit_create
  exact EmitSpec_push (EmitSpec_addConst (EmitSpec_refl code) _ (ValOK.str name))
    _ 1 (FragWT_single (by simp [instrOK]))

theorem emit_const_spec (code : Code) (v : Value) (hv : ValOK v) :
    EmitSpec code (emit_const code v) 1 := by
  unfold emit_const
  exact EmitSpec_push (EmitSpec_addConst (EmitSpec_refl code) _ hv)
    _ 1 (FragWT_single (by simp [instrOK]))

end Coro

namespace Coro

mutual
/-- `emit_block` appends a depth-consistent fragment of net effect +1. -/
theorem emit_block_spec (bs : List Bind) : ∀ code ctr out,
    emit_block code ctr bs = some out → EmitSpec code out.1 1 := by
  cases bs with
  | nil =>
    intro code ctr out h
    unfold emit_block at h
    simp at h
  | cons b rest =>
    cases rest with
    | nil =>
      intro code ctr out h
      unfold emit_block at h
      exact emit_bind_spec b code ctr out h
    | cons r rs =>
      intro code ctr out h
      unfold emit_block at h
      cases h1 : emit_bind code ctr b with
      | none => rw [h1] at h; simp at h
      | some p1 =>
        obtain ⟨code1, ctr1⟩ := p1
        rw [h1] at h
        simp only [Option.bind_eq_bind, Option.some_bind] at h
        have s1 := emit_bind_spec b code ctr (code1, ctr1) h1
        have s2 := emit_block_spec (r :: rs) (code1.add .opPop 1).1 ctr1 out h
        have s1' : EmitSpec code (code1.add .opPop 1).1 0 :=
          EmitSpec_push s1 .opPop 1 (FragWT_single (by simp [instrOK]))
        have s := EmitSpec_seq s1' s2
        simpa using s
termination_by sizeOf bs

/-- `emit_bind` appends a depth-consistent fragment of net effect +1. -/
theorem emit_bind_spec (b : Bind) : ∀ code ctr out,
    emit_bind code ctr b = some out → EmitSpec code out.1 1 := by
  cases b with
  | defB d =>
    intro code ctr out h
    unfold emit_bind at h
    exact emit_def_spec d code ctr out h
  | letB l =>
    intro code ctr out h
    unfold emit_bind at h
    exact emit_let_spec l code ctr out h
  | cmd c =>
    intro code ctr out h
    unfold emit_bind at h
    exact emit_cmd_spec c code ctr out h
termination_by sizeOf b

/-- `emit_def` compiles the body into a well-formed code object and appends
`Define`, a fragment of net effect +1. -/
theorem emit_def_spec (d : DefBind) : ∀ code ctr out,
    emit_def code ctr d = some out → EmitSpec code out.1 1 := by
  cases d with
  | mk name params body =>
    intro code ctr out h
    unfold emit_def at h
    cases h1 : emit_cmd Code.new ctr body with
    | none => rw [h1] at h; simp at h
    | some p1 =>
      obtain ⟨bcode, ctr1⟩ := p1
      rw [h1] at h
      simp only [Option.bind_eq_bind, Option.some_bind, Option.some_inj] at h
      cases h
      have s1 := emit_cmd_spec body Code.new ctr (bcode, ctr1) h1
      obtain ⟨⟨fragB, hiB, hwB⟩, ⟨nwB, hcB, hvB⟩⟩ := s1
      obtain ⟨bi, bc, bl⟩ := bcode
      simp only [Code.new, Code.instrs, Code.consts, List.nil_append] at hiB hcB
      subst hiB
      subst hcB
      have hco : CodeOK ((Code.mk bi bc bl).add .opRet 1).1 := by
        show CodeOK (Code.mk (bi ++ [.opRet]) bc (bl ++ [1]))
        exact CodeOK_of_frag hwB hvB
      have hval : ValOK (.fn (.mk ctr1
          (FnDef.mk name params ((Code.mk bi bc bl).add .opRet 1).1))) :=
        ValOK.fn ctr1 _ hco
      refine EmitSpec_push (EmitSpec_addConst (EmitSpec_refl code) _ hval)
        (.opDefine (code.add_const (.fn (.mk ctr1
          (FnDef.mk name params ((Code.mk bi bc bl).add .opRet 1).1)))).2) 1
        (FragWT_single ?_)
      simp [instrOK]
termination_by sizeOf d

/-- `emit_let` appends a depth-consistent fragment of net effect +1. -/
theorem emit_let_spec (l : LetBind) : ∀ code ctr out,
    emit_let code ctr l = some out → EmitSpec code out.1 1 := by
  cases l with
  | mk name init =>
    intro code ctr out h
    unfold emit_let at h
    cases h1 : emit_cmd code ctr init with
    | none => rw [h1] at h; simp at h
    | some p1 =>
      obtain ⟨code1, ctr1⟩ := p1
      rw [h1] at h
      simp only [Option.bind_eq_bind, Option.some_bind, Option.some_inj] at h
      cases h
      have s1 := emit_cmd_spec init code ctr (code1, ctr1) h1
      exact EmitSpec_push (EmitSpec_addConst s1 _ (ValOK.str name)) _ 1
        (FragWT_single (by simp [instrOK]))
termination_by sizeOf l

/-- `emit_cmd` appends a depth-consistent fragment of net effect +1. -/
theorem emit_cmd_spec (c : Cmd) : ∀ code ctr out,
    emit_cmd code ctr c = some out → EmitSpec code out.1 1 := by
  cases c with
  | print e =>
    intro code ctr out h
    unfold emit_cmd at h
    cases h1 : emit_expr code ctr e with
    | none => rw [h1] at h; simp at h
    | some p1 =>
      obtain ⟨code1, ctr1⟩ := p1
      rw [h1] at h
      simp only [Option.bind_eq_bind, Option.some_bind, Option.some_inj] at h
      cases h
      exact EmitSpec_push (emit_expr_spec e code ctr (code1, ctr1) h1) _ 1
        (FragWT_single (by simp [instrOK]))
  | create name =>
    intro code ctr out h
    unfold emit_cmd at h
    simp only [Option.some_inj] at h
    cases h
    exact emit_create_spec code name
  | resumeC e args =>
    intro code ctr out h
    unfold emit_cmd at h
    cases h1 : emit_expr code ctr e with
    | none => rw [h1] at h; simp at h
    | some p1 =>
      obtain ⟨code1, ctr1⟩ := p1
      rw [h1] at h
      simp only [Option.bind_eq_bind, Option.some_bind] at h
      cases h2 : emit_args code1 ctr1 args with
      | none => rw [h2] at h; simp at h
      | some p2 =>
        obtain ⟨code2, ctr2⟩ := p2
        rw [h2] at h
        simp only [Option.bind_eq_bind, Option.some_bind, Option.some_inj] at h
        cases h
        have s1 := emit_expr_spec e code ctr (code1, ctr1) h1
        have s2 := emit_args_spec args code1 ctr1 (code2, ctr2) h2
        have s12 := EmitSpec_seq s1 s2
        exact EmitSpec_push s12 _ 1 (FragWT_single (by simp [instrOK]; try omega))
  | yieldC e =>
    intro code ctr out h
    unfold emit_cmd at h
    cases h1 : emit_expr code ctr e with
    | none => rw [h1] at h; simp at h
    | some p1 =>
      obtain ⟨code1, ctr1⟩ := p1
      rw [h1] at h
      simp only [Option.bind_eq_bind, Option.some_bind, Option.some_inj] at h
      cases h
      exact EmitSpec_push (emit_expr_spec e code ctr (code1, ctr1) h1) _ 1
        (FragWT_single (by simp [instrOK]))
  | whileC cond body =>
    intro code ctr out h
    unfold emit_cmd at h
    cases h1 : emit_expr code ctr cond with
    | none => rw [h1] at h; simp at h
    | some p1 =>
      obtain ⟨code1, ctr1⟩ := p1
      rw [h1] at h
      simp only [Option.bind_eq_bind, Option.some_bind] at h
      cases h2 : emit_expr ((code1.add (.opBranch 0) 1).1.add .opPop 1).1 ctr1 body with
      | none => rw [h2] at h; simp at h
      | some p2 =>
        obtain ⟨code4, ctr2⟩ := p2
        rw [h2] at h
        simp only [Option.bind_eq_bind, Option.some_bind, Option.some_inj] at h
        cases h
        obtain ⟨⟨fc, hic, hwc⟩, ⟨n1, hcc, hvc⟩⟩ :=
          emit_expr_spec cond code ctr (code1, ctr1) h1
        obtain ⟨⟨fb, hib, hwb⟩, ⟨n2, hcb, hvb⟩⟩ :=
          emit_expr_spec body ((code1.add (.opBranch 0) 1).1.add .opPop 1).1 ctr1
            (code4, ctr2) h2
        have hi3 : ((code1.add (.opBranch 0) 1).1.add .opPop 1).1.instrs
            = code.instrs ++ fc ++ [.opBranch 0] ++ [.opPop] := by
          rw [add_instrs, add_instrs, hic]
        have hi5 : ((code4.add .opPop 1).1).instrs
            = code.instrs ++ fc ++ [.opBranch 0] ++ [.opPop] ++ fb ++ [.opPop] := by
          rw [add_instrs, hib, hi3]
        have hlen5 : ((code4.add .opPop 1).1).len
            = code.instrs.length + fc.length + fb.length + 3 := by
          show ((code4.add .opPop 1).1).instrs.length = _
          rw [hi5]
          simp [List.length_append]
          omega
        have hofL : ((code4.add .opPop 1).1).len - code.len + 1
            = fc.length + fb.length + 4 := by
          rw [hlen5]
          show _ - code.instrs.length + 1 = _
          omega
        have h6i : (emit_loop ((code4.add .opPop 1).1) code.len).instrs
            = code.instrs ++ fc ++ [.opBranch 0] ++ [.opPop] ++ fb ++ [.opPop]
              ++ [.opLoop (fc.length + fb.length + 4)] := by
          rw [emit_loop_instrs, hofL, hi5]
        have h6len : (emit_loop ((code4.add .opPop 1).1) code.len).len
            = code.instrs.length + fc.length + fb.length + 4 := by
          show (emit_loop ((code4.add .opPop 1).1) code.len).instrs.length = _
          rw [h6i]
          simp [List.length_append]
          omega
        have hexit : (code1.add (.opBranch 0) 1).2 = (code.instrs ++ fc).length := by
          rw [add_idx, hic]
        have hofB : (emit_loop ((code4.add .opPop 1).1) code.len).len
            - (code1.add (.opBranch 0) 1).2 - 1 = fb.length + 3 := by
          rw [h6len, hexit]
          simp [List.length_append]
          omega
        have h7i : (patch_branch (emit_loop ((code4.add .opPop 1).1) code.len)
              (code1.add (.opBranch 0) 1).2).instrs
            = (code.instrs ++ fc) ++ .opBranch (fb.length + 3) ::
              ([.opPop] ++ fb ++ [.opPop]
                ++ [.opLoop (fc.length + fb.length + 4)]) := by
          rw [patch_branch_instrs, hofB, h6i, hexit]
          rw [show code.instrs ++ fc ++ [Instr.opBranch 0] ++ [Instr.opPop] ++ fb
              ++ [Instr.opPop] ++ [Instr.opLoop (fc.length + fb.length + 4)]
              = (code.instrs ++ fc) ++ Instr.opBranch 0 ::
                ([Instr.opPop] ++ fb ++ [Instr.opPop]
                  ++ [Instr.opLoop (fc.length + fb.length + 4)]) from by
            simp [List.append_assoc]]
          rw [set_append_len]
        constructor
        · refine ⟨fc ++ .opBranch (fb.length + 3) :: .opPop ::
            (fb ++ [.opPop, .opLoop (fc.length + fb.length + 4), .opPop, .opUnit]),
            ?_, FragWT_while hwc hwb⟩
          rw [add_instrs, add_instrs, h7i]
          simp [List.append_assoc]
        · refine ⟨n1 ++ n2, ?_, ?_⟩
          · rw [add_consts, add_consts, patch_branch_consts, emit_loop_consts,
              add_consts, hcb, add_consts, add_consts, hcc, List.append_assoc]
          · intro v hv
            rcases List.mem_append.1 hv with hm | hm
            exacts [hvc v hm, hvb v hm]
  | ifC cond thn alt =>
    intro code ctr out h
    unfold emit_cmd at h
    cases h1 : emit_expr code ctr cond with
    | none => rw [h1] at h; simp at h
    | some p1 =>
      obtain ⟨code1, ctr1⟩ := p1
      rw [h1] at h
      simp only [Option.bind_eq_bind, Option.some_bind] at h
      cases h2 : emit_expr ((code1.add (.opBranch 0) 1).1.add .opPop 1).1 ctr1 thn with
      | none => rw [h2] at h; simp at h
      | some p2 =>
        obtain ⟨code4, ctr2⟩ := p2
        rw [h2] at h
        simp only [Option.bind_eq_bind, Option.some_bind] at h
        cases h3 : emit_expr ((patch_branch (code4.add (.opJump 0) 1).1
            (code1.add (.opBranch 0) 1).2).add .opPop 1).1 ctr2 alt with
        | none => rw [h3] at h; simp at h
        | some p3 =>
          obtain ⟨code8, ctr3⟩ := p3
          rw [h3] at h
          simp only [Option.bind_eq_bind, Option.some_bind, Option.some_inj] at h
          cases h
          obtain ⟨⟨fc, hic, hwc⟩, ⟨n1, hcc, hvc⟩⟩ :=
            emit_expr_spec cond code ctr (code1, ctr1) h1
          obtain ⟨⟨ft, hit, hwt⟩, ⟨n2, hct, hvt⟩⟩ :=
            emit_expr_spec thn ((code1.add (.opBranch 0) 1).1.add .opPop 1).1 ctr1
              (code4, ctr2) h2
          obtain ⟨⟨fa, hia, hwa⟩, ⟨n3, hca, hva⟩⟩ :=
            emit_expr_spec alt ((patch_branch (code4.add (.opJump 0) 1).1
              (code1.add (.opBranch 0) 1).2).add .opPop 1).1 ctr2 (code8, ctr3) h3
          have hi3 : ((code1.add (.opBranch 0) 1).1.add .opPop 1).1.instrs
              = code.instrs ++ fc ++ [.opBranch 0] ++ [.opPop] := by
            rw [add_instrs, add_instrs, hic]
          have hi5 : ((code4.add (.opJump 0) 1).1).instrs
              = code.instrs ++ fc ++ [.opBranch 0] ++ [.opPop] ++ ft ++ [.opJump 0] := by
            rw [add_instrs, hit, hi3]
          have hlen5 : ((code4.add (.opJump 0) 1).1).len
              = code.instrs.length + fc.length + ft.length + 3 := by
            show ((code4.add (.opJump 0) 1).1).instrs.length = _
            rw [hi5]
            simp [List.length_append]
            omega
          have hexit : (code1.add (.opBranch 0) 1).2 = (code.instrs ++ fc).length := by
            rw [add_idx, hic]
          have hofB : ((code4.add (.opJump 0) 1).1).len
              - (code1.add (.opBranch 0) 1).2 - 1 = ft.length + 2 := by
            rw [hlen5, hexit]
            simp [List.length_append]
            omega
          have h6i : (patch_branch (code4.add (.opJump 0) 1).1
                (code1.add (.opBranch 0) 1).2).instrs
              = (code.instrs ++ fc) ++ .opBranch (ft.length + 2) ::
                ([.opPop] ++ ft ++ [.opJump 0]) := by
            rw [patch_branch_instrs, hofB, hi5, hexit]
            rw [show code.instrs ++ fc ++ [Instr.opBranch 0] ++ [Instr.opPop] ++ ft
                ++ [Instr.opJump 0]
                = (code.instrs ++ fc) ++ Instr.opBranch 0 ::
                  ([Instr.opPop] ++ ft ++ [Instr.opJump 0]) from by
              simp [List.append_assoc]]
            rw [set_append_len]
          have hi7 : ((patch_branch (code4.add (.opJump 0) 1).1
                (code1.add (.opBranch 0) 1).2).add .opPop 1).1.instrs
              = (code.instrs ++ fc) ++ .opBranch (ft.length + 2) ::
                ([.opPop] ++ ft ++ [.opJump 0]) ++ [.opPop] := by
            rw [add_instrs, h6i]
          have hi8 : code8.instrs
              = (code.instrs ++ fc) ++ .opBranch (ft.length + 2) ::
                ([.opPop] ++ ft ++ [.opJump 0]) ++ [.opPop] ++ fa := by
            rw [hia, hi7]
          have hexit2 : (code4.add (.opJump 0) 1).2
              = ((code.instrs ++ fc) ++ Instr.opBranch (ft.length + 2) ::
                  ([Instr.opPop] ++ ft)).length := by
            rw [add_idx, hit, hi3]
            simp [List.length_append]
            try omega
          have hlen8 : code8.len = code.instrs.length + fc.length + ft.length
              + fa.length + 4 := by
            show code8.instrs.length = _
            rw [hi8]
            simp [List.length_append]
            omega
          have hofJ : code8.len - (code4.add (.opJump 0) 1).2 - 1 = fa.length + 1 := by
            rw [hlen8, hexit2]
            simp [List.length_append]
            omega
          have hsplit : code8.instrs
              = ((code.instrs ++ fc) ++ Instr.opBranch (ft.length + 2) ::
                  ([Instr.opPop] ++ ft)) ++ Instr.opJump 0 ::
                  ([Instr.opPop] ++ fa) := by
            rw [hi8]
            simp [List.append_assoc]
          have hfinal : (patch_jump code8 (code4.add (.opJump 0) 1).2).instrs
              = code.instrs ++ (fc ++ .opBranch (ft.length + 2) :: .opPop ::
                (ft ++ .opJump (fa.length + 1) :: .opPop :: fa)) := by
            rw [patch_jump_instrs, hofJ, hsplit, hexit2, set_append_len]
            simp [List.append_assoc]
          constructor
          · exact ⟨fc ++ .opBranch (ft.length + 2) :: .opPop ::
              (ft ++ .opJump (fa.length + 1) :: .opPop :: fa), hfinal,
              FragWT_if hwc hwt hwa⟩
          · refine ⟨n1 ++ (n2 ++ n3), ?_, ?_⟩
            · rw [patch_jump_consts, hca, add_consts, patch_branch_consts,
                add_consts, hct, add_consts, add_consts, hcc]
              simp [List.append_assoc]
            · intro v hv
              rcases List.mem_append.1 hv with hm | hm
              · exact hvc v hm
              · rcases List.mem_append.1 hm with hm2 | hm2
                exacts [hvt v hm2, hva v hm2]
  | expr e =>
    intro code ctr out h
    unfold emit_cmd at h
    exact emit_expr_spec e code ctr out h
termination_by sizeOf c

/-- `emit_args` appends one value-producing fragment per argument. -/
theorem emit_args_spec (es : List Expr) : ∀ code ctr out,
    emit_args code ctr es = some out → EmitSpec code out.1 es.length := by
  cases es with
  | nil =>
    intro code ctr out h
    unfold emit_args at h
    simp only [Option.some_inj] at h
    cases h
    simpa using EmitSpec_refl code
  | cons e rest =>
    intro code ctr out h
    unfold emit_args at h
    cases h1 : emit_expr code ctr e with
    | none => rw [h1] at h; simp at h
    | some p1 =>
      obtain ⟨code1, ctr1⟩ := p1
      rw [h1] at h
      simp only [Option.bind_eq_bind, Option.some_bind] at h
      have s1 := emit_expr_spec e code ctr (code1, ctr1) h1
      have s2 := emit_args_spec rest code1 ctr1 out h
      have s := EmitSpec_seq s1 s2
      have e1 : (e :: rest).length = 1 + rest.length := by
        simp [Nat.add_comm]
      rw [e1]
      exact s
termination_by sizeOf es

/-- `emit_expr` appends a depth-consistent fragment of net effect +1. -/
theorem emit_expr_spec (e : Expr) : ∀ code ctr out,
    emit_expr code ctr e = some out → EmitSpec code out.1 1 := by
  cases e with
  | lt lhs rhs =>
    intro code ctr out h
    unfold emit_expr at h
    cases h1 : emit_expr code ctr lhs with
    | none => rw [h1] at h; simp at h
    | some p1 =>
      obtain ⟨code1, ctr1⟩ := p1
      rw [h1] at h
      simp only [Option.bind_eq_bind, Option.some_bind] at h
      cases h2 : emit_expr code1 ctr1 rhs with
      | none => rw [h2] at h; simp at h
      | some p2 =>
        obtain ⟨code2, ctr2⟩ := p2
        rw [h2] at h
        simp only [Option.bind_eq_bind, Option.some_bind, Option.some_inj] at h
        cases h
        exact EmitSpec_push (EmitSpec_seq (emit_expr_spec lhs code ctr (code1, ctr1) h1)
          (emit_expr_spec rhs code1 ctr1 (code2, ctr2) h2)) _ 1
          (FragWT_single (by simp [instrOK]))
  | eq lhs rhs =>
    intro code ctr out h
    unfold emit_expr at h
    cases h1 : emit_expr code ctr lhs with
    | none => rw [h1] at h; simp at h
    | some p1 =>
      obtain ⟨code1, ctr1⟩ := p1
      rw [h1] at h
      simp only [Option.bind_eq_bind, Option.some_bind] at h
      cases h2 : emit_expr code1 ctr1 rhs with
      | none => rw [h2] at h; simp at h
      | some p2 =>
        obtain ⟨code2, ctr2⟩ := p2
        rw [h2] at h
        simp only [Option.bind_eq_bind, Option.some_bind, Option.some_inj] at h
        cases h
        exact EmitSpec_push (EmitSpec_seq (emit_expr_spec lhs code ctr (code1, ctr1) h1)
          (emit_expr_spec rhs code1 ctr1 (code2, ctr2) h2)) _ 1
          (FragWT_single (by simp [instrOK]))
  | add lhs rhs =>
    intro code ctr out h
    unfold emit_expr at h
    cases h1 : emit_expr code ctr lhs with
    | none => rw [h1] at h; simp at h
    | some p1 =>
      obtain ⟨code1, ctr1⟩ := p1
      rw [h1] at h
      simp only [Option.bind_eq_bind, Option.some_bind] at h
      cases h2 : emit_expr code1 ctr1 rhs with
      | none => rw [h2] at h; simp at h
      | some p2 =>
        obtain ⟨code2, ctr2⟩ := p2
        rw [h2] at h
        simp only [Option.bind_eq_bind, Option.some_bind, Option.some_inj] at h
        cases h
        exact EmitSpec_push (EmitSpec_seq (emit_expr_spec lhs code ctr (code1, ctr1) h1)
          (emit_expr_spec rhs code1 ctr1 (code2, ctr2) h2)) _ 1
          (FragWT_single (by simp [instrOK]))
  | sub lhs rhs =>
    intro code ctr out h
    unfold emit_expr at h
    cases h1 : emit_expr code ctr lhs with
    | none => rw [h1] at h; simp at h
    | some p1 =>
      obtain ⟨code1, ctr1⟩ := p1
      rw [h1] at h
      simp only [Option.bind_eq_bind, Option.some_bind] at h
      cases h2 : emit_expr code1 ctr1 rhs with
      | none => rw [h2] at h; simp at h
      | some p2 =>
        obtain ⟨code2, ctr2⟩ := p2
        rw [h2] at h
        simp only [Option.bind_eq_bind, Option.some_bind, Option.some_inj] at h
        cases h
        exact EmitSpec_push (EmitSpec_seq (emit_expr_spec lhs code ctr (code1, ctr1) h1)
          (emit_expr_spec rhs code1 ctr1 (code2, ctr2) h2)) _ 1
          (FragWT_single (by simp [instrOK]))
  | mul lhs rhs =>
    intro code ctr out h
    unfold emit_expr at h
    cases h1 : emit_expr code ctr lhs with
    | none => rw [h1] at h; simp at h
    | some p1 =>
      obtain ⟨code1, ctr1⟩ := p1
      rw [h1] at h
      simp only [Option.bind_eq_bind, Option.some_bind] at h
      cases h2 : emit_expr code1 ctr1 rhs with
      | none => rw [h2] at h; simp at h
      | some p2 =>
        obtain ⟨code2, ctr2⟩ := p2
        rw [h2] at h
        simp only [Option.bind_eq_bind, Option.some_bind, Option.some_inj] at h
        cases h
        exact EmitSpec_push (EmitSpec_seq (emit_expr_spec lhs code ctr (code1, ctr1) h1)
          (emit_expr_spec rhs code1 ctr1 (code2, ctr2) h2)) _ 1
          (FragWT_single (by simp [instrOK]))
  | div lhs rhs =>
    intro code ctr out h
    unfold emit_expr at h
    cases h1 : emit_expr code ctr lhs with
    | none => rw [h1] at h; simp at h
    | some p1 =>
      obtain ⟨code1, ctr1⟩ := p1
      rw [h1] at h
      simp only [Option.bind_eq_bind, Option.some_bind] at h
      cases h2 : emit_expr code1 ctr1 rhs with
      | none => rw [h2] at h; simp at h
      | some p2 =>
        obtain ⟨code2, ctr2⟩ := p2
        rw [h2] at h
        simp only [Option.bind_eq_bind, Option.some_bind, Option.some_inj] at h
        cases h
        exact EmitSpec_push (EmitSpec_seq (emit_expr_spec lhs code ctr (code1, ctr1) h1)
          (emit_expr_spec rhs code1 ctr1 (code2, ctr2) h2)) _ 1
          (FragWT_single (by simp [instrOK]))
  | neg e =>
    intro code ctr out h
    unfold emit_expr at h
    cases h1 : emit_expr code ctr e with
    | none => rw [h1] at h; simp at h
    | some p1 =>
      obtain ⟨code1, ctr1⟩ := p1
      rw [h1] at h
      simp only [Option.bind_eq_bind, Option.some_bind, Option.some_inj] at h
      cases h
      exact EmitSpec_push (emit_expr_spec e code ctr (code1, ctr1) h1) _ 1
        (FragWT_single (by simp [instrOK]))
  | notE e =>
    intro code ctr out h
    unfold emit_expr at h
    cases h1 : emit_expr code ctr e with
    | none => rw [h1] at h; simp at h
    | some p1 =>
      obtain ⟨code1, ctr1⟩ := p1
      rw [h1] at h
      simp only [Option.bind_eq_bind, Option.some_bind, Option.some_inj] at h
      cases h
      exact EmitSpec_push (emit_expr_spec e code ctr (code1, ctr1) h1) _ 1
        (FragWT_single (by simp [instrOK]))
  | block items =>
    intro code ctr out h
    unfold emit_expr at h
    exact emit_block_spec items code ctr out h
  | group c =>
    intro code ctr out h
    unfold emit_expr at h
    exact emit_cmd_spec c code ctr out h
  | ident name =>
    intro code ctr out h
    unfold emit_expr at h
    simp only [Option.some_inj] at h
    cases h
    exact EmitSpec_push (EmitSpec_addConst (EmitSpec_refl code) _ (ValOK.str name))
      (.opLoad (code.add_const (.str name)).2) 1
      (FragWT_single (by simp [instrOK]))
  | boolE lit =>
    intro code ctr out h
    unfold emit_expr at h
    simp only [Option.some_inj] at h
    cases h
    cases lit with
    | false =>
      exact EmitSpec_push (EmitSpec_refl code) Instr.opFalse 1
        (FragWT_single (by simp [instrOK]))
    | true =>
      exact EmitSpec_push (EmitSpec_refl code) Instr.opTrue 1
        (FragWT_single (by simp [instrOK]))
  | numE lit =>
    intro code ctr out h
    unfold emit_expr at h
    simp only [Option.some_inj] at h
    cases h
    exact emit_const_spec code _ (ValOK.num lit)
  | strE lit =>
    intro code ctr out h
    unfold emit_expr at h
    simp only [Option.some_inj] at h
    cases h
    exact emit_const_spec code _ (ValOK.str lit)
  | unitE =>
    intro code ctr out h
    unfold emit_expr at h
    simp only [Option.some_inj] at h
    cases h
    exact EmitSpec_push (EmitSpec_refl code) Instr.opUnit 1
      (FragWT_single (by simp [instrOK]))
termination_by sizeOf e
end

end Coro

namespace Coro

/-- The empty code object is well-formed. -/
theorem CodeOK_new : CodeOK Code.new := by
  refine CodeOK.mk _ ⟨fun _ => 0, rfl, ?_⟩ (Or.inl rfl) ?_ ?_
  · intro i h
    simp [Code.new, Code.instrs] at h
  · intro i h
    simp [Code.new, Code.instrs] at h
  · intro v hv
    simp [Code.new, Code.consts] at hv

/-- Every code object the top-level compiler produces is well-formed: it
admits a consistent depth map from depth 0, ends in `Ret` (or is empty), its
jumps land strictly inside, and every function constant it carries is
recursively well-formed. -/
theorem compile_CodeOK {ast : Ast} {code : Code} (h : compile ast = some code) :
    CodeOK code := by
  unfold compile at h
  by_cases he : ast.items.isEmpty
  · rw [if_pos he] at h
    simp only [Option.some_inj] at h
    subst h
    exact CodeOK_new
  · rw [if_neg he] at h
    cases h1 : emit_block Code.new 0 ast.items with
    | none => rw [h1] at h; simp at h
    | some p =>
      obtain ⟨c1, n1⟩ := p
      rw [h1] at h
      simp only [Option.bind_eq_bind, Option.some_bind, Option.some_inj] at h
      subst h
      have s := emit_block_spec ast.items Code.new 0 (c1, n1) h1
      obtain ⟨⟨frag, hi, hw⟩, ⟨nw, hc, hv⟩⟩ := s
      simp only [Code.new, Code.instrs, Code.consts, List.nil_append] at hi hc
      cases c1 with
      | mk ci cc cl =>
        simp only [Code.instrs, Code.consts] at hi hc
        subst hi
        subst hc
        show CodeOK (Code.mk (ci ++ [.opRet]) cc (cl ++ [1]))
        exact CodeOK_of_frag hw hv

/-- The function object built around the compiled top level carries
well-formed code. -/
theorem compileMain_CodeOK {ast : Ast} {f : FnDef}
    (h : compileMain ast = some f) : CodeOK f.code := by
  unfold compileMain at h
  cases h1 : compile ast with
  | none => rw [h1] at h; simp at h
  | some c =>
    rw [h1] at h
    simp only [Option.bind_eq_bind, Option.some_bind, Option.some_inj] at h
    subst h
    exact compile_CodeOK h1

end Coro

namespace Coro

/-! ### The `emit_block` panic on empty blocks (C10): any contained empty
block makes compilation panic. -/

mutual
theorem emit_block_none (bs : List Bind) : ∀ code ctr,
    Bind.listHasEmptyBlock bs = true → emit_block code ctr bs = none := by
  cases bs with
  | nil =>
    intro code ctr h
    simp [Bind.listHasEmptyBlock] at h
  | cons b rest =>
    intro code ctr h
    unfold Bind.listHasEmptyBlock at h
    rw [Bool.or_eq_true] at h
    cases rest with
    | nil =>
      unfold emit_block
      rcases h with h | h
      · exact emit_bind_none b code ctr h
      · simp [Bind.listHasEmptyBlock] at h
    | cons r rs =>
      unfold emit_block
      rcases h with h | h
      · rw [emit_bind_none b code ctr h]
        rfl
      · cases h1 : emit_bind code ctr b with
        | none => rfl
        | some p =>
          obtain ⟨c1, n1⟩ := p
          simp only [Option.bind_eq_bind, Option.some_bind]
          exact emit_block_none (r :: rs) ((c1.add .opPop 1).1) n1 h
termination_by sizeOf bs

theorem emit_bind_none (b : Bind) : ∀ code ctr,
    Bind.hasEmptyBlock b = true → emit_bind code ctr b = none := by
  cases b with
  | defB d =>
    obtain ⟨name, params, body⟩ := d
    intro code ctr h
    unfold Bind.hasEmptyBlock at h
    unfold emit_bind emit_def
    rw [emit_cmd_none body Code.new ctr h]
    rfl
  | letB l =>
    obtain ⟨name, init⟩ := l
    intro code ctr h
    unfold Bind.hasEmptyBlock at h
    unfold emit_bind emit_let
    rw [emit_cmd_none init code ctr h]
    rfl
  | cmd c =>
    intro code ctr h
    unfold Bind.hasEmptyBlock at h
    unfold emit_bind
    exact emit_cmd_none c code ctr h
termination_by sizeOf b

theorem emit_cmd_none (c : Cmd) : ∀ code ctr,
    Cmd.hasEmptyBlock c = true → emit_cmd code ctr c = none := by
  cases c with
  | print e =>
    intro code ctr h
    unfold Cmd.hasEmptyBlock at h
    unfold emit_cmd
    rw [emit_expr_none e code ctr h]
    rfl
  | create name =>
    intro code ctr h
    simp [Cmd.hasEmptyBlock] at h
  | resumeC e args =>
    intro code ctr h
    unfold Cmd.hasEmptyBlock at h
    rw [Bool.or_eq_true] at h
    unfold emit_cmd
    rcases h with h | h
    · rw [emit_expr_none e code ctr h]
      rfl
    · cases h1 : emit_expr code ctr e with
      | none => rfl
      | some p =>
        obtain ⟨c1, n1⟩ := p
        simp only [Option.bind_eq_bind, Option.some_bind]
        rw [emit_args_none args c1 n1 h]
        rfl
  | yieldC e =>
    intro code ctr h
    unfold Cmd.hasEmptyBlock at h
    unfold emit_cmd
    rw [emit_expr_none e code ctr h]
    rfl
  | whileC cond body =>
    intro code ctr h
    unfold Cmd.hasEmptyBlock at h
    rw [Bool.or_eq_true] at h
    unfold emit_cmd
    rcases h with h | h
    · rw [emit_expr_none cond code ctr h]
      rfl
    · cases h1 : emit_expr code ctr cond with
      | none => rfl
      | some p =>
        obtain ⟨c1, n1⟩ := p
        simp only [Option.bind_eq_bind, Option.some_bind]
        rw [emit_expr_none body ((c1.add (.opBranch 0) 1).1.add .opPop 1).1 n1 h]
        rfl
  | ifC cond thn alt =>
    intro code ctr h
    unfold Cmd.hasEmptyBlock at h
    simp only [Bool.or_eq_true] at h
    unfold emit_cmd
    rcases h with (h | h) | h
    · rw [emit_expr_none cond code ctr h]
      rfl
    · cases h1 : emit_expr code ctr cond with
      | none => rfl
      | some p =>
        obtain ⟨c1, n1⟩ := p
        simp only [Option.bind_eq_bind, Option.some_bind]
        rw [emit_expr_none thn ((c1.add (.opBranch 0) 1).1.add .opPop 1).1 n1 h]
        rfl
    · cases h1 : emit_expr code ctr cond with
      | none => rfl
      | some p =>
        obtain ⟨c1, n1⟩ := p
        simp only [Option.bind_eq_bind, Option.some_bind]
        cases h2 : emit_expr ((c1.add (.opBranch 0) 1).1.add .opPop 1).1 n1 thn with
        | none => rfl
        | some p2 =>
          obtain ⟨c4, n2⟩ := p2
          simp only [Option.bind_eq_bind, Option.some_bind]
          rw [emit_expr_none alt
            ((patch_branch (c4.add (.opJump 0) 1).1
              ((c1.add (.opBranch 0) 1).2)).add .opPop 1).1 n2 h]
          rfl
  | expr e =>
    intro code ctr h
    unfold Cmd.hasEmptyBlock at h
    unfold emit_cmd
    exact emit_expr_none e code ctr h
termination_by sizeOf c

theorem emit_args_none (es : List Expr) : ∀ code ctr,
    Expr.listHasEmptyBlock es = true → emit_args code ctr es = none := by
  cases es with
  | nil =>
    intro code ctr h
    simp [Expr.listHasEmptyBlock] at h
  | cons a rest =>
    intro code ctr h
    unfold Expr.listHasEmptyBlock at h
    rw [Bool.or_eq_true] at h
    unfold emit_args
    rcases h with h | h
    · rw [emit_expr_none a code ctr h]
      rfl
    · cases h1 : emit_expr code ctr a with
      | none => rfl
      | some p =>
        obtain ⟨c1, n1⟩ := p
        simp only [Option.bind_eq_bind, Option.some_bind]
        exact emit_args_none rest c1 n1 h
termination_by sizeOf es

theorem emit_expr_none (e : Expr) : ∀ code ctr,
    Expr.hasEmptyBlock e = true → emit_expr code ctr e = none := by
  cases e with
  | block items =>
    intro code ctr h
    unfold Expr.hasEmptyBlock at h
    rw [Bool.or_eq_true] at h
    unfold emit_expr
    rcases h with h | h
    · rw [List.isEmpty_iff] at h
      subst h
      unfold emit_block
      rfl
    · exact emit_block_none items code ctr h
  | group c =>
    intro code ctr h
    unfold Expr.hasEmptyBlock at h
    unfold emit_expr
    exact emit_cmd_none c code ctr h
  | ident name =>
    intro code ctr h
    simp [Expr.hasEmptyBlock] at h
  | lt lhs rhs =>
    intro code ctr h
    unfold Expr.hasEmptyBlock at h
    rw [Bool.or_eq_true] at h
    unfold emit_expr
    rcases h with h | h
    · rw [emit_expr_none lhs code ctr h]
      rfl
    · cases h1 : emit_expr code ctr lhs with
      | none => rfl
      | some p =>
        obtain ⟨c1, n1⟩ := p
        simp only [Option.bind_eq_bind, Option.some_bind]
        rw [emit_expr_none rhs c1 n1 h]
        rfl
  | eq lhs rhs =>
    intro code ctr h
    unfold Expr.hasEmptyBlock at h
    rw [Bool.or_eq_true] at h
    unfold emit_expr
    rcases h with h | h
    · rw [emit_expr_none lhs code ctr h]
      rfl
    · cases h1 : emit_expr code ctr lhs with
      | none => rfl
      | some p =>
        obtain ⟨c1, n1⟩ := p
        simp only [Option.bind_eq_bind, Option.some_bind]
        rw [emit_expr_none rhs c1 n1 h]
        rfl
  | add lhs rhs =>
    intro code ctr h
    unfold Expr.hasEmptyBlock at h
    rw [Bool.or_eq_true] at h
    unfold emit_expr
    rcases h with h | h
    · rw [emit_expr_none lhs code ctr h]
      rfl
    · cases h1 : emit_expr code ctr lhs with
      | none => rfl
      | some p =>
        obtain ⟨c1, n1⟩ := p
        simp only [Option.bind_eq_bind, Option.some_bind]
        rw [emit_expr_none rhs c1 n1 h]
        rfl
  | sub lhs rhs =>
    intro code ctr h
    unfold Expr.hasEmptyBlock at h
    rw [Bool.or_eq_true] at h
    unfold emit_expr
    rcases h with h | h
    · rw [emit_expr_none lhs code ctr h]
      rfl
    · cases h1 : emit_expr code ctr lhs with
      | none => rfl
      | some p =>
        obtain ⟨c1, n1⟩ := p
        simp only [Option.bind_eq_bind, Option.some_bind]
        rw [emit_expr_none rhs c1 n1 h]
        rfl
  | mul lhs rhs =>
    intro code ctr h
    unfold Expr.hasEmptyBlock at h
    rw [Bool.or_eq_true] at h
    unfold emit_expr
    rcases h with h | h
    · rw [emit_expr_none lhs code ctr h]
      rfl
    · cases h1 : emit_expr code ctr lhs with
      | none => rfl
      | some p =>
        obtain ⟨c1, n1⟩ := p
        simp only [Option.bind_eq_bind, Option.some_bind]
        rw [emit_expr_none rhs c1 n1 h]
        rfl
  | div lhs rhs =>
    intro code ctr h
    unfold Expr.hasEmptyBlock at h
    rw [Bool.or_eq_true] at h
    unfold emit_expr
    rcases h with h | h
    · rw [emit_expr_none lhs code ctr h]
      rfl
    · cases h1 : emit_expr code ctr lhs with
      | none => rfl
      | some p =>
        obtain ⟨c1, n1⟩ := p
        simp only [Option.bind_eq_bind, Option.some_bind]
        rw [emit_expr_none rhs c1 n1 h]
        rfl
  | neg e1 =>
    intro code ctr h
    unfold Expr.hasEmptyBlock at h
    unfold emit_expr
    rw [emit_expr_none e1 code ctr h]
    rfl
  | notE e1 =>
    intro code ctr h
    unfold Expr.hasEmptyBlock at h
    unfold emit_expr
    rw [emit_expr_none e1 code ctr h]
    rfl
  | boolE lit =>
    intro code ctr h
    simp [Expr.hasEmptyBlock] at h
  | numE lit =>
    intro code ctr h
    simp [Expr.hasEmptyBlock] at h
  | strE lit =>
    intro code ctr h
    simp [Expr.hasEmptyBlock] at h
  | unitE =>
    intro code ctr h
    simp [Expr.hasEmptyBlock] at h
termination_by sizeOf e
end

/-- A program containing an empty block fails to compile (the Rust
`emit_block` panics on `len - 1`). -/
theorem compile_none_of_hasEmptyBlock {ast : Ast}
    (h : ast.hasEmptyBlock = true) : compile ast = none := by
  unfold Ast.hasEmptyBlock at h
  have hne : ¬ ast.items.isEmpty := by
    intro he
    rw [List.isEmpty_iff] at he
    rw [he] at h
    simp [Bind.listHasEmptyBlock] at h
  unfold compile
  rw [if_neg hne]
  rw [emit_block_none ast.items Code.new 0 h]
  rfl

/-- The empty top-level program is special-cased and compiles to the empty
code object. -/
theorem compile_empty : compile (Ast.mk []) = some Code.new := by
  unfold compile
  rfl

end Coro

namespace Coro

/-! ### The runtime master invariant -/

/-- A running coroutine is trivially idle-consistent (the idle invariant only
constrains suspended coroutines). -/
theorem CoroIdle_of_running {c : CoroSt} (h : c.status = .running) : CoroIdle c := by
  intro hs
  rw [h] at hs
  cases hs

/-- A finished coroutine is trivially idle-consistent. -/
theorem CoroIdle_of_done {c : CoroSt} (h : c.status = .done) : CoroIdle c := by
  intro hs
  rw [h] at hs
  cases hs

/-- The dispatch-loop outcome promise only looks at the function and prior
status of the coroutine it started from. -/
theorem ExecOutcome_congr {a b : CoroSt} {out : CoroSt × Glob × Res}
    (h : ExecOutcome a out) (hfn : a.fn = b.fn) (hst : a.status = b.status) :
    ExecOutcome b out := by
  rcases out with ⟨s, g, r⟩
  cases r with
  | yielded v => exact ⟨h.1, h.2.1.trans hfn, h.2.2.1, h.2.2.2.1, h.2.2.2.2.1,
      h.2.2.2.2.2.1, h.2.2.2.2.2.2⟩
  | ret v => exact ⟨h.1, h.2.1.trans hfn, h.2.2.1, h.2.2.2.1, h.2.2.2.2⟩
  | fell => exact ⟨h.1.trans hfn, h.2.1.trans hst, h.2.2.1, h.2.2.2⟩
  | okv v => exact h
  | err msg => exact h
  | underflow => exact h
  | panic msg => exact h
  | oom => exact h

theorem check_status_ok {self : CoroSt} {u : Unit}
    (h : check_status self = .ok u) : self.status = .suspended := by
  unfold check_status at h
  by_cases hs : self.status = .suspended
  · exact hs
  · rw [if_pos hs] at h
    cases h

/-- What one non-`Resume` iteration guarantees: a looping step preserves the
running invariant, a halting step delivers a legitimate outcome. -/
def StepSpec (self : CoroSt) : Step → Prop
  | .next s2 g2 => (CoroRun s2 ∧ s2.fn = self.fn) ∧ GlobOK g2
  | .halt s2 g2 r => GlobOK g2 ∧ r ≠ .underflow ∧ ExecOutcome self (s2, g2, r)

end Coro

namespace Coro

/-- Per-instruction preservation: under the running invariant, with the local
depth-consistency condition of the instruction at the current ip, one
iteration of the dispatch loop (for any opcode but `Resume`) never underflows
and satisfies `StepSpec`. -/
theorem execInstr_ok {self : CoroSt} {g : Glob} {ins : Instr} {D : Nat → Nat}
    (hco : CodeOK self.fn.code) (henv : EnvOK self.env) (hstk : StackOK self.stack)
    (hst : self.status = .running) (hg : GlobOK g)
    (hD0 : D 0 = 0) (hfrag : fragWT self.fn.code.instrs D)
    (hdepth : self.stack.length = D self.ip)
    (hok : instrOK self.fn.code.instrs.length D self.ip ins)
    (hnr : ∀ m, ins ≠ .opResume m) :
    StepSpec self (execInstr { self with ip := self.ip + 1 } g ins) := by
  have hconsts : ∀ v ∈ self.fn.code.consts, ValOK v := by
    cases hco with | mk c hwt hret hjump hcs => exact hcs
  cases ins with
  | opResume num => exact absurd rfl (hnr num)
  | opUnit =>
    simp only [execInstr, instrOK] at hok ⊢
    refine ⟨⟨⟨hco, henv, StackOK_cons ValOK.unit hstk, hst, D, hD0, hfrag, ?_⟩, rfl⟩, hg⟩
    simp only [List.length_cons]
    omega
  | opTrue =>
    simp only [execInstr, instrOK] at hok ⊢
    refine ⟨⟨⟨hco, henv, StackOK_cons (ValOK.bool true) hstk, hst, D, hD0, hfrag, ?_⟩, rfl⟩, hg⟩
    simp only [List.length_cons]
    omega
  | opFalse =>
    simp only [execInstr, instrOK] at hok ⊢
    refine ⟨⟨⟨hco, henv, StackOK_cons (ValOK.bool false) hstk, hst, D, hD0, hfrag, ?_⟩, rfl⟩, hg⟩
    simp only [List.length_cons]
    omega
  | opConst idx =>
    simp only [execInstr, instrOK] at hok ⊢
    cases hc : self.fn.code.constantAt? idx with
    | none => exact ⟨hg, fun hcon => Res.noConfusion hcon, CoroIdle_of_running hst⟩
    | some v =>
      dsimp only
      have hc2 : self.fn.code.consts.get? idx = some v := hc
      have hv : ValOK v := hconsts v (List.get?_mem hc2)
      refine ⟨⟨⟨hco, henv, StackOK_cons hv hstk, hst, D, hD0, hfrag, ?_⟩, rfl⟩, hg⟩
      simp only [List.length_cons]
      omega
  | opAdd =>
    simp only [execInstr, instrOK] at hok ⊢
    obtain ⟨hok1, hok2⟩ := hok
    cases hs : self.stack with
    | nil =>
      exfalso
      rw [hs] at hdepth
      simp at hdepth
      omega
    | cons a t =>
      cases ht : t with
      | nil =>
        exfalso
        rw [hs, ht] at hdepth
        simp at hdepth
        omega
      | cons b rest =>
        rw [hs, ht] at hdepth hstk
        simp only [List.length_cons] at hdepth
        obtain ⟨hva, hstk2⟩ := StackOK_of_cons hstk
        obtain ⟨hvb, hrest⟩ := StackOK_of_cons hstk2
        cases a with
        | num na =>
          cases b with
          | num nb =>
            dsimp only
            refine ⟨⟨⟨hco, henv, StackOK_cons (ValOK.num (nb + na)) hrest, hst, D, hD0, hfrag, ?_⟩, rfl⟩, hg⟩
            simp only [List.length_cons]
            omega
          | unit => exact ⟨hg, fun hcon => Res.noConfusion hcon, CoroIdle_of_running hst⟩
          | bool c => exact ⟨hg, fun hcon => Res.noConfusion hcon, CoroIdle_of_running hst⟩
          | str s => exact ⟨hg, fun hcon => Res.noConfusion hcon, CoroIdle_of_running hst⟩
          | fn r => exact ⟨hg, fun hcon => Res.noConfusion hcon, CoroIdle_of_running hst⟩
          | co i => exact ⟨hg, fun hcon => Res.noConfusion hcon, CoroIdle_of_running hst⟩
        | unit => cases b <;> exact ⟨hg, fun hcon => Res.noConfusion hcon, CoroIdle_of_running hst⟩
        | bool c => cases b <;> exact ⟨hg, fun hcon => Res.noConfusion hcon, CoroIdle_of_running hst⟩
        | str s => cases b <;> exact ⟨hg, fun hcon => Res.noConfusion hcon, CoroIdle_of_running hst⟩
        | fn r => cases b <;> exact ⟨hg, fun hcon => Res.noConfusion hcon, CoroIdle_of_running hst⟩
        | co i => cases b <;> exact ⟨hg, fun hcon => Res.noConfusion hcon, CoroIdle_of_running hst⟩
  | opSub =>
    simp only [execInstr, instrOK] at hok ⊢
    obtain ⟨hok1, hok2⟩ := hok
    cases hs : self.stack with
    | nil =>
      exfalso
      rw [hs] at hdepth
      simp at hdepth
      omega
    | cons a t =>
      cases ht : t with
      | nil =>
        exfalso
        rw [hs, ht] at hdepth
        simp at hdepth
        omega
      | cons b rest =>
        rw [hs, ht] at hdepth hstk
        simp only [List.length_cons] at hdepth
        obtain ⟨hva, hstk2⟩ := StackOK_of_cons hstk
        obtain ⟨hvb, hrest⟩ := StackOK_of_cons hstk2
        cases a with
        | num na =>
          cases b with
          | num nb =>
            dsimp only
            refine ⟨⟨⟨hco, henv, StackOK_cons (ValOK.num (nb - na)) hrest, hst, D, hD0, hfrag, ?_⟩, rfl⟩, hg⟩
            simp only [List.length_cons]
            omega
          | unit => exact ⟨hg, fun hcon => Res.noConfusion hcon, CoroIdle_of_running hst⟩
          | bool c => exact ⟨hg, fun hcon => Res.noConfusion hcon, CoroIdle_of_running hst⟩
          | str s => exact ⟨hg, fun hcon => Res.noConfusion hcon, CoroIdle_of_running hst⟩
          | fn r => exact ⟨hg, fun hcon => Res.noConfusion hcon, CoroIdle_of_running hst⟩
          | co i => exact ⟨hg, fun hcon => Res.noConfusion hcon, CoroIdle_of_running hst⟩
        | unit => cases b <;> exact ⟨hg, fun hcon => Res.noConfusion hcon, CoroIdle_of_running hst⟩
        | bool c => cases b <;> exact ⟨hg, fun hcon => Res.noConfusion hcon, CoroIdle_of_running hst⟩
        | str s => cases b <;> exact ⟨hg, fun hcon => Res.noConfusion hcon, CoroIdle_of_running hst⟩
        | fn r => cases b <;> exact ⟨hg, fun hcon => Res.noConfusion hcon, CoroIdle_of_running hst⟩
        | co i => cases b <;> exact ⟨hg, fun hcon => Res.noConfusion hcon, CoroIdle_of_running hst⟩
  | opMul =>
    simp only [execInstr, instrOK] at hok ⊢
    obtain ⟨hok1, hok2⟩ := hok
    cases hs : self.stack with
    | nil =>
      exfalso
      rw [hs] at hdepth
      simp at hdepth
      omega
    | cons a t =>
      cases ht : t with
      | nil =>
        exfalso
        rw [hs, ht] at hdepth
        simp at hdepth
        omega
      | cons b rest =>
        rw [hs, ht] at hdepth hstk
        simp only [List.length_cons] at hdepth
        obtain ⟨hva, hstk2⟩ := StackOK_of_cons hstk
        obtain ⟨hvb, hrest⟩ := StackOK_of_cons hstk2
        cases a with
        | num na =>
          cases b with
          | num nb =>
            dsimp only
            refine ⟨⟨⟨hco, henv, StackOK_cons (ValOK.num (nb * na)) hrest, hst, D, hD0, hfrag, ?_⟩, rfl⟩, hg⟩
            simp only [List.length_cons]
            omega
          | unit => exact ⟨hg, fun hcon => Res.noConfusion hcon, CoroIdle_of_running hst⟩
          | bool c => exact ⟨hg, fun hcon => Res.noConfusion hcon, CoroIdle_of_running hst⟩
          | str s => exact ⟨hg, fun hcon => Res.noConfusion hcon, CoroIdle_of_running hst⟩
          | fn r => exact ⟨hg, fun hcon => Res.noConfusion hcon, CoroIdle_of_running hst⟩
          | co i => exact ⟨hg, fun hcon => Res.noConfusion hcon, CoroIdle_of_running hst⟩
        | unit => cases b <;> exact ⟨hg, fun hcon => Res.noConfusion hcon, CoroIdle_of_running hst⟩
        | bool c => cases b <;> exact ⟨hg, fun hcon => Res.noConfusion hcon, CoroIdle_of_running hst⟩
        | str s => cases b <;> exact ⟨hg, fun hcon => Res.noConfusion hcon, CoroIdle_of_running hst⟩
        | fn r => cases b <;> exact ⟨hg, fun hcon => Res.noConfusion hcon, CoroIdle_of_running hst⟩
        | co i => cases b <;> exact ⟨hg, fun hcon => Res.noConfusion hcon, CoroIdle_of_running hst⟩
  | opDiv =>
    simp only [execInstr, instrOK] at hok ⊢
    obtain ⟨hok1, hok2⟩ := hok
    cases hs : self.stack with
    | nil =>
      exfalso
      rw [hs] at hdepth
      simp at hdepth
      omega
    | cons a t =>
      cases ht : t with
      | nil =>
        exfalso
        rw [hs, ht] at hdepth
        simp at hdepth
        omega
      | cons b rest =>
        rw [hs, ht] at hdepth hstk
        simp only [List.length_cons] at hdepth
        obtain ⟨hva, hstk2⟩ := StackOK_of_cons hstk
        obtain ⟨hvb, hrest⟩ := StackOK_of_cons hstk2
        cases a with
        | num na =>
          cases b with
          | num nb =>
            dsimp only
            by_cases hz : na = 0
            · rw [if_pos hz]
              exact ⟨hg, fun hcon => Res.noConfusion hcon, CoroIdle_of_running hst⟩
            · rw [if_neg hz]
              refine ⟨⟨⟨hco, henv, StackOK_cons (ValOK.num (nb / na)) hrest, hst, D, hD0, hfrag, ?_⟩, rfl⟩, hg⟩
              simp only [List.length_cons]
              omega
          | unit => exact ⟨hg, fun hcon => Res.noConfusion hcon, CoroIdle_of_running hst⟩
          | bool c => exact ⟨hg, fun hcon => Res.noConfusion hcon, CoroIdle_of_running hst⟩
          | str s => exact ⟨hg, fun hcon => Res.noConfusion hcon, CoroIdle_of_running hst⟩
          | fn r => exact ⟨hg, fun hcon => Res.noConfusion hcon, CoroIdle_of_running hst⟩
          | co i => exact ⟨hg, fun hcon => Res.noConfusion hcon, CoroIdle_of_running hst⟩
        | unit => cases b <;> exact ⟨hg, fun hcon => Res.noConfusion hcon, CoroIdle_of_running hst⟩
        | bool c => cases b <;> exact ⟨hg, fun hcon => Res.noConfusion hcon, CoroIdle_of_running hst⟩
        | str s => cases b <;> exact ⟨hg, fun hcon => Res.noConfusion hcon, CoroIdle_of_running hst⟩
        | fn r => cases b <;> exact ⟨hg, fun hcon => Res.noConfusion hcon, CoroIdle_of_running hst⟩
        | co i => cases b <;> exact ⟨hg, fun hcon => Res.noConfusion hcon, CoroIdle_of_running hst⟩
  | opLt =>
    simp only [execInstr, instrOK] at hok ⊢
    obtain ⟨hok1, hok2⟩ := hok
    cases hs : self.stack with
    | nil =>
      exfalso
      rw [hs] at hdepth
      simp at hdepth
      omega
    | cons a t =>
      cases ht : t with
      | nil =>
        exfalso
        rw [hs, ht] at hdepth
        simp at hdepth
        omega
      | cons b rest =>
        rw [hs, ht] at hdepth hstk
        simp only [List.length_cons] at hdepth
        obtain ⟨hva, hstk2⟩ := StackOK_of_cons hstk
        obtain ⟨hvb, hrest⟩ := StackOK_of_cons hstk2
        cases a with
        | num na =>
          cases b with
          | num nb =>
            dsimp only
            refine ⟨⟨⟨hco, henv, StackOK_cons (ValOK.bool (decide (nb < na))) hrest, hst, D, hD0, hfrag, ?_⟩, rfl⟩, hg⟩
            simp only [List.length_cons]
            omega
          | unit => exact ⟨hg, fun hcon => Res.noConfusion hcon, CoroIdle_of_running hst⟩
          | bool c => exact ⟨hg, fun hcon => Res.noConfusion hcon, CoroIdle_of_running hst⟩
          | str s => exact ⟨hg, fun hcon => Res.noConfusion hcon, CoroIdle_of_running hst⟩
          | fn r => exact ⟨hg, fun hcon => Res.noConfusion hcon, CoroIdle_of_running hst⟩
          | co i => exact ⟨hg, fun hcon => Res.noConfusion hcon, CoroIdle_of_running hst⟩
        | unit => cases b <;> exact ⟨hg, fun hcon => Res.noConfusion hcon, CoroIdle_of_running hst⟩
        | bool c => cases b <;> exact ⟨hg, fun hcon => Res.noConfusion hcon, CoroIdle_of_running hst⟩
        | str s => cases b <;> exact ⟨hg, fun hcon => Res.noConfusion hcon, CoroIdle_of_running hst⟩
        | fn r => cases b <;> exact ⟨hg, fun hcon => Res.noConfusion hcon, CoroIdle_of_running hst⟩
        | co i => cases b <;> exact ⟨hg, fun hcon => Res.noConfusion hcon, CoroIdle_of_running hst⟩
  | opEq =>
    simp only [execInstr, instrOK] at hok ⊢
    obtain ⟨hok1, hok2⟩ := hok
    cases hs : self.stack with
    | nil =>
      exfalso
      rw [hs] at hdepth
      simp at hdepth
      omega
    | cons a t =>
      cases ht : t with
      | nil =>
        exfalso
        rw [hs, ht] at hdepth
        simp at hdepth
        omega
      | cons b rest =>
        rw [hs, ht] at hdepth hstk
        simp only [List.length_cons] at hdepth
        obtain ⟨hva, hstk2⟩ := StackOK_of_cons hstk
        obtain ⟨hvb, hrest⟩ := StackOK_of_cons hstk2
        dsimp only
        refine ⟨⟨⟨hco, henv, StackOK_cons (ValOK.bool _) hrest, hst, D, hD0, hfrag, ?_⟩, rfl⟩, hg⟩
        simp only [List.length_cons]
        omega
  | opNeg =>
    simp only [execInstr, instrOK] at hok ⊢
    obtain ⟨hok1, hok2⟩ := hok
    cases hs : self.stack with
    | nil =>
      exfalso
      rw [hs] at hdepth
      simp at hdepth
      omega
    | cons a t =>
      rw [hs] at hdepth hstk
      simp only [List.length_cons] at hdepth
      obtain ⟨hva, hrest⟩ := StackOK_of_cons hstk
      cases a with
      | num na =>
        dsimp only
        refine ⟨⟨⟨hco, henv, StackOK_cons (ValOK.num (-na)) hrest, hst, D, hD0, hfrag, ?_⟩, rfl⟩, hg⟩
        simp only [List.length_cons]
        omega
      | unit => exact ⟨hg, fun hcon => Res.noConfusion hcon, CoroIdle_of_running hst⟩
      | bool c => exact ⟨hg, fun hcon => Res.noConfusion hcon, CoroIdle_of_running hst⟩
      | str s => exact ⟨hg, fun hcon => Res.noConfusion hcon, CoroIdle_of_running hst⟩
      | fn r => exact ⟨hg, fun hcon => Res.noConfusion hcon, CoroIdle_of_running hst⟩
      | co i => exact ⟨hg, fun hcon => Res.noConfusion hcon, CoroIdle_of_running hst⟩
  | opNot =>
    simp only [execInstr, instrOK] at hok ⊢
    obtain ⟨hok1, hok2⟩ := hok
    cases hs : self.stack with
    | nil =>
      exfalso
      rw [hs] at hdepth
      simp at hdepth
      omega
    | cons a t =>
      rw [hs] at hdepth hstk
      simp only [List.length_cons] at hdepth
      obtain ⟨hva, hrest⟩ := StackOK_of_cons hstk
      dsimp only
      refine ⟨⟨⟨hco, henv, StackOK_cons (ValOK.bool _) hrest, hst, D, hD0, hfrag, ?_⟩, rfl⟩, hg⟩
      simp only [List.length_cons]
      omega
  | opLoop k =>
    simp only [execInstr, instrOK] at hok ⊢
    obtain ⟨hk1, hk2, hk3⟩ := hok
    rw [if_pos (by omega : k ≤ self.ip + 1)]
    refine ⟨⟨⟨hco, henv, hstk, hst, D, hD0, hfrag, ?_⟩, rfl⟩, hg⟩
    show self.stack.length = D (self.ip + 1 - k)
    omega
  | opJump k =>
    simp only [execInstr, instrOK] at hok ⊢
    obtain ⟨hk1, hk2⟩ := hok
    refine ⟨⟨⟨hco, henv, hstk, hst, D, hD0, hfrag, ?_⟩, rfl⟩, hg⟩
    show self.stack.length = D (self.ip + 1 + k)
    omega
  | opBranch k =>
    simp only [execInstr, instrOK] at hok ⊢
    obtain ⟨hok1, hok2, hok3, hok4⟩ := hok
    cases hs : self.stack with
    | nil =>
      exfalso
      rw [hs] at hdepth
      simp at hdepth
      omega
    | cons v t =>
      rw [hs] at hdepth hstk
      simp only [List.length_cons] at hdepth
      dsimp only
      by_cases hv : v.is_falsey = true
      · rw [if_pos hv]
        refine ⟨⟨⟨hco, henv, hstk, hst, D, hD0, hfrag, ?_⟩, rfl⟩, hg⟩
        show (v :: t).length = D (self.ip + 1 + k)
        simp only [List.length_cons]
        omega
      · rw [if_neg hv]
        refine ⟨⟨⟨hco, henv, hstk, hst, D, hD0, hfrag, ?_⟩, rfl⟩, hg⟩
        show (v :: t).length = D (self.ip + 1)
        simp only [List.length_cons]
        omega
  | opLoad idx =>
    simp only [execInstr, instrOK] at hok ⊢
    cases hc : self.fn.code.constantAt? idx with
    | none => exact ⟨hg, fun hcon => Res.noConfusion hcon, CoroIdle_of_running hst⟩
    | some v =>
      cases v with
      | str name =>
        dsimp only
        cases he : envGet self.env name with
        | none => exact ⟨hg, fun hcon => Res.noConfusion hcon, CoroIdle_of_running hst⟩
        | some w =>
          dsimp only
          have hw : ValOK w := EnvOK_get henv he
          refine ⟨⟨⟨hco, henv, StackOK_cons hw hstk, hst, D, hD0, hfrag, ?_⟩, rfl⟩, hg⟩
          simp only [List.length_cons]
          omega
      | unit => exact ⟨hg, fun hcon => Res.noConfusion hcon, CoroIdle_of_running hst⟩
      | bool b => exact ⟨hg, fun hcon => Res.noConfusion hcon, CoroIdle_of_running hst⟩
      | num n => exact ⟨hg, fun hcon => Res.noConfusion hcon, CoroIdle_of_running hst⟩
      | fn r => exact ⟨hg, fun hcon => Res.noConfusion hcon, CoroIdle_of_running hst⟩
      | co i => exact ⟨hg, fun hcon => Res.noConfusion hcon, CoroIdle_of_running hst⟩
  | opStore idx =>
    simp only [execInstr, instrOK] at hok ⊢
    obtain ⟨hok1, hok2⟩ := hok
    cases hc : self.fn.code.constantAt? idx with
    | none => exact ⟨hg, fun hcon => Res.noConfusion hcon, CoroIdle_of_running hst⟩
    | some v =>
      cases v with
      | str name =>
        dsimp only
        cases hs : self.stack with
        | nil =>
          exfalso
          rw [hs] at hdepth
          simp at hdepth
          omega
        | cons w t =>
          rw [hs] at hdepth hstk
          simp only [List.length_cons] at hdepth
          obtain ⟨hw, ht2⟩ := StackOK_of_cons hstk
          dsimp only
          refine ⟨⟨⟨hco, EnvOK_insert henv hw, StackOK_cons ValOK.unit ht2, hst, D, hD0, hfrag, ?_⟩, rfl⟩, hg⟩
          simp only [List.length_cons]
          omega
      | unit => exact ⟨hg, fun hcon => Res.noConfusion hcon, CoroIdle_of_running hst⟩
      | bool b => exact ⟨hg, fun hcon => Res.noConfusion hcon, CoroIdle_of_running hst⟩
      | num n => exact ⟨hg, fun hcon => Res.noConfusion hcon, CoroIdle_of_running hst⟩
      | fn r => exact ⟨hg, fun hcon => Res.noConfusion hcon, CoroIdle_of_running hst⟩
      | co i => exact ⟨hg, fun hcon => Res.noConfusion hcon, CoroIdle_of_running hst⟩
  | opDefine idx =>
    simp only [execInstr, instrOK] at hok ⊢
    cases hc : self.fn.code.constantAt? idx with
    | none => exact ⟨hg, fun hcon => Res.noConfusion hcon, CoroIdle_of_running hst⟩
    | some v =>
      cases v with
      | fn r =>
        dsimp only
        have hc2 : self.fn.code.consts.get? idx = some (.fn r) := hc
        have hv : ValOK (.fn r) := hconsts _ (List.get?_mem hc2)
        refine ⟨⟨⟨hco, EnvOK_insert henv hv, StackOK_cons ValOK.unit hstk, hst, D, hD0, hfrag, ?_⟩, rfl⟩, hg⟩
        simp only [List.length_cons]
        omega
      | unit => exact ⟨hg, fun hcon => Res.noConfusion hcon, CoroIdle_of_running hst⟩
      | bool b => exact ⟨hg, fun hcon => Res.noConfusion hcon, CoroIdle_of_running hst⟩
      | num n => exact ⟨hg, fun hcon => Res.noConfusion hcon, CoroIdle_of_running hst⟩
      | str s => exact ⟨hg, fun hcon => Res.noConfusion hcon, CoroIdle_of_running hst⟩
      | co i => exact ⟨hg, fun hcon => Res.noConfusion hcon, CoroIdle_of_running hst⟩
  | opCreate idx =>
    simp only [execInstr, instrOK] at hok ⊢
    cases hc : self.fn.code.constantAt? idx with
    | none => exact ⟨hg, fun hcon => Res.noConfusion hcon, CoroIdle_of_running hst⟩
    | some v =>
      cases v with
      | str name =>
        dsimp only
        cases he : envGet self.env name with
        | none => exact ⟨hg, fun hcon => Res.noConfusion hcon, CoroIdle_of_running hst⟩
        | some w =>
          have hw : ValOK w := EnvOK_get henv he
          cases w with
          | fn r =>
            dsimp only
            have hcode : CodeOK r.fdef.code := by
              cases hw with | fn id d hcd => exact hcd
            have hcell : CellOK ⟨CoroSt.new r.fdef, false⟩ := by
              refine Or.inr ?_
              intro _
              exact ⟨hcode, fun p hp => absurd hp (List.not_mem_nil p),
                fun w2 hw2 => absurd hw2 (List.not_mem_nil w2), Or.inl ⟨rfl, rfl⟩⟩
            refine ⟨⟨⟨hco, henv, StackOK_cons (ValOK.co _) hstk, hst, D, hD0, hfrag, ?_⟩, rfl⟩,
              GlobOK_append_cell hg hcell⟩
            simp only [List.length_cons]
            omega
          | unit => exact ⟨hg, fun hcon => Res.noConfusion hcon, CoroIdle_of_running hst⟩
          | bool b => exact ⟨hg, fun hcon => Res.noConfusion hcon, CoroIdle_of_running hst⟩
          | num n => exact ⟨hg, fun hcon => Res.noConfusion hcon, CoroIdle_of_running hst⟩
          | str s => exact ⟨hg, fun hcon => Res.noConfusion hcon, CoroIdle_of_running hst⟩
          | co i => exact ⟨hg, fun hcon => Res.noConfusion hcon, CoroIdle_of_running hst⟩
      | unit => exact ⟨hg, fun hcon => Res.noConfusion hcon, CoroIdle_of_running hst⟩
      | bool b => exact ⟨hg, fun hcon => Res.noConfusion hcon, CoroIdle_of_running hst⟩
      | num n => exact ⟨hg, fun hcon => Res.noConfusion hcon, CoroIdle_of_running hst⟩
      | fn r => exact ⟨hg, fun hcon => Res.noConfusion hcon, CoroIdle_of_running hst⟩
      | co i => exact ⟨hg, fun hcon => Res.noConfusion hcon, CoroIdle_of_running hst⟩
  | opYield =>
    simp only [execInstr, instrOK] at hok ⊢
    obtain ⟨hok1, hok2⟩ := hok
    cases hs : self.stack with
    | nil =>
      exfalso
      rw [hs] at hdepth
      simp at hdepth
      omega
    | cons v t =>
      rw [hs] at hdepth hstk
      simp only [List.length_cons] at hdepth
      obtain ⟨hv, ht2⟩ := StackOK_of_cons hstk
      dsimp only
      refine ⟨hg, fun hcon => Res.noConfusion hcon, hv, rfl, rfl, henv, ht2,
        Nat.succ_ne_zero _, D, hD0, hfrag, ?_⟩
      show t.length + 1 = D (self.ip + 1)
      omega
  | opPrint =>
    simp only [execInstr, instrOK] at hok ⊢
    obtain ⟨hok1, hok2⟩ := hok
    cases hs : self.stack with
    | nil =>
      exfalso
      rw [hs] at hdepth
      simp at hdepth
      omega
    | cons v t =>
      rw [hs] at hdepth hstk
      simp only [List.length_cons] at hdepth
      obtain ⟨hv, ht2⟩ := StackOK_of_cons hstk
      dsimp only
      cases hd : displayVal g v with
      | some s =>
        dsimp only
        refine ⟨⟨⟨hco, henv, StackOK_cons ValOK.unit ht2, hst, D, hD0, hfrag, ?_⟩, rfl⟩, hg⟩
        simp only [List.length_cons]
        omega
      | none => exact ⟨hg, fun hcon => Res.noConfusion hcon, CoroIdle_of_running hst⟩
  | opPop =>
    simp only [execInstr, instrOK] at hok ⊢
    obtain ⟨hok1, hok2⟩ := hok
    refine ⟨⟨⟨hco, henv, StackOK_tail hstk, hst, D, hD0, hfrag, ?_⟩, rfl⟩, hg⟩
    show self.stack.tail.length = D (self.ip + 1)
    rw [List.length_tail]
    omega
  | opRet =>
    simp only [execInstr]
    cases hs : self.stack with
    | nil => exact ⟨hg, fun hcon => Res.noConfusion hcon, ValOK.unit, rfl, rfl, henv, hs ▸ hstk⟩
    | cons v t =>
      rw [hs] at hstk
      obtain ⟨hv, ht2⟩ := StackOK_of_cons hstk
      exact ⟨hg, fun hcon => Res.noConfusion hcon, hv, rfl, rfl, henv, ht2⟩

end Coro

namespace Coro

/-- Glue for `run_master`: a non-`Resume` iteration either halts with a
legitimate outcome or recurses with the invariant re-established. -/
theorem exec_dispatch {self : CoroSt} {g : Glob} {ins : Instr} {D : Nat → Nat} {n : Nat}
    (hco : CodeOK self.fn.code) (henv : EnvOK self.env) (hstk : StackOK self.stack)
    (hst : self.status = .running) (hg : GlobOK g)
    (hD0 : D 0 = 0) (hfrag : fragWT self.fn.code.instrs D)
    (hdepth : self.stack.length = D self.ip)
    (hok : instrOK self.fn.code.instrs.length D self.ip ins)
    (hnr : ∀ m, ins ≠ .opResume m)
    (ih : ∀ job, JobPre job → JobPost job (run n job)) :
    JobPost (.exec self g)
      (match execInstr { self with ip := self.ip + 1 } g ins with
       | .next s2 g2 => run n (.exec s2 g2)
       | .halt s2 g2 r => (s2, g2, r)) := by
  have hstep := execInstr_ok hco henv hstk hst hg hD0 hfrag hdepth hok hnr
  cases hexec : execInstr { self with ip := self.ip + 1 } g ins with
  | next s2 g2 =>
    rw [hexec] at hstep
    obtain ⟨⟨hrun2, hfn2⟩, hg2⟩ := hstep
    have post := ih (.exec s2 g2) ⟨hrun2, hg2⟩
    obtain ⟨pg, pu, pe⟩ := post
    refine ⟨pg, pu, ExecOutcome_congr pe hfn2 ?_⟩
    rw [hrun2.2.2.2.1, hst]
  | halt s2 g2 r =>
    rw [hexec] at hstep
    exact hstep

end Coro

namespace Coro

/-- The master invariant of the machine: a job satisfying its precondition
keeps the global state consistent, never underflows the operand stack, and
produces the promised outcome, for every amount of fuel. -/
theorem run_master (fuel : Nat) : ∀ job, JobPre job → JobPost job (run fuel job) := by
  induction fuel with
  | zero =>
    intro job pre
    rw [run_zero]
    cases job with
    | exec self g =>
      obtain ⟨hrun, hg⟩ := pre
      obtain ⟨hco, henv, hstk, hst, D, hD0, hfrag, hdepth⟩ := hrun
      simp only [runZero]
      by_cases h : self.ip < self.fn.code.len
      · rw [if_pos h]
        exact ⟨hg, fun hc => Res.noConfusion hc, CoroIdle_of_running hst⟩
      · rw [if_neg h]
        exact ⟨hg, fun hc => Res.noConfusion hc, rfl, rfl, henv, hstk⟩
    | res self g args =>
      obtain ⟨hidle, hg, hargs⟩ := pre
      simp only [runZero]
      cases hcs : check_status self with
      | error e => exact ⟨hg, fun hc => Res.noConfusion hc, hidle, trivial⟩
      | ok u =>
        dsimp only
        cases hhi : handle_inputs self args with
        | error e => exact ⟨hg, fun hc => Res.noConfusion hc, hidle, trivial⟩
        | ok s1 => exact ⟨hg, fun hc => Res.noConfusion hc, hidle, trivial⟩
  | succ n ih =>
    intro job pre
    rw [run_succ]
    cases job with
    | exec self g =>
      obtain ⟨hrun, hg⟩ := pre
      obtain ⟨hco, henv, hstk, hst, D, hD0, hfrag, hdepth⟩ := hrun
      simp only [runF]
      by_cases h : self.ip < self.fn.code.len
      · rw [dif_pos h]
        have hok0 := hfrag self.ip h
        cases hins : self.fn.code.instrs.get ⟨self.ip, h⟩ with
        | opResume num =>
          rw [hins] at hok0
          simp only [instrOK] at hok0
          obtain ⟨hr1, hr2⟩ := hok0
          have hnum : num ≤ self.stack.length := by omega
          dsimp only
          rw [if_pos hnum]
          have hdlen : (self.stack.drop num).length = self.stack.length - num := by simp
          cases hdropE : self.stack.drop num with
          | nil =>
            exfalso
            rw [hdropE] at hdlen
            simp at hdlen
            omega
          | cons hd rest2 =>
            have hstkd : StackOK (hd :: rest2) := hdropE ▸ StackOK_drop hstk
            obtain ⟨hvhd, hrest2⟩ := StackOK_of_cons hstkd
            have hrlen : rest2.length + 1 = self.stack.length - num := by
              rw [hdropE] at hdlen
              simpa using hdlen
            cases hd with
            | co id =>
              dsimp only
              have hidle2 : CoroIdle { self with ip := self.ip + 1, status := CoStatus.suspended, stack := rest2 } := by
                intro _
                refine ⟨hco, henv, hrest2, Or.inr ⟨Nat.succ_ne_zero _, D, hD0, hfrag, ?_⟩⟩
                show rest2.length + 1 = D (self.ip + 1)
                omega
              cases hcell : g.heap.get? id with
              | none => exact ⟨hg, fun hc => Res.noConfusion hc, hidle2⟩
              | some cell =>
                dsimp only
                by_cases hb : cell.borrowed = true
                · rw [if_pos hb]
                  exact ⟨hg, fun hc => Res.noConfusion hc, hidle2⟩
                · rw [if_neg hb]
                  have hidleco : CoroIdle cell.co := by
                    rcases heap_get_CellOK hg hcell with hb2 | hi
                    · exact absurd hb2 hb
                    · exact hi
                  have hg1 : GlobOK { g with heap := g.heap.set id ⟨cell.co, true⟩ } :=
                    GlobOK_set_borrow hg (Or.inl rfl)
                  have post := ih (.res cell.co { g with heap := g.heap.set id ⟨cell.co, true⟩ }
                      ((self.stack.take num).reverse)) ⟨hidleco, hg1, ArgsOK_take_rev hstk⟩
                  rcases hout : run n (.res cell.co
                      { g with heap := g.heap.set id ⟨cell.co, true⟩ }
                      ((self.stack.take num).reverse)) with ⟨s3, g3, r3⟩
                  rw [hout] at post
                  obtain ⟨pg, pu, pidle, pres⟩ := post
                  have hg3 : GlobOK { g3 with heap := g3.heap.set id ⟨s3, false⟩ } :=
                    GlobOK_set_borrow pg (Or.inr pidle)
                  dsimp only
                  cases r3 with
                  | okv v =>
                    dsimp only
                    have hrun3 : CoroRun { self with ip := self.ip + 1, status := CoStatus.running, stack := v :: rest2 } := by
                      refine ⟨hco, henv, StackOK_cons pres hrest2, rfl, D, hD0, hfrag, ?_⟩
                      show rest2.length + 1 = D (self.ip + 1)
                      omega
                    have post2 := ih (.exec { self with ip := self.ip + 1, status := CoStatus.running, stack := v :: rest2 } { g3 with heap := g3.heap.set id ⟨s3, false⟩ }) ⟨hrun3, hg3⟩
                    obtain ⟨qg, qu, qe⟩ := post2
                    exact ⟨qg, qu, ExecOutcome_congr qe rfl hst.symm⟩
                  | yielded v => exact False.elim pres
                  | ret v => exact False.elim pres
                  | fell => exact False.elim pres
                  | err msg => exact ⟨hg3, fun hc => Res.noConfusion hc, hidle2⟩
                  | underflow => exact absurd rfl pu
                  | panic msg => exact ⟨hg3, fun hc => Res.noConfusion hc, hidle2⟩
                  | oom => exact ⟨hg3, fun hc => Res.noConfusion hc, hidle2⟩
            | unit => exact ⟨hg, fun hc => Res.noConfusion hc, CoroIdle_of_running hst⟩
            | bool b => exact ⟨hg, fun hc => Res.noConfusion hc, CoroIdle_of_running hst⟩
            | num q => exact ⟨hg, fun hc => Res.noConfusion hc, CoroIdle_of_running hst⟩
            | str s => exact ⟨hg, fun hc => Res.noConfusion hc, CoroIdle_of_running hst⟩
            | fn r => exact ⟨hg, fun hc => Res.noConfusion hc, CoroIdle_of_running hst⟩
        | opUnit =>
          rw [hins] at hok0; exact exec_dispatch hco henv hstk hst hg hD0 hfrag hdepth hok0 (fun m hc => Instr.noConfusion hc) ih
        | opTrue =>
          rw [hins] at hok0; exact exec_dispatch hco henv hstk hst hg hD0 hfrag hdepth hok0 (fun m hc => Instr.noConfusion hc) ih
        | opFalse =>
          rw [hins] at hok0; exact exec_dispatch hco henv hstk hst hg hD0 hfrag hdepth hok0 (fun m hc => Instr.noConfusion hc) ih
        | opConst idx =>
          rw [hins] at hok0; exact exec_dispatch hco henv hstk hst hg hD0 hfrag hdepth hok0 (fun m hc => Instr.noConfusion hc) ih
        | opAdd =>
          rw [hins] at hok0; exact exec_dispatch hco henv hstk hst hg hD0 hfrag hdepth hok0 (fun m hc => Instr.noConfusion hc) ih
        | opSub =>
          rw [hins] at hok0; exact exec_dispatch hco henv hstk hst hg hD0 hfrag hdepth hok0 (fun m hc => Instr.noConfusion hc) ih
        | opMul =>
          rw [hins] at hok0; exact exec_dispatch hco henv hstk hst hg hD0 hfrag hdepth hok0 (fun m hc => Instr.noConfusion hc) ih
        | opDiv =>
          rw [hins] at hok0; exact exec_dispatch hco henv hstk hst hg hD0 hfrag hdepth hok0 (fun m hc => Instr.noConfusion hc) ih
        | opNeg =>
          rw [hins] at hok0; exact exec_dispatch hco henv hstk hst hg hD0 hfrag hdepth hok0 (fun m hc => Instr.noConfusion hc) ih
        | opNot =>
          rw [hins] at hok0; exact exec_dispatch hco henv hstk hst hg hD0 hfrag hdepth hok0 (fun m hc => Instr.noConfusion hc) ih
        | opLt =>
          rw [hins] at hok0; exact exec_dispatch hco henv hstk hst hg hD0 hfrag hdepth hok0 (fun m hc => Instr.noConfusion hc) ih
        | opEq =>
          rw [hins] at hok0; exact exec_dispatch hco henv hstk hst hg hD0 hfrag hdepth hok0 (fun m hc => Instr.noConfusion hc) ih
        | opLoop k =>
          rw [hins] at hok0; exact exec_dispatch hco henv hstk hst hg hD0 hfrag hdepth hok0 (fun m hc => Instr.noConfusion hc) ih
        | opJump k =>
          rw [hins] at hok0; exact exec_dispatch hco henv hstk hst hg hD0 hfrag hdepth hok0 (fun m hc => Instr.noConfusion hc) ih
        | opBranch k =>
          rw [hins] at hok0; exact exec_dispatch hco henv hstk hst hg hD0 hfrag hdepth hok0 (fun m hc => Instr.noConfusion hc) ih
        | opLoad idx =>
          rw [hins] at hok0; exact exec_dispatch hco henv hstk hst hg hD0 hfrag hdepth hok0 (fun m hc => Instr.noConfusion hc) ih
        | opStore idx =>
          rw [hins] at hok0; exact exec_dispatch hco henv hstk hst hg hD0 hfrag hdepth hok0 (fun m hc => Instr.noConfusion hc) ih
        | opDefine idx =>
          rw [hins] at hok0; exact exec_dispatch hco henv hstk hst hg hD0 hfrag hdepth hok0 (fun m hc => Instr.noConfusion hc) ih
        | opCreate idx =>
          rw [hins] at hok0; exact exec_dispatch hco henv hstk hst hg hD0 hfrag hdepth hok0 (fun m hc => Instr.noConfusion hc) ih
        | opYield =>
          rw [hins] at hok0; exact exec_dispatch hco henv hstk hst hg hD0 hfrag hdepth hok0 (fun m hc => Instr.noConfusion hc) ih
        | opPrint =>
          rw [hins] at hok0; exact exec_dispatch hco henv hstk hst hg hD0 hfrag hdepth hok0 (fun m hc => Instr.noConfusion hc) ih
        | opPop =>
          rw [hins] at hok0; exact exec_dispatch hco henv hstk hst hg hD0 hfrag hdepth hok0 (fun m hc => Instr.noConfusion hc) ih
        | opRet =>
          rw [hins] at hok0; exact exec_dispatch hco henv hstk hst hg hD0 hfrag hdepth hok0 (fun m hc => Instr.noConfusion hc) ih
      · rw [dif_neg h]
        exact ⟨hg, fun hc => Res.noConfusion hc, rfl, rfl, henv, hstk⟩
    | res self g args =>
      obtain ⟨hidle, hg, hargs⟩ := pre
      simp only [runF]
      cases hcs : check_status self with
      | error e => exact ⟨hg, fun hc => Res.noConfusion hc, hidle, trivial⟩
      | ok u =>
        dsimp only
        have hsusp : self.status = .suspended := check_status_ok hcs
        obtain ⟨hco, henv, hstk, hdisj⟩ := hidle hsusp
        cases hhi : handle_inputs self args with
        | error e => exact ⟨hg, fun hc => Res.noConfusion hc, hidle, trivial⟩
        | ok s1 =>
          dsimp only
          have hs1 : CoroRun { s1 with status := CoStatus.running } ∧ s1.fn = self.fn := by
            unfold handle_inputs at hhi
            by_cases hip : self.ip = 0
            · rw [if_pos hip] at hhi
              cases hca : check_arity self.fn.arity args.length with
              | error e2 => rw [hca] at hhi; cases hhi
              | ok u2 =>
                rw [hca] at hhi
                simp only [Except.ok.injEq] at hhi
                subst hhi
                have hstk0 : self.stack = [] := by
                  rcases hdisj with ⟨_, h2⟩ | ⟨hne, _⟩
                  · exact h2
                  · exact absurd hip hne
                obtain ⟨D0, hD00, hfr0⟩ : CodeWT self.fn.code := by
                  cases hco with | mk c hwt hret hjump hcs2 => exact hwt
                refine ⟨⟨hco, EnvOK_paramFold henv hargs, hstk, rfl, D0, hD00, hfr0, ?_⟩, rfl⟩
                show self.stack.length = D0 self.ip
                rw [hstk0, hip]
                simpa using hD00.symm
            · rw [if_neg hip] at hhi
              obtain ⟨hne, D1, hD10, hfr1, hdep1⟩ : self.ip ≠ 0 ∧ ∃ D1 : Nat → Nat,
                  D1 0 = 0 ∧ fragWT self.fn.code.instrs D1 ∧
                  self.stack.length + 1 = D1 self.ip := by
                rcases hdisj with ⟨h1, _⟩ | h2
                · exact absurd h1 hip
                · exact h2
              by_cases hae : args.isEmpty
              · rw [if_pos hae] at hhi
                simp only [Except.ok.injEq] at hhi
                subst hhi
                refine ⟨⟨hco, henv, StackOK_cons ValOK.unit hstk, rfl, D1, hD10, hfr1, ?_⟩, rfl⟩
                show (Value.unit :: self.stack).length = D1 self.ip
                simp only [List.length_cons]
                omega
              · rw [if_neg hae] at hhi
                cases hca : check_arity 1 args.length with
                | error e2 => rw [hca] at hhi; cases hhi
                | ok u2 =>
                  rw [hca] at hhi
                  simp only [Except.ok.injEq] at hhi
                  subst hhi
                  have hvh : ValOK (args.headD .unit) := by
                    cases args with
                    | nil => exact ValOK.unit
                    | cons a as => exact hargs a (List.mem_cons_self a as)
                  refine ⟨⟨hco, henv, StackOK_cons hvh hstk, rfl, D1, hD10, hfr1, ?_⟩, rfl⟩
                  show (args.headD Value.unit :: self.stack).length = D1 self.ip
                  simp only [List.length_cons]
                  omega
          obtain ⟨hrun1, hfn1⟩ := hs1
          have post := ih (.exec { s1 with status := CoStatus.running } g) ⟨hrun1, hg⟩
          rcases hout : run n (.exec { s1 with status := CoStatus.running } g)
            with ⟨s3, g3, r3⟩
          rw [hout] at post
          obtain ⟨pg, pu, pe⟩ := post
          dsimp only
          cases r3 with
          | yielded v =>
            dsimp only
            obtain ⟨pv, pfn, pst, penv, pstk, pip, D2, hD20, hfr2, pdep⟩ := pe
            simp only [finishResume]
            by_cases hfin : s3.fn.code.len ≤ s3.ip
            · rw [if_pos hfin]
              exact ⟨pg, fun hc => Res.noConfusion hc, CoroIdle_of_done rfl, pv⟩
            · rw [if_neg hfin]
              refine ⟨pg, fun hc => Res.noConfusion hc, ?_, pv⟩
              intro _
              refine ⟨?_, penv, pstk, Or.inr ⟨pip, D2, hD20, hfr2, pdep⟩⟩
              rw [pfn.trans hfn1]
              exact hco
          | ret v =>
            dsimp only
            obtain ⟨pv, pfn, pst, penv, pstk⟩ := pe
            simp only [finishResume]
            by_cases hfin : s3.fn.code.len ≤ s3.ip
            · rw [if_pos hfin]
              exact ⟨pg, fun hc => Res.noConfusion hc, CoroIdle_of_done rfl, pv⟩
            · rw [if_neg hfin]
              exact ⟨pg, fun hc => Res.noConfusion hc, CoroIdle_of_done pst, pv⟩
          | fell =>
            dsimp only
            obtain ⟨pfn, pst, penv, pstk⟩ := pe
            simp only [finishResume]
            by_cases hfin : s3.fn.code.len ≤ s3.ip
            · rw [if_pos hfin]
              exact ⟨pg, fun hc => Res.noConfusion hc, CoroIdle_of_done rfl, ValOK.unit⟩
            · rw [if_neg hfin]
              exact ⟨pg, fun hc => Res.noConfusion hc, CoroIdle_of_running pst, ValOK.unit⟩
          | okv v => exact False.elim pe
          | err msg => exact ⟨pg, fun hc => Res.noConfusion hc, pe, trivial⟩
          | underflow => exact absurd rfl pu
          | panic msg => exact ⟨pg, fun hc => Res.noConfusion hc, pe, trivial⟩
          | oom => exact ⟨pg, fun hc => Res.noConfusion hc, pe, trivial⟩

end Coro

namespace Coro

/-! ### Syntactic shape of the machine's outcomes -/

/-- The dispatch loop never leaves with `fell` from inside an iteration: only
running off the end produces it. -/
theorem execInstr_no_fell {s : CoroSt} {g : Glob} {ins : Instr} {s2 : CoroSt}
    {g2 : Glob} (h : execInstr s g ins = .halt s2 g2 .fell) : False := by
  cases ins <;> simp only [execInstr] at h <;>
    repeat first
    | split at h
    | cases h
    | simp at h

/-- Only `Yield` halts the loop with a `yielded` outcome. -/
theorem execInstr_halt_yield {s : CoroSt} {g : Glob} {ins : Instr} {s2 : CoroSt}
    {g2 : Glob} {v : Value} (h : execInstr s g ins = .halt s2 g2 (.yielded v)) :
    ins = .opYield := by
  cases ins <;> first
    | rfl
    | (simp only [execInstr] at h
       repeat first
       | split at h
       | cases h
       | simp at h)

/-- Only `Ret` halts the loop with a `ret` outcome, and it marks the
coroutine done. -/
theorem execInstr_halt_ret {s : CoroSt} {g : Glob} {ins : Instr} {s2 : CoroSt}
    {g2 : Glob} {v : Value} (h : execInstr s g ins = .halt s2 g2 (.ret v)) :
    ins = .opRet ∧ s2.status = .done := by
  cases ins <;> first
    | (refine ⟨rfl, ?_⟩
       simp only [execInstr] at h
       split at h <;> (cases h; rfl))
    | (simp only [execInstr] at h
       repeat first
       | split at h
       | cases h
       | simp at h)

end Coro

namespace Coro

/-- A `resume` call never produces a raw `yielded`, `ret` or `fell` outcome:
those three are folded into `okv` by `finishResume`. -/
theorem run_res_shape (fuel : Nat) (self : CoroSt) (g : Glob) (args : List Value)
    {s' : CoroSt} {g' : Glob} {r : Res}
    (h : run fuel (.res self g args) = (s', g', r)) :
    (∀ v, r ≠ .yielded v) ∧ (∀ v, r ≠ .ret v) ∧ r ≠ .fell := by
  cases fuel with
  | zero =>
    rw [run_zero] at h
    simp only [runZero] at h
    cases hcs : check_status self with
    | error e =>
      rw [hcs] at h
      dsimp only at h
      simp only [Prod.mk.injEq] at h
      obtain ⟨-, -, e3⟩ := h
      subst e3
      exact ⟨fun v hc => Res.noConfusion hc, fun v hc => Res.noConfusion hc,
        fun hc => Res.noConfusion hc⟩
    | ok u =>
      rw [hcs] at h
      dsimp only at h
      cases hhi : handle_inputs self args with
      | error e =>
        rw [hhi] at h
        dsimp only at h
        simp only [Prod.mk.injEq] at h
        obtain ⟨-, -, e3⟩ := h
        subst e3
        exact ⟨fun v hc => Res.noConfusion hc, fun v hc => Res.noConfusion hc,
          fun hc => Res.noConfusion hc⟩
      | ok s1 =>
        rw [hhi] at h
        dsimp only at h
        simp only [Prod.mk.injEq] at h
        obtain ⟨-, -, e3⟩ := h
        subst e3
        exact ⟨fun v hc => Res.noConfusion hc, fun v hc => Res.noConfusion hc,
          fun hc => Res.noConfusion hc⟩
  | succ n =>
    rw [run_succ] at h
    simp only [runF] at h
    cases hcs : check_status self with
    | error e =>
      rw [hcs] at h
      dsimp only at h
      simp only [Prod.mk.injEq] at h
      obtain ⟨-, -, e3⟩ := h
      subst e3
      exact ⟨fun v hc => Res.noConfusion hc, fun v hc => Res.noConfusion hc,
        fun hc => Res.noConfusion hc⟩
    | ok u =>
      rw [hcs] at h
      dsimp only at h
      cases hhi : handle_inputs self args with
      | error e =>
        rw [hhi] at h
        dsimp only at h
        simp only [Prod.mk.injEq] at h
        obtain ⟨-, -, e3⟩ := h
        subst e3
        exact ⟨fun v hc => Res.noConfusion hc, fun v hc => Res.noConfusion hc,
          fun hc => Res.noConfusion hc⟩
      | ok s1 =>
        rw [hhi] at h
        dsimp only at h
        rcases hout : run n (.exec { s1 with status := CoStatus.running } g)
          with ⟨t1, t2, t3⟩
        rw [hout] at h
        dsimp only at h
        cases t3 <;>
          first
          | (simp only [finishResume] at h
             split at h <;>
               (simp only [Prod.mk.injEq] at h
                obtain ⟨-, -, e3⟩ := h
                subst e3
                exact ⟨fun v hc => Res.noConfusion hc, fun v hc => Res.noConfusion hc,
                  fun hc => Res.noConfusion hc⟩))
          | (simp only [Prod.mk.injEq] at h
             obtain ⟨-, -, e3⟩ := h
             subst e3
             exact ⟨fun v hc => Res.noConfusion hc, fun v hc => Res.noConfusion hc,
               fun hc => Res.noConfusion hc⟩)

end Coro

namespace Coro

/-- What a dispatch loop's three halting outcomes say about the final state,
with no precondition: a `yielded` outcome leaves the ip right after a `Yield`
instruction and the coroutine suspended; a `ret` outcome leaves it done; a
`fell` outcome means the ip already ran past the end of the code. -/
theorem exec_halt_shape (fuel : Nat) : ∀ self g s3 g3 r,
    run fuel (.exec self g) = (s3, g3, r) →
    (∀ v, r = .yielded v → s3.status = CoStatus.suspended ∧ 1 ≤ s3.ip ∧
        ∃ hl : s3.ip - 1 < s3.fn.code.instrs.length,
          s3.fn.code.instrs.get ⟨s3.ip - 1, hl⟩ = .opYield) ∧
    (∀ v, r = .ret v → s3.status = CoStatus.done) ∧
    (r = .fell → s3.fn.code.len ≤ s3.ip) := by
  induction fuel with
  | zero =>
    intro self g s3 g3 r h
    rw [run_zero] at h
    simp only [runZero] at h
    by_cases hlt : self.ip < self.fn.code.len
    · rw [if_pos hlt] at h
      simp only [Prod.mk.injEq] at h
      obtain ⟨e1, e2, e3⟩ := h
      subst e3
      exact ⟨fun v hv => Res.noConfusion hv, fun v hv => Res.noConfusion hv,
        fun hv => Res.noConfusion hv⟩
    · rw [if_neg hlt] at h
      simp only [Prod.mk.injEq] at h
      obtain ⟨e1, e2, e3⟩ := h
      subst e1
      subst e3
      refine ⟨fun v hv => Res.noConfusion hv, fun v hv => Res.noConfusion hv, fun hv => ?_⟩
      omega
  | succ n ih =>
    intro self g s3 g3 r h
    rw [run_succ] at h
    simp only [runF] at h
    by_cases hlt : self.ip < self.fn.code.len
    · rw [dif_pos hlt] at h
      cases hins : self.fn.code.instrs.get ⟨self.ip, hlt⟩ with
      | opResume num =>
        rw [hins] at h
        dsimp only at h
        by_cases hnum : num ≤ self.stack.length
        · rw [if_pos hnum] at h
          cases hdropE : self.stack.drop num with
          | nil =>
            rw [hdropE] at h
            dsimp only at h
            simp only [Prod.mk.injEq] at h
            obtain ⟨e1, e2, e3⟩ := h
            subst e3
            exact ⟨fun v hv => Res.noConfusion hv, fun v hv => Res.noConfusion hv,
              fun hv => Res.noConfusion hv⟩
          | cons hd rest2 =>
            rw [hdropE] at h
            cases hd with
            | co id =>
              dsimp only at h
              cases hcell : g.heap.get? id with
              | none =>
                rw [hcell] at h
                dsimp only at h
                simp only [Prod.mk.injEq] at h
                obtain ⟨e1, e2, e3⟩ := h
                subst e3
                exact ⟨fun v hv => Res.noConfusion hv, fun v hv => Res.noConfusion hv,
                  fun hv => Res.noConfusion hv⟩
              | some cell =>
                rw [hcell] at h
                dsimp only at h
                by_cases hb : cell.borrowed = true
                · rw [if_pos hb] at h
                  simp only [Prod.mk.injEq] at h
                  obtain ⟨e1, e2, e3⟩ := h
                  subst e3
                  exact ⟨fun v hv => Res.noConfusion hv, fun v hv => Res.noConfusion hv,
                    fun hv => Res.noConfusion hv⟩
                · rw [if_neg hb] at h
                  rcases hout2 : run n (.res cell.co
                      { g with heap := g.heap.set id ⟨cell.co, true⟩ }
                      ((self.stack.take num).reverse)) with ⟨sr, gr, rr⟩
                  rw [hout2] at h
                  dsimp only at h
                  have hshape := run_res_shape n _ _ _ hout2
                  cases rr with
                  | okv w =>
                    dsimp only at h
                    exact ih _ _ _ _ _ h
                  | yielded w => exact absurd rfl (hshape.1 w)
                  | ret w => exact absurd rfl (hshape.2.1 w)
                  | fell => exact absurd rfl hshape.2.2
                  | err m =>
                    simp only [Prod.mk.injEq] at h
                    obtain ⟨e1, e2, e3⟩ := h
                    subst e3
                    exact ⟨fun v hv => Res.noConfusion hv, fun v hv => Res.noConfusion hv,
                      fun hv => Res.noConfusion hv⟩
                  | underflow =>
                    simp only [Prod.mk.injEq] at h
                    obtain ⟨e1, e2, e3⟩ := h
                    subst e3
                    exact ⟨fun v hv => Res.noConfusion hv, fun v hv => Res.noConfusion hv,
                      fun hv => Res.noConfusion hv⟩
                  | panic m =>
                    simp only [Prod.mk.injEq] at h
                    obtain ⟨e1, e2, e3⟩ := h
                    subst e3
                    exact ⟨fun v hv => Res.noConfusion hv, fun v hv => Res.noConfusion hv,
                      fun hv => Res.noConfusion hv⟩
                  | oom =>
                    simp only [Prod.mk.injEq] at h
                    obtain ⟨e1, e2, e3⟩ := h
                    subst e3
                    exact ⟨fun v hv => Res.noConfusion hv, fun v hv => Res.noConfusion hv,
                      fun hv => Res.noConfusion hv⟩
            | unit =>
              dsimp only at h
              simp only [Prod.mk.injEq] at h
              obtain ⟨e1, e2, e3⟩ := h
              subst e3
              exact ⟨fun v hv => Res.noConfusion hv, fun v hv => Res.noConfusion hv,
                fun hv => Res.noConfusion hv⟩
            | bool b =>
              dsimp only at h
              simp only [Prod.mk.injEq] at h
              obtain ⟨e1, e2, e3⟩ := h
              subst e3
              exact ⟨fun v hv => Res.noConfusion hv, fun v hv => Res.noConfusion hv,
                fun hv => Res.noConfusion hv⟩
            | num q =>
              dsimp only at h
              simp only [Prod.mk.injEq] at h
              obtain ⟨e1, e2, e3⟩ := h
              subst e3
              exact ⟨fun v hv => Res.noConfusion hv, fun v hv => Res.noConfusion hv,
                fun hv => Res.noConfusion hv⟩
            | str sx =>
              dsimp only at h
              simp only [Prod.mk.injEq] at h
              obtain ⟨e1, e2, e3⟩ := h
              subst e3
              exact ⟨fun v hv => Res.noConfusion hv, fun v hv => Res.noConfusion hv,
                fun hv => Res.noConfusion hv⟩
            | fn fr =>
              dsimp only at h
              simp only [Prod.mk.injEq] at h
              obtain ⟨e1, e2, e3⟩ := h
              subst e3
              exact ⟨fun v hv => Res.noConfusion hv, fun v hv => Res.noConfusion hv,
                fun hv => Res.noConfusion hv⟩
        · rw [if_neg hnum] at h
          simp only [Prod.mk.injEq] at h
          obtain ⟨e1, e2, e3⟩ := h
          subst e3
          exact ⟨fun v hv => Res.noConfusion hv, fun v hv => Res.noConfusion hv,
            fun hv => Res.noConfusion hv⟩
      | opYield =>
        rw [hins] at h
        simp only [execInstr] at h
        cases hs : self.stack with
        | nil =>
          rw [hs] at h
          dsimp only at h
          simp only [Prod.mk.injEq] at h
          obtain ⟨e1, e2, e3⟩ := h
          subst e3
          exact ⟨fun v hv => Res.noConfusion hv, fun v hv => Res.noConfusion hv,
            fun hv => Res.noConfusion hv⟩
        | cons w t =>
          rw [hs] at h
          dsimp only at h
          simp only [Prod.mk.injEq] at h
          obtain ⟨e1, e2, e3⟩ := h
          subst e1
          subst e3
          refine ⟨fun v hv => ?_, fun v hv => Res.noConfusion hv,
            fun hv => Res.noConfusion hv⟩
          exact ⟨rfl, Nat.succ_le_succ (Nat.zero_le _), hlt, hins⟩
      | opUnit =>
        rw [hins] at h
        dsimp only at h
        cases hexec : execInstr { self with ip := self.ip + 1 } g (.opUnit ) with
        | next s2 g2 =>
          rw [hexec] at h
          dsimp only at h
          exact ih _ _ _ _ _ h
        | halt s2 g2 r2 =>
          rw [hexec] at h
          dsimp only at h
          simp only [Prod.mk.injEq] at h
          obtain ⟨e1, e2, e3⟩ := h
          subst e1
          subst e3
          refine ⟨fun v hv => ?_, fun v hv => ?_, fun hv => ?_⟩
          · subst hv
            exact Instr.noConfusion (execInstr_halt_yield hexec)
          · subst hv
            exact (execInstr_halt_ret hexec).2
          · subst hv
            exact (execInstr_no_fell hexec).elim
      | opTrue =>
        rw [hins] at h
        dsimp only at h
        cases hexec : execInstr { self with ip := self.ip + 1 } g (.opTrue ) with
        | next s2 g2 =>
          rw [hexec] at h
          dsimp only at h
          exact ih _ _ _ _ _ h
        | halt s2 g2 r2 =>
          rw [hexec] at h
          dsimp only at h
          simp only [Prod.mk.injEq] at h
          obtain ⟨e1, e2, e3⟩ := h
          subst e1
          subst e3
          refine ⟨fun v hv => ?_, fun v hv => ?_, fun hv => ?_⟩
          · subst hv
            exact Instr.noConfusion (execInstr_halt_yield hexec)
          · subst hv
            exact (execInstr_halt_ret hexec).2
          · subst hv
            exact (execInstr_no_fell hexec).elim
      | opFalse =>
        rw [hins] at h
        dsimp only at h
        cases hexec : execInstr { self with ip := self.ip + 1 } g (.opFalse ) with
        | next s2 g2 =>
          rw [hexec] at h
          dsimp only at h
          exact ih _ _ _ _ _ h
        | halt s2 g2 r2 =>
          rw [hexec] at h
          dsimp only at h
          simp only [Prod.mk.injEq] at h
          obtain ⟨e1, e2, e3⟩ := h
          subst e1
          subst e3
          refine ⟨fun v hv => ?_, fun v hv => ?_, fun hv => ?_⟩
          · subst hv
            exact Instr.noConfusion (execInstr_halt_yield hexec)
          · subst hv
            exact (execInstr_halt_ret hexec).2
          · subst hv
            exact (execInstr_no_fell hexec).elim
      | opConst idx =>
        rw [hins] at h
        dsimp only at h
        cases hexec : execInstr { self with ip := self.ip + 1 } g (.opConst idx) with
        | next s2 g2 =>
          rw [hexec] at h
          dsimp only at h
          exact ih _ _ _ _ _ h
        | halt s2 g2 r2 =>
          rw [hexec] at h
          dsimp only at h
          simp only [Prod.mk.injEq] at h
          obtain ⟨e1, e2, e3⟩ := h
          subst e1
          subst e3
          refine ⟨fun v hv => ?_, fun v hv => ?_, fun hv => ?_⟩
          · subst hv
            exact Instr.noConfusion (execInstr_halt_yield hexec)
          · subst hv
            exact (execInstr_halt_ret hexec).2
          · subst hv
            exact (execInstr_no_fell hexec).elim
      | opAdd =>
        rw [hins] at h
        dsimp only at h
        cases hexec : execInstr { self with ip := self.ip + 1 } g (.opAdd ) with
        | next s2 g2 =>
          rw [hexec] at h
          dsimp only at h
          exact ih _ _ _ _ _ h
        | halt s2 g2 r2 =>
          rw [hexec] at h
          dsimp only at h
          simp only [Prod.mk.injEq] at h
          obtain ⟨e1, e2, e3⟩ := h
          subst e1
          subst e3
          refine ⟨fun v hv => ?_, fun v hv => ?_, fun hv => ?_⟩
          · subst hv
            exact Instr.noConfusion (execInstr_halt_yield hexec)
          · subst hv
            exact (execInstr_halt_ret hexec).2
          · subst hv
            exact (execInstr_no_fell hexec).elim
      | opSub =>
        rw [hins] at h
        dsimp only at h
        cases hexec : execInstr { self with ip := self.ip + 1 } g (.opSub ) with
        | next s2 g2 =>
          rw [hexec] at h
          dsimp only at h
          exact ih _ _ _ _ _ h
        | halt s2 g2 r2 =>
          rw [hexec] at h
          dsimp only at h
          simp only [Prod.mk.injEq] at h
          obtain ⟨e1, e2, e3⟩ := h
          subst e1
          subst e3
          refine ⟨fun v hv => ?_, fun v hv => ?_, fun hv => ?_⟩
          · subst hv
            exact Instr.noConfusion (execInstr_halt_yield hexec)
          · subst hv
            exact (execInstr_halt_ret hexec).2
          · subst hv
            exact (execInstr_no_fell hexec).elim
      | opMul =>
        rw [hins] at h
        dsimp only at h
        cases hexec : execInstr { self with ip := self.ip + 1 } g (.opMul ) with
        | next s2 g2 =>
          rw [hexec] at h
          dsimp only at h
          exact ih _ _ _ _ _ h
        | halt s2 g2 r2 =>
          rw [hexec] at h
          dsimp only at h
          simp only [Prod.mk.injEq] at h
          obtain ⟨e1, e2, e3⟩ := h
          subst e1
          subst e3
          refine ⟨fun v hv => ?_, fun v hv => ?_, fun hv => ?_⟩
          · subst hv
            exact Instr.noConfusion (execInstr_halt_yield hexec)
          · subst hv
            exact (execInstr_halt_ret hexec).2
          · subst hv
            exact (execInstr_no_fell hexec).elim
      | opDiv =>
        rw [hins] at h
        dsimp only at h
        cases hexec : execInstr { self with ip := self.ip + 1 } g (.opDiv ) with
        | next s2 g2 =>
          rw [hexec] at h
          dsimp only at h
          exact ih _ _ _ _ _ h
        | halt s2 g2 r2 =>
          rw [hexec] at h
          dsimp only at h
          simp only [Prod.mk.injEq] at h
          obtain ⟨e1, e2, e3⟩ := h
          subst e1
          subst e3
          refine ⟨fun v hv => ?_, fun v hv => ?_, fun hv => ?_⟩
          · subst hv
            exact Instr.noConfusion (execInstr_halt_yield hexec)
          · subst hv
            exact (execInstr_halt_ret hexec).2
          · subst hv
            exact (execInstr_no_fell hexec).elim
      | opNeg =>
        rw [hins] at h
        dsimp only at h
        cases hexec : execInstr { self with ip := self.ip + 1 } g (.opNeg ) with
        | next s2 g2 =>
          rw [hexec] at h
          dsimp only at h
          exact ih _ _ _ _ _ h
        | halt s2 g2 r2 =>
          rw [hexec] at h
          dsimp only at h
          simp only [Prod.mk.injEq] at h
          obtain ⟨e1, e2, e3⟩ := h
          subst e1
          subst e3
          refine ⟨fun v hv => ?_, fun v hv => ?_, fun hv => ?_⟩
          · subst hv
            exact Instr.noConfusion (execInstr_halt_yield hexec)
          · subst hv
            exact (execInstr_halt_ret hexec).2
          · subst hv
            exact (execInstr_no_fell hexec).elim
      | opNot =>
        rw [hins] at h
        dsimp only at h
        cases hexec : execInstr { self with ip := self.ip + 1 } g (.opNot ) with
        | next s2 g2 =>
          rw [hexec] at h
          dsimp only at h
          exact ih _ _ _ _ _ h
        | halt s2 g2 r2 =>
          rw [hexec] at h
          dsimp only at h
          simp only [Prod.mk.injEq] at h
          obtain ⟨e1, e2, e3⟩ := h
          subst e1
          subst e3
          refine ⟨fun v hv => ?_, fun v hv => ?_, fun hv => ?_⟩
          · subst hv
            exact Instr.noConfusion (execInstr_halt_yield hexec)
          · subst hv
            exact (execInstr_halt_ret hexec).2
          · subst hv
            exact (execInstr_no_fell hexec).elim
      | opLt =>
        rw [hins] at h
        dsimp only at h
        cases hexec : execInstr { self with ip := self.ip + 1 } g (.opLt ) with
        | next s2 g2 =>
          rw [hexec] at h
          dsimp only at h
          exact ih _ _ _ _ _ h
        | halt s2 g2 r2 =>
          rw [hexec] at h
          dsimp only at h
          simp only [Prod.mk.injEq] at h
          obtain ⟨e1, e2, e3⟩ := h
          subst e1
          subst e3
          refine ⟨fun v hv => ?_, fun v hv => ?_, fun hv => ?_⟩
          · subst hv
            exact Instr.noConfusion (execInstr_halt_yield hexec)
          · subst hv
            exact (execInstr_halt_ret hexec).2
          · subst hv
            exact (execInstr_no_fell hexec).elim
      | opEq =>
        rw [hins] at h
        dsimp only at h
        cases hexec : execInstr { self with ip := self.ip + 1 } g (.opEq ) with
        | next s2 g2 =>
          rw [hexec] at h
          dsimp only at h
          exact ih _ _ _ _ _ h
        | halt s2 g2 r2 =>
          rw [hexec] at h
          dsimp only at h
          simp only [Prod.mk.injEq] at h
          obtain ⟨e1, e2, e3⟩ := h
          subst e1
          subst e3
          refine ⟨fun v hv => ?_, fun v hv => ?_, fun hv => ?_⟩
          · subst hv
            exact Instr.noConfusion (execInstr_halt_yield hexec)
          · subst hv
            exact (execInstr_halt_ret hexec).2
          · subst hv
            exact (execInstr_no_fell hexec).elim
      | opLoop k =>
        rw [hins] at h
        dsimp only at h
        cases hexec : execInstr { self with ip := self.ip + 1 } g (.opLoop k) with
        | next s2 g2 =>
          rw [hexec] at h
          dsimp only at h
          exact ih _ _ _ _ _ h
        | halt s2 g2 r2 =>
          rw [hexec] at h
          dsimp only at h
          simp only [Prod.mk.injEq] at h
          obtain ⟨e1, e2, e3⟩ := h
          subst e1
          subst e3
          refine ⟨fun v hv => ?_, fun v hv => ?_, fun hv => ?_⟩
          · subst hv
            exact Instr.noConfusion (execInstr_halt_yield hexec)
          · subst hv
            exact (execInstr_halt_ret hexec).2
          · subst hv
            exact (execInstr_no_fell hexec).elim
      | opJump k =>
        rw [hins] at h
        dsimp only at h
        cases hexec : execInstr { self with ip := self.ip + 1 } g (.opJump k) with
        | next s2 g2 =>
          rw [hexec] at h
          dsimp only at h
          exact ih _ _ _ _ _ h
        | halt s2 g2 r2 =>
          rw [hexec] at h
          dsimp only at h
          simp only [Prod.mk.injEq] at h
          obtain ⟨e1, e2, e3⟩ := h
          subst e1
          subst e3
          refine ⟨fun v hv => ?_, fun v hv => ?_, fun hv => ?_⟩
          · subst hv
            exact Instr.noConfusion (execInstr_halt_yield hexec)
          · subst hv
            exact (execInstr_halt_ret hexec).2
          · subst hv
            exact (execInstr_no_fell hexec).elim
      | opBranch k =>
        rw [hins] at h
        dsimp only at h
        cases hexec : execInstr { self with ip := self.ip + 1 } g (.opBranch k) with
        | next s2 g2 =>
          rw [hexec] at h
          dsimp only at h
          exact ih _ _ _ _ _ h
        | halt s2 g2 r2 =>
          rw [hexec] at h
          dsimp only at h
          simp only [Prod.mk.injEq] at h
          obtain ⟨e1, e2, e3⟩ := h
          subst e1
          subst e3
          refine ⟨fun v hv => ?_, fun v hv => ?_, fun hv => ?_⟩
          · subst hv
            exact Instr.noConfusion (execInstr_halt_yield hexec)
          · subst hv
            exact (execInstr_halt_ret hexec).2
          · subst hv
            exact (execInstr_no_fell hexec).elim
      | opLoad idx =>
        rw [hins] at h
        dsimp only at h
        cases hexec : execInstr { self with ip := self.ip + 1 } g (.opLoad idx) with
        | next s2 g2 =>
          rw [hexec] at h
          dsimp only at h
          exact ih _ _ _ _ _ h
        | halt s2 g2 r2 =>
          rw [hexec] at h
          dsimp only at h
          simp only [Prod.mk.injEq] at h
          obtain ⟨e1, e2, e3⟩ := h
          subst e1
          subst e3
          refine ⟨fun v hv => ?_, fun v hv => ?_, fun hv => ?_⟩
          · subst hv
            exact Instr.noConfusion (execInstr_halt_yield hexec)
          · subst hv
            exact (execInstr_halt_ret hexec).2
          · subst hv
            exact (execInstr_no_fell hexec).elim
      | opStore idx =>
        rw [hins] at h
        dsimp only at h
        cases hexec : execInstr { self with ip := self.ip + 1 } g (.opStore idx) with
        | next s2 g2 =>
          rw [hexec] at h
          dsimp only at h
          exact ih _ _ _ _ _ h
        | halt s2 g2 r2 =>
          rw [hexec] at h
          dsimp only at h
          simp only [Prod.mk.injEq] at h
          obtain ⟨e1, e2, e3⟩ := h
          subst e1
          subst e3
          refine ⟨fun v hv => ?_, fun v hv => ?_, fun hv => ?_⟩
          · subst hv
            exact Instr.noConfusion (execInstr_halt_yield hexec)
          · subst hv
            exact (execInstr_halt_ret hexec).2
          · subst hv
            exact (execInstr_no_fell hexec).elim
      | opDefine idx =>
        rw [hins] at h
        dsimp only at h
        cases hexec : execInstr { self with ip := self.ip + 1 } g (.opDefine idx) with
        | next s2 g2 =>
          rw [hexec] at h
          dsimp only at h
          exact ih _ _ _ _ _ h
        | halt s2 g2 r2 =>
          rw [hexec] at h
          dsimp only at h
          simp only [Prod.mk.injEq] at h
          obtain ⟨e1, e2, e3⟩ := h
          subst e1
          subst e3
          refine ⟨fun v hv => ?_, fun v hv => ?_, fun hv => ?_⟩
          · subst hv
            exact Instr.noConfusion (execInstr_halt_yield hexec)
          · subst hv
            exact (execInstr_halt_ret hexec).2
          · subst hv
            exact (execInstr_no_fell hexec).elim
      | opCreate idx =>
        rw [hins] at h
        dsimp only at h
        cases hexec : execInstr { self with ip := self.ip + 1 } g (.opCreate idx) with
        | next s2 g2 =>
          rw [hexec] at h
          dsimp only at h
          exact ih _ _ _ _ _ h
        | halt s2 g2 r2 =>
          rw [hexec] at h
          dsimp only at h
          simp only [Prod.mk.injEq] at h
          obtain ⟨e1, e2, e3⟩ := h
          subst e1
          subst e3
          refine ⟨fun v hv => ?_, fun v hv => ?_, fun hv => ?_⟩
          · subst hv
            exact Instr.noConfusion (execInstr_halt_yield hexec)
          · subst hv
            exact (execInstr_halt_ret hexec).2
          · subst hv
            exact (execInstr_no_fell hexec).elim
      | opPrint =>
        rw [hins] at h
        dsimp only at h
        cases hexec : execInstr { self with ip := self.ip + 1 } g (.opPrint ) with
        | next s2 g2 =>
          rw [hexec] at h
          dsimp only at h
          exact ih _ _ _ _ _ h
        | halt s2 g2 r2 =>
          rw [hexec] at h
          dsimp only at h
          simp only [Prod.mk.injEq] at h
          obtain ⟨e1, e2, e3⟩ := h
          subst e1
          subst e3
          refine ⟨fun v hv => ?_, fun v hv => ?_, fun hv => ?_⟩
          · subst hv
            exact Instr.noConfusion (execInstr_halt_yield hexec)
          · subst hv
            exact (execInstr_halt_ret hexec).2
          · subst hv
            exact (execInstr_no_fell hexec).elim
      | opPop =>
        rw [hins] at h
        dsimp only at h
        cases hexec : execInstr { self with ip := self.ip + 1 } g (.opPop ) with
        | next s2 g2 =>
          rw [hexec] at h
          dsimp only at h
          exact ih _ _ _ _ _ h
        | halt s2 g2 r2 =>
          rw [hexec] at h
          dsimp only at h
          simp only [Prod.mk.injEq] at h
          obtain ⟨e1, e2, e3⟩ := h
          subst e1
          subst e3
          refine ⟨fun v hv => ?_, fun v hv => ?_, fun hv => ?_⟩
          · subst hv
            exact Instr.noConfusion (execInstr_halt_yield hexec)
          · subst hv
            exact (execInstr_halt_ret hexec).2
          · subst hv
            exact (execInstr_no_fell hexec).elim
      | opRet =>
        rw [hins] at h
        dsimp only at h
        cases hexec : execInstr { self with ip := self.ip + 1 } g (.opRet ) with
        | next s2 g2 =>
          rw [hexec] at h
          dsimp only at h
          exact ih _ _ _ _ _ h
        | halt s2 g2 r2 =>
          rw [hexec] at h
          dsimp only at h
          simp only [Prod.mk.injEq] at h
          obtain ⟨e1, e2, e3⟩ := h
          subst e1
          subst e3
          refine ⟨fun v hv => ?_, fun v hv => ?_, fun hv => ?_⟩
          · subst hv
            exact Instr.noConfusion (execInstr_halt_yield hexec)
          · subst hv
            exact (execInstr_halt_ret hexec).2
          · subst hv
            exact (execInstr_no_fell hexec).elim
    · rw [dif_neg hlt] at h
      simp only [Prod.mk.injEq] at h
      obtain ⟨e1, e2, e3⟩ := h
      subst e1
      subst e3
      refine ⟨fun v hv => Res.noConfusion hv, fun v hv => Res.noConfusion hv, fun hv => ?_⟩
      omega

end Coro

namespace Coro

/-- What `handle_inputs` establishes for the dispatch loop: the re-entered
coroutine satisfies the running invariant, with its function unchanged. -/
theorem handle_inputs_run {self s1 : CoroSt} {args : List Value}
    (hidle : CoroIdle self) (hsusp : self.status = .suspended) (hargs : ArgsOK args)
    (hhi : handle_inputs self args = .ok s1) :
    CoroRun { s1 with status := CoStatus.running } ∧ s1.fn = self.fn := by
  obtain ⟨hco, henv, hstk, hdisj⟩ := hidle hsusp
  unfold handle_inputs at hhi
  by_cases hip : self.ip = 0
  · rw [if_pos hip] at hhi
    cases hca : check_arity self.fn.arity args.length with
    | error e2 => rw [hca] at hhi; cases hhi
    | ok u2 =>
      rw [hca] at hhi
      simp only [Except.ok.injEq] at hhi
      subst hhi
      have hstk0 : self.stack = [] := by
        rcases hdisj with ⟨-, h2⟩ | ⟨hne, -⟩
        · exact h2
        · exact absurd hip hne
      obtain ⟨D0, hD00, hfr0⟩ : CodeWT self.fn.code := by
        cases hco with | mk c hwt hret hjump hcs2 => exact hwt
      refine ⟨⟨hco, EnvOK_paramFold henv hargs, hstk, rfl, D0, hD00, hfr0, ?_⟩, rfl⟩
      show self.stack.length = D0 self.ip
      rw [hstk0, hip]
      simpa using hD00.symm
  · rw [if_neg hip] at hhi
    obtain ⟨hne, D1, hD10, hfr1, hdep1⟩ : self.ip ≠ 0 ∧ ∃ D1 : Nat → Nat,
        D1 0 = 0 ∧ fragWT self.fn.code.instrs D1 ∧
        self.stack.length + 1 = D1 self.ip := by
      rcases hdisj with ⟨h1, -⟩ | h2
      · exact absurd h1 hip
      · exact h2
    by_cases hae : args.isEmpty
    · rw [if_pos hae] at hhi
      simp only [Except.ok.injEq] at hhi
      subst hhi
      refine ⟨⟨hco, henv, StackOK_cons ValOK.unit hstk, rfl, D1, hD10, hfr1, ?_⟩, rfl⟩
      show (Value.unit :: self.stack).length = D1 self.ip
      simp only [List.length_cons]
      omega
    · rw [if_neg hae] at hhi
      cases hca : check_arity 1 args.length with
      | error e2 => rw [hca] at hhi; cases hhi
      | ok u2 =>
        rw [hca] at hhi
        simp only [Except.ok.injEq] at hhi
        subst hhi
        have hvh : ValOK (args.headD .unit) := by
          cases args with
          | nil => exact ValOK.unit
          | cons a as => exact hargs a (List.mem_cons_self a as)
        refine ⟨⟨hco, henv, StackOK_cons hvh hstk, rfl, D1, hD10, hfr1, ?_⟩, rfl⟩
        show (args.headD Value.unit :: self.stack).length = D1 self.ip
        simp only [List.length_cons]
        omega

/-- In well-formed code a `Yield` is never the last instruction (the last one
is always `Ret`), so the ip left after a `Yield` is still inside the code. -/
theorem yield_not_last {c : Code} (hco : CodeOK c) {i : Nat}
    (hi : i < c.instrs.length) (hy : c.instrs.get ⟨i, hi⟩ = .opYield) :
    i + 1 < c.instrs.length := by
  cases hco with | mk c hwt hret hjump hcs =>
  rcases hret with hnil | hlast
  · rw [hnil] at hi
    simp at hi
  · by_contra hge
    have hieq : i = c.instrs.length - 1 := by omega
    subst hieq
    have h1 : c.instrs.getLast? = c.instrs[c.instrs.length - 1]? :=
      List.getLast?_eq_getElem? _
    have h2 : c.instrs[c.instrs.length - 1]? = some .opYield := by
      rw [← hy]
      simp [List.getElem?_eq_getElem, List.get_eq_getElem, hi]
    rw [h1, h2] at hlast
    simp at hlast

/-- `check_status` of a non-suspended coroutine is the error of C6. -/
theorem check_status_err {self : CoroSt} (hst : self.status ≠ .suspended) :
    check_status self = .error "tried to resume a non-suspended coroutine" := by
  unfold check_status
  rw [if_pos hst]

end Coro

namespace Coro

/-! ### Lookup behaviour of the environment insertion (for the parameter
binding of `handle_inputs`) -/

theorem envGet_insert_self (e : Env) (k : String) (v : Value) :
    envGet (envInsert e k v) k = some v := by
  simp [envGet, envInsert]

theorem find?_filter_ne (e : Env) {k k2 : String} (hne : k2 ≠ k) :
    (e.filter (fun p => p.1 != k)).find? (fun p => p.1 == k2)
      = e.find? (fun p => p.1 == k2) := by
  induction e with
  | nil => rfl
  | cons p rest ih =>
    by_cases hp : p.1 = k
    · have hfilter : (p :: rest).filter (fun p => p.1 != k)
          = rest.filter (fun p => p.1 != k) := by
        simp [List.filter_cons, hp]
      have hpred : (p.1 == k2) = false := by
        simp [hp]
        exact fun hc => hne hc.symm
      rw [hfilter, ih]
      rw [List.find?_cons_of_neg _ (by simp [hpred])]
    · have hfilter : (p :: rest).filter (fun p => p.1 != k)
          = p :: rest.filter (fun p => p.1 != k) := by
        simp [List.filter_cons, hp]
      rw [hfilter]
      by_cases hp2 : p.1 = k2
      · rw [List.find?_cons_of_pos _ (by simp [hp2]),
          List.find?_cons_of_pos _ (by simp [hp2])]
      · rw [List.find?_cons_of_neg _ (by simp [hp2]),
          List.find?_cons_of_neg _ (by simp [hp2]), ih]

theorem envGet_insert_ne (e : Env) {k k2 : String} (v : Value) (hne : k2 ≠ k) :
    envGet (envInsert e k v) k2 = envGet e k2 := by
  unfold envGet envInsert
  rw [List.find?_cons_of_neg _ (by simp; exact fun hc => hne hc.symm)]
  rw [find?_filter_ne e hne]

theorem envGet_paramFold_unbound (ps : List String) (args : List Value)
    (e : Env) (k : String) (hk : k ∉ ps) :
    envGet ((ps.zip args).foldl (fun e pa => envInsert e pa.1 pa.2) e) k
      = envGet e k := by
  induction ps generalizing args e with
  | nil => simp [List.zip]
  | cons p ps ih =>
    cases args with
    | nil => simp [List.zip]
    | cons a as =>
      simp only [List.zip_cons_cons, List.foldl_cons]
      rw [ih as (envInsert e p a) (fun hc => hk (List.mem_cons_of_mem p hc))]
      exact envGet_insert_ne e a (fun hc => hk (hc ▸ List.mem_cons_self p ps))

/-- Binding the parameters to the arguments in order: with distinct parameter
names, looking up the i-th parameter finds the i-th argument. -/
theorem envGet_paramFold_get (ps : List String) (args : List Value) (e : Env)
    (hnd : ps.Nodup) :
    ∀ i (hi : i < ps.length) (hia : i < args.length),
      envGet ((ps.zip args).foldl (fun e pa => envInsert e pa.1 pa.2) e)
          (ps.get ⟨i, hi⟩)
        = some (args.get ⟨i, hia⟩) := by
  induction ps generalizing args e with
  | nil =>
    intro i hi hia
    simp at hi
  | cons p ps ih =>
    cases args with
    | nil =>
      intro i hi hia
      simp at hia
    | cons a as =>
      intro i hi hia
      cases i with
      | zero =>
        simp only [List.zip_cons_cons, List.foldl_cons]
        have hp : p ∉ ps := (List.nodup_cons.1 hnd).1
        show envGet ((ps.zip as).foldl (fun e pa => envInsert e pa.1 pa.2)
          (envInsert e p a)) p = some a
        rw [envGet_paramFold_unbound ps as (envInsert e p a) p hp]
        exact envGet_insert_self e p a
      | succ j =>
        simp only [List.zip_cons_cons, List.foldl_cons]
        have hj : j < ps.length := by simpa using hi
        have hja : j < as.length := by simpa using hia
        have := ih as (envInsert e p a) (List.nodup_cons.1 hnd).2 j hj hja
        simpa using this

end Coro

namespace Coro

/-! ### Concrete programs used as test vectors -/

/-- The program `print (if true then "a" else "b" end)`. -/
def astC1 : Ast := Ast.mk [.cmd (.print (.group (.ifC (.boolE true) (.strE "a") (.strE "b"))))]

/-- What the compiler produces for `astC1`. -/
def codeC1 : Code := Code.mk
  [.opTrue, .opBranch 3, .opPop, .opConst 0, .opJump 2, .opPop, .opConst 1, .opPrint, .opRet]
  [.str "a", .str "b"] [1, 1, 1, 1, 1, 1, 1, 1, 1]

def fC1 : FnDef := FnDef.mk "" [] codeC1

/-- The program `while false do 1 end`. -/
def astW : Ast := Ast.mk [.cmd (.whileC (.boolE false) (.numE 1))]

/-- What the compiler produces for `astW`. -/
def codeW : Code := Code.mk
  [.opFalse, .opBranch 4, .opPop, .opConst 0, .opPop, .opLoop 6, .opPop, .opUnit, .opRet]
  [.num 1] [1, 1, 1, 1, 1, 1, 1, 1, 1]

/-- The program `yield unit`. -/
def astY : Ast := Ast.mk [.cmd (.yieldC .unitE)]

def codeY : Code := Code.mk [.opUnit, .opYield, .opRet] [] [1, 1, 1]

def fY : FnDef := FnDef.mk "" [] codeY

def selfY : CoroSt := CoroSt.new fY

/-- `selfY` right after its dispatch loop broke out at the `Yield`. -/
def s3Y : CoroSt := ⟨2, fY, .suspended, [], []⟩

/-- The program `7`. -/
def astR : Ast := Ast.mk [.cmd (.expr (.numE 7))]

def codeR : Code := Code.mk [.opConst 0, .opRet] [.num 7] [1, 1]

def fR : FnDef := FnDef.mk "" [] codeR

def selfR : CoroSt := CoroSt.new fR

/-- `selfR` after its dispatch loop executed `Ret`. -/
def s3R : CoroSt := ⟨2, fR, .done, [], []⟩

/-- A program containing an empty block expression. -/
def astBad : Ast := Ast.mk [.cmd (.expr (.block []))]

/-- A two-parameter function and a fresh coroutine over it. -/
def fP : FnDef := FnDef.mk "f" ["x", "y"] codeY

def selfP : CoroSt := CoroSt.new fP

/-- A coroutine that has already finished. -/
def doneCo : CoroSt := ⟨2, fY, .done, [], []⟩

theorem compile_astC1 : compile astC1 = some codeC1 := by
  simp [compile, astC1, codeC1, emit_block, emit_bind, emit_cmd, emit_expr, emit_const,
    emit_create, emit_loop, backpatch, patch_jump, patch_branch,
    Code.add, Code.add_const, Code.patch, Code.new, Code.len, Code.instrs, Code.consts,
    Code.lines, valueEqb, List.findIdx?]

theorem compile_astW : compile astW = some codeW := by
  simp [compile, astW, codeW, emit_block, emit_bind, emit_cmd, emit_expr, emit_const,
    emit_create, emit_loop, backpatch, patch_jump, patch_branch,
    Code.add, Code.add_const, Code.patch, Code.new, Code.len, Code.instrs, Code.consts,
    Code.lines, valueEqb, List.findIdx?]

theorem compile_astY : compile astY = some codeY := by
  simp [compile, astY, codeY, emit_block, emit_bind, emit_cmd, emit_expr, emit_const,
    Code.add, Code.add_const, Code.patch, Code.new, Code.len, Code.instrs, Code.consts,
    Code.lines, valueEqb, List.findIdx?]

theorem compile_astR : compile astR = some codeR := by
  simp [compile, astR, codeR, emit_block, emit_bind, emit_cmd, emit_expr, emit_const,
    Code.add, Code.add_const, Code.patch, Code.new, Code.len, Code.instrs, Code.consts,
    Code.lines, valueEqb, List.findIdx?]

theorem compileMain_astC1 : compileMain astC1 = some fC1 := by
  unfold compileMain
  rw [compile_astC1]
  rfl

end Coro

namespace Coro

/-- C4: whenever the dispatch loop of a resumed coroutine exits by executing
`Yield`, the popped value `v` is returned (as `okv v`) as the result of the
enclosing `resume` call, the coroutine is left `Suspended`, and its ip points
at the instruction immediately after the `Yield`; moreover `Yield` itself
pops exactly the top of the operand stack and suspends without moving the
(already advanced) ip. -/
theorem C4_yield_protocol {fuel : Nat} {self s1 s3 : CoroSt} {g g3 : Glob}
    {args : List Value} {v : Value}
    (hpre : JobPre (Job.res self g args))
    (hcs : check_status self = .ok ())
    (hhi : handle_inputs self args = .ok s1)
    (hexec : run fuel (.exec { s1 with status := CoStatus.running } g)
      = (s3, g3, .yielded v)) :
    run (fuel + 1) (.res self g args) = (s3, g3, .okv v) ∧
    s3.status = CoStatus.suspended ∧
    1 ≤ s3.ip ∧ s3.fn.code.instrAt? (s3.ip - 1) = some .opYield ∧
    (∀ s0 : CoroSt, ∀ g0 : Glob, ∀ w : Value, ∀ rest : List Value,
      s0.stack = w :: rest →
      execInstr s0 g0 .opYield
        = .halt { s0 with status := CoStatus.suspended, stack := rest } g0 (.yielded w)) := by
  obtain ⟨hidle, hg, hargs⟩ := hpre
  have hsusp : self.status = .suspended := check_status_ok hcs
  obtain ⟨hrun1, hfn1⟩ := handle_inputs_run hidle hsusp hargs hhi
  have hsite := (exec_halt_shape fuel _ _ _ _ _ hexec).1 v rfl
  obtain ⟨hst3, hip3, hl3, hy3⟩ := hsite
  have hco : CodeOK self.fn.code := (hidle hsusp).1
  have hco3 : CodeOK s3.fn.code := by
    have hfn3 : s3.fn = self.fn := by
      have post := run_master fuel (.exec { s1 with status := CoStatus.running } g)
        ⟨hrun1, hg⟩
      rw [hexec] at post
      exact post.2.2.2.1.trans hfn1
    rw [hfn3]
    exact hco
  have hlt3 : s3.ip < s3.fn.code.instrs.length := by
    have := yield_not_last hco3 hl3 hy3
    omega
  have hnotend : ¬ (s3.fn.code.len ≤ s3.ip) := by
    show ¬ (s3.fn.code.instrs.length ≤ s3.ip)
    omega
  refine ⟨?_, hst3, hip3, ?_, ?_⟩
  · have hres : run (fuel + 1) (.res self g args) = finishResume s3 g3 v := by
      rw [run_succ]
      simp only [runF]
      rw [hcs]
      dsimp only
      rw [hhi]
      dsimp only
      rw [hexec]
    rw [hres]
    simp only [finishResume]
    rw [if_neg hnotend]
  · show s3.fn.code.instrs.get? (s3.ip - 1) = some Instr.opYield
    rw [← hy3]
    simp [List.get?_eq_getElem?, List.getElem?_eq_getElem, List.get_eq_getElem, hl3]
  · intro s0 g0 w rest hs0
    simp only [execInstr]
    rw [hs0]

end Coro

namespace Coro

/-- C5: whenever the dispatch loop of a resumed coroutine terminates by
executing `Ret` or by the ip running off the end of the code, the enclosing
`resume` marks the coroutine `Done` and returns (as `okv`) the value popped
from the top of its operand stack — `Unit` when the stack is empty or when
the code fell off the end; moreover `Ret` itself pops the top of the stack
(or substitutes `Unit`) and marks the coroutine done. -/
theorem C5_return_protocol {fuel : Nat} {self s1 s3 : CoroSt} {g g3 : Glob}
    {args : List Value} {v : Value}
    (hcs : check_status self = .ok ())
    (hhi : handle_inputs self args = .ok s1)
    (hexec : run fuel (.exec { s1 with status := CoStatus.running } g) = (s3, g3, .ret v)
      ∨ (run fuel (.exec { s1 with status := CoStatus.running } g) = (s3, g3, .fell)
          ∧ v = .unit)) :
    (∃ sf : CoroSt, run (fuel + 1) (.res self g args) = (sf, g3, .okv v) ∧
      sf.status = CoStatus.done ∧ sf.ip = s3.ip ∧ sf.fn = s3.fn ∧
      sf.stack = s3.stack ∧ sf.env = s3.env) ∧
    (∀ s0 : CoroSt, ∀ g0 : Glob,
      (∀ w : Value, ∀ rest : List Value, s0.stack = w :: rest →
        execInstr s0 g0 .opRet
          = .halt { s0 with status := CoStatus.done, stack := rest } g0 (.ret w)) ∧
      (s0.stack = [] →
        execInstr s0 g0 .opRet = .halt { s0 with status := CoStatus.done } g0 (.ret .unit))) := by
  constructor
  · rcases hexec with hexec | ⟨hexec, hv⟩
    · have hdone : s3.status = CoStatus.done :=
        (exec_halt_shape fuel _ _ _ _ _ hexec).2.1 v rfl
      have hres : run (fuel + 1) (.res self g args) = finishResume s3 g3 v := by
        rw [run_succ]
        simp only [runF]
        rw [hcs]
        dsimp only
        rw [hhi]
        dsimp only
        rw [hexec]
      by_cases hend : s3.fn.code.len ≤ s3.ip
      · refine ⟨{ s3 with status := CoStatus.done }, ?_, rfl, rfl, rfl, rfl, rfl⟩
        rw [hres]
        simp only [finishResume]
        rw [if_pos hend]
      · refine ⟨s3, ?_, hdone, rfl, rfl, rfl, rfl⟩
        rw [hres]
        simp only [finishResume]
        rw [if_neg hend]
    · subst hv
      have hend : s3.fn.code.len ≤ s3.ip :=
        (exec_halt_shape fuel _ _ _ _ _ hexec).2.2 rfl
      have hres : run (fuel + 1) (.res self g args) = finishResume s3 g3 .unit := by
        rw [run_succ]
        simp only [runF]
        rw [hcs]
        dsimp only
        rw [hhi]
        dsimp only
        rw [hexec]
      refine ⟨{ s3 with status := CoStatus.done }, ?_, rfl, rfl, rfl, rfl, rfl⟩
      rw [hres]
      simp only [finishResume]
      rw [if_pos hend]
  · intro s0 g0
    constructor
    · intro w rest hs0
      simp only [execInstr]
      rw [hs0]
    · intro hs0
      simp only [execInstr]
      rw [hs0]

end Coro

namespace Coro

/-- C1 (amended): for every Str value `s`, executing the `Print` opcode
writes the characters of `s` WITH surrounding quotes — the `Display`
implementation used by `Print` renders `Str` as `"{s}"`, so the claimed
quote-free rendering is wrong; in particular the program
`print (if true then "a" else "b" end)` prints the line `"a"`, not `a`. -/
theorem C1_print_quotes_str {self : CoroSt} {g : Glob} {s : String}
    {rest : List Value} (hs : self.stack = .str s :: rest) :
    execInstr self g .opPrint
      = .next { self with stack := .unit :: rest }
          { g with out := g.out ++ ["\"" ++ s ++ "\""] } ∧
    displayVal g (.str s) = some ("\"" ++ s ++ "\"") := by
  constructor
  · simp only [execInstr]
    rw [hs]
    rfl
  · rfl

/-- C1, the refuting run: the compiled example program writes the line
`"a"` (with quotes), not the line `a` the specification promises. -/
theorem C1_counterexample :
    compileMain astC1 = some fC1 ∧
    (vmRun 20 (CoroSt.new fC1) Glob.empty).2.1.out = ["\"a\""] ∧
    (vmRun 20 (CoroSt.new fC1) Glob.empty).2.1.out ≠ ["a"] := by
  refine ⟨compileMain_astC1, rfl, ?_⟩
  intro hc
  rw [show (vmRun 20 (CoroSt.new fC1) Glob.empty).2.1.out = ["\"a\""] from rfl] at hc
  simp at hc

/-- C1, witness: a concrete `Print` of the string `a`. -/
theorem C1_witness :
    execInstr (CoroSt.mk 8 fC1 .running [] [.str "a"]) Glob.empty .opPrint
      = .next (CoroSt.mk 8 fC1 .running [] [.unit]) (Glob.mk [] ["\"a\""]) ∧
    displayVal Glob.empty (.str "a") = some "\"a\"" :=
  @C1_print_quotes_str (CoroSt.mk 8 fC1 .running [] [.str "a"]) Glob.empty "a" [] rfl

end Coro

namespace Coro

/-- C2 (amended): the naive linear left-to-right simulation claimed by the
specification can dip below zero and need not net +1 per expression, as the
accompanying counterexample shows; what actually holds is the flow-sensitive
discipline:
every code object the compiler produces admits a consistent stack-depth map
from depth 0 (`CodeWT`, jump targets receiving the depth of their source),
and consequently the VM dispatch loop never underflows the operand stack
when running compiled code. -/
theorem C2_stack_discipline {ast : Ast} {code : Code}
    (hc : compile ast = some code) :
    CodeOK code ∧ CodeWT code ∧
    (∀ fuel : Nat, ∀ g : Glob, ∀ args : List Value, GlobOK g → ArgsOK args →
      (run fuel (.res (CoroSt.new (FnDef.mk "" [] code)) g args)).2.2
        ≠ Res.underflow) := by
  have hcok := compile_CodeOK hc
  have hwt : CodeWT code := by
    cases hcok with | mk c hwt hret hjump hcs => exact hwt
  refine ⟨hcok, hwt, ?_⟩
  intro fuel g args hg hargs
  have hidle : CoroIdle (CoroSt.new (FnDef.mk "" [] code)) := by
    intro _
    exact ⟨hcok, fun p hp => absurd hp (List.not_mem_nil p),
      fun w hw => absurd hw (List.not_mem_nil w), Or.inl ⟨rfl, rfl⟩⟩
  exact (run_master fuel (.res (CoroSt.new (FnDef.mk "" [] code)) g args)
    ⟨hidle, hg, hargs⟩).2.1

/-- C2, the refuting scan: on the compiled `while false do 1 end` the linear
simulation of per-opcode stack effects reaches −1, and the complete
expression nets 0 rather than +1 (its value is materialised by the trailing
`Unit`, after two pops of loop state). -/
theorem C2_counterexample :
    compile astW = some codeW ∧
    linearScan codeW.instrs 0 = [0, 1, 1, 0, 1, 0, 0, -1, 0, -1] ∧
    (-1 : Int) ∈ linearScan codeW.instrs 0 := by
  refine ⟨compile_astW, rfl, ?_⟩
  rw [show linearScan codeW.instrs 0 = [0, 1, 1, 0, 1, 0, 0, -1, 0, -1] from rfl]
  simp

/-- C2, witness: the discipline holds of the compiled `while false do 1 end`,
and a concrete run does not underflow. -/
theorem C2_witness :
    CodeOK codeW ∧ CodeWT codeW ∧
    (run 20 (.res (CoroSt.new (FnDef.mk "" [] codeW)) Glob.empty [])).2.2
      ≠ Res.underflow :=
  ⟨(C2_stack_discipline compile_astW).1, (C2_stack_discipline compile_astW).2.1,
   (C2_stack_discipline compile_astW).2.2 20 Glob.empty []
     (fun cell hc => absurd hc (List.not_mem_nil cell))
     (fun w hw => absurd hw (List.not_mem_nil w))⟩

end Coro

namespace Coro

/-- C3: `handle_inputs` on first entry (ip = 0) requires the argument count
to equal the arity — otherwise it fails with the arity error — and binds
each parameter name to the corresponding argument (lookup of the i-th
parameter finds the i-th argument when the parameter names are distinct)
while pushing nothing onto the stack; on re-entry (ip ≠ 0) it pushes `Unit`
when no argument is given, pushes the single argument when one is given, and
fails with the 1-expected arity error when more than one is given. -/
theorem C3_handle_inputs {self : CoroSt} {args : List Value} :
    (∀ n m : Nat, check_arity n m = .ok () ↔ n = m) ∧
    (self.ip = 0 → ∀ e, check_arity self.fn.arity args.length = .error e →
        handle_inputs self args = .error e) ∧
    (self.ip = 0 → self.fn.arity = args.length →
        handle_inputs self args = .ok { self with env := (self.fn.params.zip args).foldl (fun e pa => envInsert e pa.1 pa.2) self.env } ∧
        (self.fn.params.Nodup →
          ∀ i, ∀ hi : i < self.fn.params.length, ∀ hia : i < args.length,
            envGet ((self.fn.params.zip args).foldl
                (fun e pa => envInsert e pa.1 pa.2) self.env)
              (self.fn.params.get ⟨i, hi⟩) = some (args.get ⟨i, hia⟩))) ∧
    (self.ip ≠ 0 → args = [] →
        handle_inputs self args = .ok { self with stack := Value.unit :: self.stack }) ∧
    (self.ip ≠ 0 → ∀ a : Value, args = [a] →
        handle_inputs self args = .ok { self with stack := a :: self.stack }) ∧
    (self.ip ≠ 0 → 2 ≤ args.length → ∀ e, check_arity 1 args.length = .error e →
        handle_inputs self args = .error e) := by
  refine ⟨?_, ?_, ?_, ?_, ?_, ?_⟩
  · intro n m
    constructor
    · intro h
      by_cases hnm : n = m
      · exact hnm
      · unfold check_arity at h
        rw [if_pos hnm] at h
        cases h
    · intro h
      unfold check_arity
      rw [if_neg (by simp [h])]
  · intro hip e hca
    unfold handle_inputs
    rw [if_pos hip, hca]
  · intro hip heq
    have hca : check_arity self.fn.arity args.length = .ok () := by
      unfold check_arity
      rw [if_neg (by simp [heq])]
    constructor
    · unfold handle_inputs
      rw [if_pos hip, hca]
    · intro hnd i hi hia
      exact envGet_paramFold_get self.fn.params args self.env hnd i hi hia
  · intro hip harg
    subst harg
    unfold handle_inputs
    rw [if_neg hip, if_pos List.isEmpty_nil]
  · intro hip a harg
    subst harg
    unfold handle_inputs
    rw [if_neg hip, if_neg (by simp)]
    have hca : check_arity 1 [a].length = .ok () := by
      unfold check_arity
      simp
    rw [hca]
    rfl
  · intro hip hlen e hca
    unfold handle_inputs
    rw [if_neg hip]
    rw [if_neg (by
      intro hc
      rw [List.isEmpty_iff] at hc
      rw [hc] at hlen
      simp at hlen)]
    rw [hca]

/-- C3, witness: a two-parameter coroutine entered for the first time binds
both parameters; a started coroutine pushes the resumed value; two arguments
on re-entry fail the arity check. -/
theorem C3_witness :
    (handle_inputs selfP [Value.num 1, Value.num 2]
      = .ok { selfP with env := ((["x", "y"].zip [Value.num 1, Value.num 2]).foldl (fun e pa => envInsert e pa.1 pa.2) []) } ∧
     envGet ((["x", "y"].zip [Value.num 1, Value.num 2]).foldl
        (fun e pa => envInsert e pa.1 pa.2) []) "x" = some (Value.num 1)) ∧
    handle_inputs (CoroSt.mk 1 fP .suspended [] []) []
      = .ok (CoroSt.mk 1 fP .suspended [] [Value.unit]) ∧
    handle_inputs (CoroSt.mk 1 fP .suspended [] []) [Value.num 3]
      = .ok (CoroSt.mk 1 fP .suspended [] [Value.num 3]) := by
  refine ⟨⟨?_, ?_⟩, ?_, ?_⟩
  · exact (@C3_handle_inputs selfP [Value.num 1, Value.num 2]).2.2.1 rfl rfl |>.1
  · exact (@C3_handle_inputs selfP [Value.num 1, Value.num 2]).2.2.1 rfl rfl |>.2
      (by decide) 0 (by decide) (by decide)
  · exact (@C3_handle_inputs (CoroSt.mk 1 fP .suspended [] []) []).2.2.2.1
      (by decide) rfl
  · exact (@C3_handle_inputs (CoroSt.mk 1 fP .suspended [] []) [Value.num 3]).2.2.2.2.1
      (by decide) (Value.num 3) rfl

end Coro

namespace Coro

/-- C4, witness: resuming the compiled `yield unit` program breaks out at the
`Yield`, resume returns `okv unit`, the coroutine is suspended with ip 2 —
right after the `Yield` at index 1. -/
theorem C4_witness :
    run 6 (.res selfY Glob.empty []) = (s3Y, Glob.empty, .okv .unit) ∧
    s3Y.status = CoStatus.suspended ∧
    1 ≤ s3Y.ip ∧ s3Y.fn.code.instrAt? (s3Y.ip - 1) = some .opYield := by
  have hco : CodeOK fY.code := by
    have h := compile_CodeOK compile_astY
    exact h
  have hpre : JobPre (Job.res selfY Glob.empty []) := by
    refine ⟨?_, fun cell hc => absurd hc (List.not_mem_nil cell),
      fun w hw => absurd hw (List.not_mem_nil w)⟩
    intro _
    exact ⟨hco, fun p hp => absurd hp (List.not_mem_nil p),
      fun w hw => absurd hw (List.not_mem_nil w), Or.inl ⟨rfl, rfl⟩⟩
  have h := @C4_yield_protocol 5 selfY selfY s3Y Glob.empty Glob.empty [] Value.unit
    hpre rfl rfl rfl
  exact ⟨h.1, h.2.1, h.2.2.1, h.2.2.2.1⟩

/-- C5, witness: the compiled program `7` returns through `Ret`; resume
yields `okv (num 7)` and the coroutine ends `Done`. -/
theorem C5_witness :
    (∃ sf : CoroSt, run 6 (.res selfR Glob.empty []) = (sf, Glob.empty, .okv (.num 7)) ∧
      sf.status = CoStatus.done) ∧
    execInstr (CoroSt.mk 9 fR .running [] []) Glob.empty .opRet
      = .halt (CoroSt.mk 9 fR .done [] []) Glob.empty (.ret .unit) := by
  have h := @C5_return_protocol 5 selfR selfR s3R Glob.empty Glob.empty [] (Value.num 7)
    rfl rfl (Or.inl rfl)
  obtain ⟨⟨sf, hrun, hdone, -⟩, hsem⟩ := h
  exact ⟨⟨sf, hrun, hdone⟩, (hsem (CoroSt.mk 9 fR .running [] []) Glob.empty).2 rfl⟩

/-- C6: resuming a coroutine whose status is not `Suspended` (it is `Running`
or `Done`) fails with the error `tried to resume a non-suspended coroutine`,
and the returned coroutine state and global state are exactly the ones passed
in — ip, operand stack, environment and status are all unchanged. -/
theorem C6_resume_nonsuspended {fuel : Nat} {self : CoroSt} {g : Glob}
    {args : List Value} (hst : self.status ≠ .suspended) :
    run fuel (.res self g args)
      = (self, g, .err "tried to resume a non-suspended coroutine") := by
  have hcs := check_status_err hst
  cases fuel with
  | zero =>
    rw [run_zero]
    simp only [runZero]
    rw [hcs]
  | succ n =>
    rw [run_succ]
    simp only [runF]
    rw [hcs]

/-- C6, witness: a fifth resume of a finished coroutine (status `Done`)
fails with the non-suspended error and leaves the coroutine untouched. -/
theorem C6_witness :
    run 3 (.res doneCo Glob.empty [])
      = (doneCo, Glob.empty, .err "tried to resume a non-suspended coroutine") :=
  C6_resume_nonsuspended (by decide)

end Coro

namespace Coro

/-- C7: in every code object the compiler produces, every `Jump`, `Branch`
and `Loop` offset, applied to the index of the instruction immediately
following it, lands at an index inside `[0, code.length)` (for `Loop`, which
subtracts, the offset also never underflows the ip). -/
theorem C7_jump_bounds {ast : Ast} {code : Code} (hc : compile ast = some code) :
    JumpsStrict code.instrs ∧
    (∀ i, ∀ h : i < code.instrs.length, ∀ k : Nat,
      (code.instrs.get ⟨i, h⟩ = .opJump k → i + 1 + k < code.len) ∧
      (code.instrs.get ⟨i, h⟩ = .opBranch k → i + 1 + k < code.len) ∧
      (code.instrs.get ⟨i, h⟩ = .opLoop k → k ≤ i + 1 ∧ i + 1 - k < code.len)) := by
  have hjs : JumpsStrict code.instrs := by
    have hcok := compile_CodeOK hc
    cases hcok with | mk c hwt hret hjump hcs => exact hjump
  refine ⟨hjs, ?_⟩
  intro i h k
  refine ⟨?_, ?_, ?_⟩
  · intro hins
    have hj := hjs i h
    rw [hins] at hj
    exact hj
  · intro hins
    have hj := hjs i h
    rw [hins] at hj
    exact hj
  · intro hins
    have hj := hjs i h
    rw [hins] at hj
    exact ⟨hj.2.1, hj.2.2⟩

/-- C7, witness: the jumps of the compiled `while false do 1 end` all land
inside the code. -/
theorem C7_witness : JumpsStrict codeW.instrs :=
  (C7_jump_bounds compile_astW).1

/-- C8: `Add`, `Sub`, `Mul`, `Div` and `Lt` fail with *operands must be
numbers* when either of the two top stack values is not a `Num`; `Div` of
two `Num`s fails with *cannot divide by zero* exactly when the divisor is 0,
and otherwise pushes `Num (lhs / rhs)`. -/
theorem C8_arith_errors {self : CoroSt} {g : Glob} :
    (∀ op ∈ [Instr.opAdd, Instr.opSub, Instr.opMul, Instr.opDiv, Instr.opLt],
      ∀ rhs lhs : Value, ∀ rest : List Value, self.stack = rhs :: lhs :: rest →
        ¬(rhs.is_num = true ∧ lhs.is_num = true) →
        execInstr self g op = .halt self g (.err "operands must be numbers")) ∧
    (∀ b a : Rat, ∀ rest : List Value, self.stack = .num b :: .num a :: rest →
      (b = 0 → execInstr self g .opDiv
        = .halt { self with stack := rest } g (.err "cannot divide by zero")) ∧
      (b ≠ 0 →
        execInstr self g .opDiv = .next { self with stack := .num (a / b) :: rest } g)) := by
  constructor
  · intro op hop rhs lhs rest hs hnn
    have hcases : op = Instr.opAdd ∨ op = Instr.opSub ∨ op = Instr.opMul ∨
        op = Instr.opDiv ∨ op = Instr.opLt := by simpa using hop
    rcases hcases with rfl | rfl | rfl | rfl | rfl <;>
      (simp only [execInstr]
       rw [hs]
       cases rhs <;> cases lhs <;>
         first
         | rfl
         | exact absurd ⟨rfl, rfl⟩ hnn)
  · intro b a rest hs
    constructor
    · intro hz
      simp only [execInstr]
      rw [hs]
      dsimp only
      rw [if_pos hz]
    · intro hz
      simp only [execInstr]
      rw [hs]
      dsimp only
      rw [if_neg hz]

/-- C8, witness: a boolean left operand of `Add` errors; `3 / 0` errors;
`3 / 2` pushes `1.5`. -/
theorem C8_witness :
    execInstr (CoroSt.mk 0 fY .running [] [.num 1, .bool true]) Glob.empty .opAdd
      = .halt (CoroSt.mk 0 fY .running [] [.num 1, .bool true]) Glob.empty
          (.err "operands must be numbers") ∧
    execInstr (CoroSt.mk 0 fY .running [] [.num 0, .num 3]) Glob.empty .opDiv
      = .halt (CoroSt.mk 0 fY .running [] []) Glob.empty
          (.err "cannot divide by zero") ∧
    execInstr (CoroSt.mk 0 fY .running [] [.num 2, .num 3]) Glob.empty .opDiv
      = .next (CoroSt.mk 0 fY .running [] [.num (3 / 2)]) Glob.empty := by
  refine ⟨?_, ?_, ?_⟩
  · exact (@C8_arith_errors (CoroSt.mk 0 fY .running [] [.num 1, .bool true])
      Glob.empty).1 Instr.opAdd (by simp) (.num 1) (.bool true) [] rfl
      (by intro hc; exact absurd hc.2 (by decide))
  · exact ((@C8_arith_errors (CoroSt.mk 0 fY .running [] [.num 0, .num 3])
      Glob.empty).2 0 3 [] rfl).1 rfl
  · exact ((@C8_arith_errors (CoroSt.mk 0 fY .running [] [.num 2, .num 3])
      Glob.empty).2 2 3 [] rfl).2 (by norm_num)

/-- C9: `rewind` resets the ip to 0, installs the new function, clears the
operand stack, forces the status to `Suspended`, and leaves the environment
exactly unchanged (every binding looks up to the same value), regardless of
the coroutine's prior contents. -/
theorem C9_rewind (co : CoroSt) (fn : FnDef) :
    (rewind co fn).ip = 0 ∧ (rewind co fn).fn = fn ∧
    (rewind co fn).stack = [] ∧ (rewind co fn).status = .suspended ∧
    (rewind co fn).env = co.env ∧
    ∀ k : String, envGet (rewind co fn).env k = envGet co.env k :=
  ⟨rfl, rfl, rfl, rfl, rfl, fun _ => rfl⟩

/-- C10: compilation is total only for programs in which every block
expression has at least one item: any contained empty block makes the
compiler panic (`none` in the model, the `len - 1` underflow in Rust), while
the empty top-level program is special-cased and compiles to the empty code
object. -/
theorem C10_empty_block_panic :
    (∀ ast : Ast, ast.hasEmptyBlock = true → compile ast = none) ∧
    compile (Ast.mk []) = some Code.new :=
  ⟨fun _ h => compile_none_of_hasEmptyBlock h, compile_empty⟩

/-- C10, witness: the one-line program consisting of an empty block fails to
compile. -/
theorem C10_witness :
    astBad.hasEmptyBlock = true ∧ compile astBad = none := by
  have h : astBad.hasEmptyBlock = true := by
    simp [astBad, Ast.hasEmptyBlock, Bind.listHasEmptyBlock, Bind.hasEmptyBlock,
      Cmd.hasEmptyBlock, Expr.hasEmptyBlock]
  exact ⟨h, C10_empty_block_panic.1 astBad h⟩

end Coro
